import Mathlib

/-!
Diamond registry chaincode (`diamonds.go`).

A shallow embedding of the chaincode in `src/diamonds.go` together with the
parts of the Go standard library and of the Hyperledger Fabric shim that the
chaincode calls, followed by theorems about the six operations.

Modelling conventions.

* A Go `string` / `[]byte` is a Lean `String`, that is a sequence of Unicode
  scalar values: the arguments, keys and values of the embedding are the Go
  data that is valid UTF-8, and every statement about the operations is a
  statement about such arguments.  Byte order on UTF-8 text coincides with
  code point order, which is what `lexLt` compares.  Where the code itself
  tests validity (`utf8.ValidString` in the shim, the coercion to U+FFFD in
  `encoding/json`) the test is embedded on the bytes `utf8Bytes` of the text.
* `Runtime` collects the library tables that are not reproduced here: the
  Unicode lower-case mapping behind `strings.ToLower`, the local-time rendering
  behind `time.Time.String`, and the text of `encoding/json` decode errors.
* The store primitives follow the Ledger Store contract of the specification
  and, where the contract is silent, the Fabric 1.x `shim` package: a composite
  key is U+0000, the object type, U+0000 and every attribute followed by U+0000;
  an attribute holding U+0000 or U+10FFFF is refused; a partial-composite-key
  query is the range from the partial key to that key followed by U+10FFFF;
  `PutState` refuses the empty key.
* `Stub` is the invocation-scoped view of the ledger: the world state, the
  per-key history, the store faults the ledger will raise, and a log of the
  store accesses made so far.  Writes are applied to the view at once; the
  ledger commits them only when the invocation ends in success (`commit`).
* A Go panic (index out of range) is the response `Response.panic`.
-/

namespace FabricChaincode

/-! ## Go runtime -/

/-- Library tables of the Go runtime that the chaincode relies on. -/
structure Runtime where
  /-- The rune mapping `unicode.ToLower`. -/
  toLowerRune : Char → Char
  /-- The text of `time.Unix(sec, nsec).String()`. -/
  timeString : Int → Int → String
  /-- The text of the error `json.Unmarshal` reports for an input it rejects. -/
  jsonErrorText : String → String

/-- Go `strings.ToLower`: maps every rune through `unicode.ToLower`. -/
def ToLower (rt : Runtime) (s : String) : String :=
  String.mk (s.data.map rt.toLowerRune)

/-- Decimal digit character for a value below ten. -/
def digitChar (n : Nat) : Char := Char.ofNat (48 + n % 10)

/-- Worker of `natDigits`: most significant digit first, accumulated in `acc`. -/
def natDigitsAux : Nat → Nat → List Char → List Char
  | 0, _, acc => acc
  | fuel + 1, n, acc =>
    if n < 10 then digitChar n :: acc
    else natDigitsAux fuel (n / 10) (digitChar n :: acc)

/-- Decimal rendering of a natural number (`%d`, `strconv.Itoa`). -/
def natDigits (n : Nat) : List Char := natDigitsAux (n + 1) n []

/-- Decimal rendering of an integer (`strconv.AppendInt(_, 10)`). -/
def intDigits (n : Int) : List Char :=
  if n < 0 then '-' :: natDigits n.natAbs else natDigits n.natAbs

/-- Value of a decimal digit character. -/
def digitVal (c : Char) : Option Nat :=
  if 48 ≤ c.toNat ∧ c.toNat ≤ 57 then some (c.toNat - 48) else none

/-- Reads a run of decimal digits, most significant first. -/
def parseDigits : List Char → Nat → Option Nat
  | [], acc => some acc
  | c :: cs, acc =>
    match digitVal c with
    | none => none
    | some d => parseDigits cs (acc * 10 + d)

/-- Signed decimal parse into the 64-bit `int` range, as `strconv.ParseInt(s, 10, 64)`:
an optional sign, at least one digit, nothing else, no overflow. -/
def parseInt64 (s : List Char) : Option Int :=
  match s with
  | [] => none
  | c :: cs =>
    if c = '-' then
      match cs with
      | [] => none
      | _ :: _ =>
        match parseDigits cs 0 with
        | none => none
        | some n => if n ≤ 2 ^ 63 then some (-(n : Int)) else none
    else if c = '+' then
      match cs with
      | [] => none
      | _ :: _ =>
        match parseDigits cs 0 with
        | none => none
        | some n => if n < 2 ^ 63 then some (n : Int) else none
    else
      match parseDigits (c :: cs) 0 with
      | none => none
      | some n => if n < 2 ^ 63 then some (n : Int) else none

/-- Go `strconv.Atoi` on a 64-bit platform; `none` stands for a non-nil error. -/
def Atoi (s : String) : Option Int := parseInt64 s.data

/-! ## Ledger store (Fabric shim) -/

/-- World state: an association list from keys to values; the first binding of a key wins. -/
abbrev KV := List (String × String)

/-- Value bound to `key`, if any. -/
def kvGet : KV → String → Option String
  | [], _ => none
  | (k, v) :: rest, key => if k = key then some v else kvGet rest key

/-- Removes every binding of `key`. -/
def kvDel (kv : KV) (key : String) : KV :=
  kv.filter (fun e => decide (e.1 ≠ key))

/-- Binds `key` to `value`, replacing any earlier binding. -/
def kvPut (kv : KV) (key value : String) : KV :=
  (key, value) :: kvDel kv key

/-- Lexicographic order by code point, which is the byte order of the UTF-8 encodings. -/
def lexLt : List Char → List Char → Bool
  | _, [] => false
  | [], _ :: _ => true
  | a :: as, b :: bs =>
    if a.toNat < b.toNat then true
    else if a = b then lexLt as bs
    else false

/-- Key order of the state database. -/
def keyLe (a b : String) : Bool := !(lexLt b.data a.data)

/-- Membership of a key in the half-open range from `startKey` to `endKey`. -/
def inRange (startKey endKey key : String) : Bool :=
  keyLe startKey key && lexLt key.data endKey.data

/-- Range query: the bindings whose key lies in the range, in ascending key order. -/
def rangeScan (kv : KV) (startKey endKey : String) : KV :=
  (kv.filter (fun e => inRange startKey endKey e.1)).insertionSort
    (fun a b => keyLe a.1 b.1 = true)

/-- One store access made through the stub. -/
inductive Access where
  | get (key : String)
  | put (key value : String)
  | del (key : String)
  | range (startKey endKey : String)
  | history (key : String)
deriving DecidableEq, Repr

/-- Store errors the ledger will raise: for each primitive, the keys on which it
fails together with the error text. -/
structure Faults where
  get : KV
  put : KV
  del : KV
deriving DecidableEq, Repr

/-- A ledger that never raises a store error. -/
def Faults.none : Faults := ⟨[], [], []⟩

/-- One entry of a key's history, as produced by the ledger. -/
structure KeyModification where
  TxId : String
  Value : String
  Seconds : Int
  Nanos : Int
  IsDelete : Bool
deriving DecidableEq, Repr

/-- The chaincode stub of one invocation. -/
structure Stub where
  state : KV
  hist : List (String × List KeyModification)
  faults : Faults
  log : List Access
deriving DecidableEq, Repr

/-- A stub over world state `kv` and history `hist` with a fault-free ledger and an
empty access log. -/
def Stub.fresh (kv : KV) (hist : List (String × List KeyModification)) : Stub :=
  ⟨kv, hist, Faults.none, []⟩

/-- Shim `GetState`: the value, `none` for an absent key, or a store error. -/
def GetState (stub : Stub) (key : String) : Except String (Option String) × Stub :=
  let stub1 := { stub with log := stub.log ++ [Access.get key] }
  match kvGet stub.faults.get key with
  | some e => (Except.error e, stub1)
  | Option.none => (Except.ok (kvGet stub.state key), stub1)

/-- Shim `PutState`: returns the error, if any. The empty key is refused by the shim itself. -/
def PutState (stub : Stub) (key value : String) : Option String × Stub :=
  if key = "" then (some "key must not be an empty string", stub)
  else
    match kvGet stub.faults.put key with
    | some e => (some e, { stub with log := stub.log ++ [Access.put key value] })
    | Option.none =>
      (Option.none, { stub with state := kvPut stub.state key value,
                                log := stub.log ++ [Access.put key value] })

/-- Shim `DelState`: returns the error, if any. -/
def DelState (stub : Stub) (key : String) : Option String × Stub :=
  match kvGet stub.faults.del key with
  | some e => (some e, { stub with log := stub.log ++ [Access.del key] })
  | Option.none =>
    (Option.none, { stub with state := kvDel stub.state key,
                              log := stub.log ++ [Access.del key] })

/-! ## Go strings as byte sequences

A Go `string` holds arbitrary bytes; a Lean `String` is the Go string whose bytes are
the UTF-8 encoding `utf8Bytes` of its runes. -/

/-- The rune U+FFFD, Go `utf8.RuneError`. -/
def runeError : Char := Char.ofNat 0xFFFD

/-- The rune of a two-byte encoding. -/
def rune2 (b0 b1 : Nat) : Char := Char.ofNat ((b0 - 0xC0) * 64 + (b1 - 0x80))

/-- The rune of a three-byte encoding. -/
def rune3 (b0 b1 b2 : Nat) : Char :=
  Char.ofNat ((b0 - 0xE0) * 4096 + (b1 - 0x80) * 64 + (b2 - 0x80))

/-- The rune of a four-byte encoding. -/
def rune4 (b0 b1 b2 b3 : Nat) : Char :=
  Char.ofNat ((b0 - 0xF0) * 262144 + (b1 - 0x80) * 4096 + (b2 - 0x80) * 64 + (b3 - 0x80))

/-- The byte continues a multi-byte encoding. -/
def isCont (b : Nat) : Prop := 0x80 ≤ b ∧ b ≤ 0xBF

instance (b : Nat) : Decidable (isCont b) := by unfold isCont; infer_instance

/-- Go `utf8.DecodeRune`: the first rune of the bytes and its width; bytes that do not
start a valid encoding (over-long forms, surrogates, values above U+10FFFF, stray or
missing continuation bytes) give U+FFFD of width 1. -/
def decodeRune : List Nat → Char × Nat
  | [] => (runeError, 0)
  | b0 :: rest =>
    if b0 < 0x80 then (Char.ofNat b0, 1)
    else if 0xC2 ≤ b0 ∧ b0 ≤ 0xDF then
      match rest with
      | b1 :: _ => if isCont b1 then (rune2 b0 b1, 2) else (runeError, 1)
      | [] => (runeError, 1)
    else if 0xE0 ≤ b0 ∧ b0 ≤ 0xEF then
      match rest with
      | b1 :: b2 :: _ =>
        if (if b0 = 0xE0 then 0xA0 else 0x80) ≤ b1 ∧ b1 ≤ (if b0 = 0xED then 0x9F else 0xBF)
            ∧ isCont b2 then (rune3 b0 b1 b2, 3)
        else (runeError, 1)
      | _ => (runeError, 1)
    else if 0xF0 ≤ b0 ∧ b0 ≤ 0xF4 then
      match rest with
      | b1 :: b2 :: b3 :: _ =>
        if (if b0 = 0xF0 then 0x90 else 0x80) ≤ b1 ∧ b1 ≤ (if b0 = 0xF4 then 0x8F else 0xBF)
            ∧ isCont b2 ∧ isCont b3 then (rune4 b0 b1 b2 b3, 4)
        else (runeError, 1)
      | _ => (runeError, 1)
    else (runeError, 1)

/-- Go `utf8.EncodeRune`. -/
def encodeRune (c : Char) : List Nat :=
  if c.toNat < 0x80 then [c.toNat]
  else if c.toNat < 0x800 then [0xC0 + c.toNat / 64, 0x80 + c.toNat % 64]
  else if c.toNat < 0x10000 then
    [0xE0 + c.toNat / 4096, 0x80 + c.toNat / 64 % 64, 0x80 + c.toNat % 64]
  else
    [0xF0 + c.toNat / 262144, 0x80 + c.toNat / 4096 % 64, 0x80 + c.toNat / 64 % 64,
      0x80 + c.toNat % 64]

/-- The UTF-8 bytes of a text. -/
def utf8Bytes : List Char → List Nat
  | [] => []
  | c :: cs => encodeRune c ++ utf8Bytes cs

/-- The runes Go reads from a byte string (`range` over a string, `[]rune`), every
invalid byte being U+FFFD. The fuel bounds the number of runes; the length of the string
is enough. -/
def goText : Nat → List Nat → List Char
  | 0, _ => []
  | _ + 1, [] => []
  | fuel + 1, b :: bs =>
    (decodeRune (b :: bs)).1 :: goText fuel ((b :: bs).drop (decodeRune (b :: bs)).2)

/-- Go `utf8.ValidString`: no byte of the string is outside a valid encoding. The fuel
bounds the number of runes; the length of the string is enough. -/
def validString : Nat → List Nat → Bool
  | _, [] => true
  | 0, _ :: _ => false
  | fuel + 1, b :: bs =>
    if 0x80 ≤ b ∧ (decodeRune (b :: bs)).2 = 1 then false
    else validString fuel ((b :: bs).drop (decodeRune (b :: bs)).2)

/-- Lower-case hexadecimal digit. -/
def hexChar (n : Nat) : Char :=
  if n < 10 then Char.ofNat (48 + n) else Char.ofNat (87 + n)

/-- The bytes in lower-case hexadecimal, two digits each: `fmt` verb `%x` on a string. -/
def hexBytes : List Nat → List Char
  | [] => []
  | b :: bs => hexChar (b / 16) :: hexChar (b % 16) :: hexBytes bs

/-! ## Composite keys -/

/-- The rune U+0000, separator of composite keys. -/
def minUnicodeRuneValue : Char := Char.ofNat 0

/-- The rune U+10FFFF, upper bound of composite-key range scans. -/
def maxUnicodeRuneValue : Char := Char.ofNat 0x10FFFF

/-- The loop of shim `validateCompositeKeyAttribute` over the runes of the string,
from byte position `pos` on. The error text is that of `fmt.Errorf` with `%#U` and `%d`
in the early 1.x releases. -/
def validateFrom : List Char → Nat → Except String Unit
  | [], _ => Except.ok ()
  | c :: cs, pos =>
    if c = minUnicodeRuneValue then
      Except.error ("Input contain unicode U+0000 starting at position ["
        ++ String.mk (natDigits pos)
        ++ "]. U+0000 and U+10FFFF are not allowed in the input attribute of a composite key")
    else if c = maxUnicodeRuneValue then
      Except.error ("Input contain unicode U+10FFFF starting at position ["
        ++ String.mk (natDigits pos)
        ++ "]. U+0000 and U+10FFFF are not allowed in the input attribute of a composite key")
    else validateFrom cs (pos + c.utf8Size)

/-- Shim `validateCompositeKeyAttribute` on a Go string given by its bytes: a string
that is not valid UTF-8 is refused, then the runes are checked. -/
def validateCompositeKeyAttributeBytes (str : List Nat) : Except String Unit :=
  if validString str.length str then validateFrom (goText str.length str) 0
  else Except.error ("Not a valid utf8 string: [" ++ String.mk (hexBytes str) ++ "]")

/-- Shim `validateCompositeKeyAttribute` on a text, the Go string of its UTF-8 bytes. -/
def validateCompositeKeyAttribute (str : String) : Except String Unit :=
  validateCompositeKeyAttributeBytes (utf8Bytes str.data)

/-- Appends the attributes of a composite key, each followed by U+0000. -/
def appendAttributes : List String → String → Except String String
  | [], ck => Except.ok ck
  | att :: rest, ck =>
    match validateCompositeKeyAttribute att with
    | Except.error e => Except.error e
    | Except.ok _ => appendAttributes rest (ck ++ att ++ String.mk [minUnicodeRuneValue])

/-- Shim `CreateCompositeKey`: U+0000, the object type, U+0000, then every attribute
followed by U+0000. -/
def CreateCompositeKey (objectType : String) (attributes : List String) : Except String String :=
  match validateCompositeKeyAttribute objectType with
  | Except.error e => Except.error e
  | Except.ok _ =>
    appendAttributes attributes
      (String.mk [minUnicodeRuneValue] ++ objectType ++ String.mk [minUnicodeRuneValue])

/-- Components of a composite key: the U+0000-terminated segments; `cur` holds the
current segment reversed. An unterminated tail is dropped. -/
def splitComponents : List Char → List Char → List String
  | [], _ => []
  | c :: cs, cur =>
    if c = minUnicodeRuneValue then String.mk cur.reverse :: splitComponents cs []
    else splitComponents cs (c :: cur)

/-- Shim `SplitCompositeKey`: skips the leading namespace rune and returns the object
type and the attributes; `none` when there is no component at all (the Go code
indexes `components[0]` and panics). -/
def SplitCompositeKey (compositeKey : String) : Option (String × List String) :=
  match splitComponents compositeKey.data.tail [] with
  | [] => Option.none
  | c :: cs => some (c, cs)

/-- Shim `GetStateByPartialCompositeKey`: the range query from the partial composite
key to that key followed by U+10FFFF. -/
def GetStateByPartialCompositeKey (stub : Stub) (objectType : String) (attributes : List String) :
    Except String KV × Stub :=
  match CreateCompositeKey objectType attributes with
  | Except.error e => (Except.error e, stub)
  | Except.ok startKey =>
    let endKey := startKey ++ String.mk [maxUnicodeRuneValue]
    (Except.ok (rangeScan stub.state startKey endKey),
      { stub with log := stub.log ++ [Access.range startKey endKey] })

/-- Shim `GetHistoryForKey`: the recorded modifications of the key, oldest first. -/
def GetHistoryForKey (stub : Stub) (key : String) : List KeyModification × Stub :=
  (((stub.hist.find? (fun e => e.1 = key)).map (fun e => e.2)).getD [],
    { stub with log := stub.log ++ [Access.history key] })

/-! ## `encoding/json` for the `diamond` struct -/

/-- The record type of the chaincode. -/
structure diamond where
  ObjectType : String
  Name : String
  Origin : String
  Carats : Int
  Owner : String
deriving DecidableEq, Repr

/-- The double quote. -/
def quoteRune : Char := Char.ofNat 34

/-- The backslash. -/
def backslashRune : Char := Char.ofNat 92

/-- Escaping of one rune by `json.Marshal` (HTML escaping on, Go releases before 1.22):
quote and backslash get a backslash, newline, carriage return and tab their short form,
other control runes and the runes `<`, `>`, `&` the form `\u00XY`, and U+2028, U+2029
the form `\u202X`. -/
def escapeRune (c : Char) : List Char :=
  if c.toNat = 34 ∨ c.toNat = 92 then [backslashRune, c]
  else if c.toNat = 10 then [backslashRune, 'n']
  else if c.toNat = 13 then [backslashRune, 'r']
  else if c.toNat = 9 then [backslashRune, 't']
  else if c.toNat < 32 ∨ c.toNat = 60 ∨ c.toNat = 62 ∨ c.toNat = 38 then
    [backslashRune, 'u', '0', '0', hexChar (c.toNat / 16), hexChar (c.toNat % 16)]
  else if c.toNat = 0x2028 ∨ c.toNat = 0x2029 then
    [backslashRune, 'u', '2', '0', '2', hexChar (c.toNat % 16)]
  else [c]

/-- Escaped body of a JSON string literal. -/
def escapeString : List Char → List Char
  | [] => []
  | c :: cs => escapeRune c ++ escapeString cs

/-- JSON string literal of a Go string. -/
def quoteString (s : String) : List Char :=
  quoteRune :: (escapeString s.data ++ [quoteRune])

/-- Go `json.Marshal` of a `diamond`: the five fields in declaration order under their
JSON tags. It has no error case for this struct. -/
def Marshal (d : diamond) : String :=
  String.mk ("\x7b\"docType\":".data ++ quoteString d.ObjectType
    ++ ",\"name\":".data ++ quoteString d.Name
    ++ ",\"origin\":".data ++ quoteString d.Origin
    ++ ",\"carats\":".data ++ intDigits d.Carats
    ++ ",\"owner\":".data ++ quoteString d.Owner
    ++ "\x7d".data)

/-- Parsed JSON text; a number keeps its literal. -/
inductive JSON where
  | null
  | bool (b : Bool)
  | num (lit : List Char)
  | str (s : List Char)
  | arr (items : List JSON)
  | obj (members : List (List Char × JSON))

/-- JSON insignificant white space. -/
def isSpace (c : Char) : Bool :=
  c.toNat = 32 || c.toNat = 9 || c.toNat = 13 || c.toNat = 10

/-- Drops leading white space. -/
def skipSpace : List Char → List Char
  | [] => []
  | c :: cs => if isSpace c then skipSpace cs else c :: cs

/-- Value of a hexadecimal digit of either case. -/
def hexVal (c : Char) : Option Nat :=
  if 48 ≤ c.toNat ∧ c.toNat ≤ 57 then some (c.toNat - 48)
  else if 97 ≤ c.toNat ∧ c.toNat ≤ 102 then some (c.toNat - 87)
  else if 65 ≤ c.toNat ∧ c.toNat ≤ 70 then some (c.toNat - 55)
  else Option.none

/-- Four hexadecimal digits, with the rest of the input. -/
def hex4 : List Char → Option (Nat × List Char)
  | a :: b :: c :: d :: rest =>
    match hexVal a, hexVal b, hexVal c, hexVal d with
    | some x, some y, some z, some w => some (((x * 16 + y) * 16 + z) * 16 + w, rest)
    | _, _, _, _ => Option.none
  | _ => Option.none

/-- Go `getu4`: a `\uXXXX` escape at the head of the input. -/
def getu4 : List Char → Option (Nat × List Char)
  | b :: u :: rest => if b = backslashRune ∧ u = 'u' then hex4 rest else Option.none
  | _ => Option.none

/-- The rune of a one-letter escape. -/
def simpleEscape (e : Char) : Option Char :=
  if e = quoteRune then some quoteRune
  else if e = backslashRune then some backslashRune
  else if e = '/' then some '/'
  else if e = 'b' then some (Char.ofNat 8)
  else if e = 'f' then some (Char.ofNat 12)
  else if e = 'n' then some (Char.ofNat 10)
  else if e = 'r' then some (Char.ofNat 13)
  else if e = 't' then some (Char.ofNat 9)
  else Option.none

/-- Puts a decoded rune in front of the decoded remainder. -/
def consRune (c : Char) (r : Option (List Char × List Char)) : Option (List Char × List Char) :=
  r.map (fun p => (c :: p.1, p.2))

/-- Body of a JSON string literal, after the opening quote: the decoded text and the
input after the closing quote. A `\u` escape naming a surrogate is joined with a
following low surrogate escape and is U+FFFD otherwise, as in Go `unquote`. -/
def unquoteBody : Nat → List Char → Option (List Char × List Char)
  | 0, _ => Option.none
  | _ + 1, [] => Option.none
  | fuel + 1, c :: cs =>
    if c = quoteRune then some ([], cs)
    else if c = backslashRune then
      match cs with
      | [] => Option.none
      | e :: rest =>
        if e = 'u' then
          match hex4 rest with
          | Option.none => Option.none
          | some (rr, rest1) =>
            if 0xD800 ≤ rr ∧ rr < 0xE000 then
              match getu4 rest1 with
              | some (rr1, rest2) =>
                if rr < 0xDC00 ∧ 0xDC00 ≤ rr1 ∧ rr1 < 0xE000 then
                  consRune (Char.ofNat ((rr - 0xD800) * 1024 + (rr1 - 0xDC00) + 0x10000))
                    (unquoteBody fuel rest2)
                else consRune (Char.ofNat 0xFFFD) (unquoteBody fuel rest1)
              | Option.none => consRune (Char.ofNat 0xFFFD) (unquoteBody fuel rest1)
            else consRune (Char.ofNat rr) (unquoteBody fuel rest1)
        else
          match simpleEscape e with
          | Option.none => Option.none
          | some ch => consRune ch (unquoteBody fuel rest)
    else if c.toNat < 32 then Option.none
    else consRune c (unquoteBody fuel cs)

/-- Splits off the leading run of decimal digits. -/
def takeDigits : List Char → List Char × List Char
  | [] => ([], [])
  | c :: cs =>
    if (digitVal c).isSome then ((takeDigits cs).1.cons c, (takeDigits cs).2)
    else ([], c :: cs)

/-- Integer part of a JSON number: a single zero, or a non-zero digit and more digits. -/
def scanIntPart : List Char → Option (List Char × List Char)
  | [] => Option.none
  | c :: cs =>
    if c = '0' then some (['0'], cs)
    else if (digitVal c).isSome then some (c :: (takeDigits cs).1, (takeDigits cs).2)
    else Option.none

/-- Optional fraction of a JSON number. -/
def scanFraction : List Char → Option (List Char × List Char)
  | [] => some ([], [])
  | c :: cs =>
    if c = '.' then
      match takeDigits cs with
      | ([], _) => Option.none
      | (ds, rest) => some ('.' :: ds, rest)
    else some ([], c :: cs)

/-- Optional exponent of a JSON number. -/
def scanExponent : List Char → Option (List Char × List Char)
  | [] => some ([], [])
  | c :: cs =>
    if c = 'e' ∨ c = 'E' then
      match cs with
      | [] => Option.none
      | s :: cs1 =>
        if s = '+' ∨ s = '-' then
          match takeDigits cs1 with
          | ([], _) => Option.none
          | (ds, rest) => some (c :: s :: ds, rest)
        else
          match takeDigits (s :: cs1) with
          | ([], _) => Option.none
          | (ds, rest) => some (c :: ds, rest)
    else some ([], c :: cs)

/-- Literal of a JSON number at the head of the input, with the rest of the input. -/
def scanNumber (input : List Char) : Option (List Char × List Char) :=
  let signed : List Char × List Char :=
    match input with
    | c :: cs => if c = '-' then (['-'], cs) else ([], c :: cs)
    | [] => ([], [])
  match scanIntPart signed.2 with
  | Option.none => Option.none
  | some (ip, r1) =>
    match scanFraction r1 with
    | Option.none => Option.none
    | some (fp, r2) =>
      match scanExponent r2 with
      | Option.none => Option.none
      | some (ep, r3) => some (signed.1 ++ ip ++ fp ++ ep, r3)

/-- Consumes the given literal from the head of the input. -/
def expectLit : List Char → List Char → Option (List Char)
  | [], input => some input
  | _ :: _, [] => Option.none
  | l :: ls, c :: cs => if l = c then expectLit ls cs else Option.none

mutual
/-- One JSON value at the head of the input (leading white space already dropped).
The fuel bounds the nesting and the member count; the input length always suffices. -/
def parseValue : Nat → List Char → Option (JSON × List Char)
  | 0, _ => Option.none
  | _ + 1, [] => Option.none
  | fuel + 1, c :: cs =>
    if c = Char.ofNat 123 then
      match skipSpace cs with
      | [] => Option.none
      | d :: rest =>
        if d = Char.ofNat 125 then some (JSON.obj [], rest)
        else (parseMembers fuel (d :: rest)).map (fun p => (JSON.obj p.1, p.2))
    else if c = '[' then
      match skipSpace cs with
      | [] => Option.none
      | d :: rest =>
        if d = ']' then some (JSON.arr [], rest)
        else (parseElements fuel (d :: rest)).map (fun p => (JSON.arr p.1, p.2))
    else if c = quoteRune then
      (unquoteBody (cs.length + 1) cs).map (fun p => (JSON.str p.1, p.2))
    else if c = 't' then (expectLit ['r', 'u', 'e'] cs).map (fun r => (JSON.bool true, r))
    else if c = 'f' then
      (expectLit ['a', 'l', 's', 'e'] cs).map (fun r => (JSON.bool false, r))
    else if c = 'n' then (expectLit ['u', 'l', 'l'] cs).map (fun r => (JSON.null, r))
    else (scanNumber (c :: cs)).map (fun p => (JSON.num p.1, p.2))
/-- The members of an object up to and including the closing brace. -/
def parseMembers : Nat → List Char → Option (List (List Char × JSON) × List Char)
  | 0, _ => Option.none
  | _ + 1, [] => Option.none
  | fuel + 1, q :: cs =>
    if q = quoteRune then
      match unquoteBody (cs.length + 1) cs with
      | Option.none => Option.none
      | some (key, r0) =>
        match skipSpace r0 with
        | [] => Option.none
        | colon :: r1 =>
          if colon = ':' then
            match parseValue fuel (skipSpace r1) with
            | Option.none => Option.none
            | some (v, r2) =>
              match skipSpace r2 with
              | [] => Option.none
              | d :: r3 =>
                if d = ',' then
                  (parseMembers fuel (skipSpace r3)).map (fun p => ((key, v) :: p.1, p.2))
                else if d = Char.ofNat 125 then some ([(key, v)], r3)
                else Option.none
          else Option.none
    else Option.none
/-- The elements of an array up to and including the closing bracket. -/
def parseElements : Nat → List Char → Option (List JSON × List Char)
  | 0, _ => Option.none
  | fuel + 1, input =>
    match parseValue fuel input with
    | Option.none => Option.none
    | some (v, r2) =>
      match skipSpace r2 with
      | [] => Option.none
      | d :: r3 =>
        if d = ',' then (parseElements fuel (skipSpace r3)).map (fun p => (v :: p.1, p.2))
        else if d = ']' then some ([v], r3)
        else Option.none
end

/-- A complete JSON text: one value surrounded by optional white space. -/
def parseJSON (input : List Char) : Option JSON :=
  match parseValue (input.length + 1) (skipSpace input) with
  | Option.none => Option.none
  | some (v, rest) => if skipSpace rest = [] then some v else Option.none

/-- Case folding of object keys: ASCII letters, plus the long s U+017F which folds to `s`
and the Kelvin sign U+212A which folds to `k`. -/
def foldRune (c : Char) : Char :=
  if 65 ≤ c.toNat ∧ c.toNat ≤ 90 then Char.ofNat (c.toNat + 32)
  else if c.toNat = 0x17F then 's'
  else if c.toNat = 0x212A then 'k'
  else c

/-- Stores a JSON value into a string field: a string is stored, `null` leaves the
struct as it is, any other value is a type error (`none`). -/
def storeString (v : JSON) (set : String → diamond) (d : diamond) : Option diamond :=
  match v with
  | JSON.str s => some (set (String.mk s))
  | JSON.null => some d
  | _ => Option.none

/-- Stores a JSON value into an `int` field: a number must be a 64-bit integer literal,
`null` leaves the struct as it is, any other value is a type error (`none`). -/
def storeInt (v : JSON) (set : Int → diamond) (d : diamond) : Option diamond :=
  match v with
  | JSON.num lit => (parseInt64 lit).map set
  | JSON.null => some d
  | _ => Option.none

/-- Stores one object member into the struct. A key selects a field when it equals
the field's JSON tag up to case folding; other keys are skipped. -/
def setField (d : diamond) (key : List Char) (v : JSON) : Option diamond :=
  let k := key.map foldRune
  if k = "doctype".data then storeString v (fun s => { d with ObjectType := s }) d
  else if k = "name".data then storeString v (fun s => { d with Name := s }) d
  else if k = "origin".data then storeString v (fun s => { d with Origin := s }) d
  else if k = "carats".data then storeInt v (fun n => { d with Carats := n }) d
  else if k = "owner".data then storeString v (fun s => { d with Owner := s }) d
  else some d

/-- Stores the members in input order, so that a repeated key takes its last value. -/
def decodeMembers : List (List Char × JSON) → diamond → Option diamond
  | [], d => some d
  | (key, v) :: rest, d =>
    match setField d key v with
    | Option.none => Option.none
    | some d1 => decodeMembers rest d1

/-- Go `json.Unmarshal` into a zero `diamond`: the text must be valid JSON and either
`null` (nothing is stored) or an object whose members fit the fields. -/
def Unmarshal (rt : Runtime) (data : String) : Except String diamond :=
  match parseJSON data.data with
  | some JSON.null => Except.ok ⟨"", "", "", 0, ""⟩
  | some (JSON.obj members) =>
    match decodeMembers members ⟨"", "", "", 0, ""⟩ with
    | some d => Except.ok d
    | Option.none => Except.error (rt.jsonErrorText data)
  | _ => Except.error (rt.jsonErrorText data)

/-! ## The chaincode -/

/-- The response of an invocation (`pb.Response`): `shim.Success`, `shim.Error`, or no
response at all because the Go code panicked. -/
inductive Response where
  | success (payload : Option String)
  | error (message : String)
  | panic
deriving DecidableEq, Repr

/-- `createDiamond` - create a new diamond, store into chaincode state. -/
def createDiamond (rt : Runtime) (stub : Stub) (args : List String) : Response × Stub :=
  match args with
  | [a0, a1, a2, a3] =>
    if a0 = "" then (Response.error "1st argument must be a non-empty string", stub)
    else if a1 = "" then (Response.error "2nd argument must be a non-empty string", stub)
    else if a2 = "" then (Response.error "3rd argument must be a non-empty string", stub)
    else if a3 = "" then (Response.error "4th argument must be a non-empty string", stub)
    else
      let diamondName := a0
      let origin := ToLower rt a1
      let owner := ToLower rt a3
      match Atoi a2 with
      | Option.none => (Response.error "3rd argument must be a numeric string", stub)
      | some carats =>
        match GetState stub diamondName with
        | (Except.error err, stub1) => (Response.error ("Failed to get diamond: " ++ err), stub1)
        | (Except.ok (some _), stub1) =>
          (Response.error ("This diamond already exists: " ++ diamondName), stub1)
        | (Except.ok Option.none, stub1) =>
          let d : diamond := ⟨"diamond", diamondName, origin, carats, owner⟩
          let diamondJSONasBytes := Marshal d
          match PutState stub1 diamondName diamondJSONasBytes with
          | (some err, stub2) => (Response.error err, stub2)
          | (Option.none, stub2) =>
            match CreateCompositeKey "origin~name" [d.Origin, d.Name] with
            | Except.error err => (Response.error err, stub2)
            | Except.ok originNameIndexKey =>
              let value := String.mk [Char.ofNat 0]
              (Response.success Option.none, (PutState stub2 originNameIndexKey value).2)
  | _ => (Response.error "Incorrect number of arguments. Expecting 4", stub)

/-- `queryDiamond` - read a diamond from chaincode state. -/
def queryDiamond (stub : Stub) (args : List String) : Response × Stub :=
  match args with
  | [name] =>
    match GetState stub name with
    | (Except.error _, stub1) =>
      (Response.error ("\x7b\"Error\":\"Failed to get state for " ++ name ++ "\"\x7d"), stub1)
    | (Except.ok Option.none, stub1) =>
      (Response.error ("\x7b\"Error\":\"Diamond does not exist: " ++ name ++ "\"\x7d"), stub1)
    | (Except.ok (some valAsbytes), stub1) => (Response.success (some valAsbytes), stub1)
  | _ =>
    (Response.error "Incorrect number of arguments. Expecting name of the diamond to query", stub)

/-- `delete` - remove a diamond key/value pair from state. -/
def delete (rt : Runtime) (stub : Stub) (args : List String) : Response × Stub :=
  match args with
  | [diamondName] =>
    match GetState stub diamondName with
    | (Except.error _, stub1) =>
      (Response.error ("\x7b\"Error\":\"Failed to get state for " ++ diamondName ++ "\"\x7d"),
        stub1)
    | (Except.ok Option.none, stub1) =>
      (Response.error ("\x7b\"Error\":\"Diamond does not exist: " ++ diamondName ++ "\"\x7d"),
        stub1)
    | (Except.ok (some valAsbytes), stub1) =>
      match Unmarshal rt valAsbytes with
      | Except.error _ =>
        (Response.error
          ("\x7b\"Error\":\"Failed to decode JSON of: " ++ diamondName ++ "\"\x7d"), stub1)
      | Except.ok diamondJSON =>
        match DelState stub1 diamondName with
        | (some err, stub2) => (Response.error ("Failed to delete state:" ++ err), stub2)
        | (Option.none, stub2) =>
          match CreateCompositeKey "origin~name" [diamondJSON.Origin, diamondJSON.Name] with
          | Except.error err => (Response.error err, stub2)
          | Except.ok originNameIndexKey =>
            match DelState stub2 originNameIndexKey with
            | (some err, stub3) => (Response.error ("Failed to delete state:" ++ err), stub3)
            | (Option.none, stub3) => (Response.success Option.none, stub3)
  | _ => (Response.error "Incorrect number of arguments. Expecting 1", stub)

/-- `transferDiamond` - transfer a diamond by setting a new owner name on the diamond. -/
def transferDiamond (rt : Runtime) (stub : Stub) (args : List String) : Response × Stub :=
  match args with
  | diamondName :: a1 :: _ =>
    let newOwner := ToLower rt a1
    match GetState stub diamondName with
    | (Except.error err, stub1) => (Response.error ("Failed to get diamond:" ++ err), stub1)
    | (Except.ok Option.none, stub1) => (Response.error "Diamond does not exist", stub1)
    | (Except.ok (some diamondAsBytes), stub1) =>
      match Unmarshal rt diamondAsBytes with
      | Except.error err => (Response.error err, stub1)
      | Except.ok diamondToTransfer =>
        let diamondJSONasBytes := Marshal { diamondToTransfer with Owner := newOwner }
        match PutState stub1 diamondName diamondJSONasBytes with
        | (some err, stub2) => (Response.error err, stub2)
        | (Option.none, stub2) => (Response.success Option.none, stub2)
  | _ => (Response.error "Incorrect number of arguments. Expecting 2", stub)

/-- The loop of `transferdiamondsBasedOnOrigin` over the entries the index scan
returned, `i` being the loop counter. -/
def transferLoop (rt : Runtime) (origin newOwner : String) : KV → Nat → Stub → Response × Stub
  | [], i, stub =>
    (Response.success (some ("Transferred " ++ String.mk (natDigits i) ++ " " ++ origin
      ++ " diamonds to " ++ newOwner)), stub)
  | responseRange :: rest, i, stub =>
    match SplitCompositeKey responseRange.1 with
    | Option.none => (Response.panic, stub)
    | some (_, compositeKeyParts) =>
      match compositeKeyParts with
      | _ :: returneddiamondName :: _ =>
        match transferDiamond rt stub [returneddiamondName, newOwner] with
        | (Response.success _, stub1) => transferLoop rt origin newOwner rest (i + 1) stub1
        | (Response.error message, stub1) =>
          (Response.error ("Transfer failed: " ++ message), stub1)
        | (Response.panic, stub1) => (Response.panic, stub1)
      | _ => (Response.panic, stub)

/-- `transferdiamondsBasedOnOrigin` - transfer all diamonds of a certain origin. -/
def transferdiamondsBasedOnOrigin (rt : Runtime) (stub : Stub) (args : List String) :
    Response × Stub :=
  match args with
  | origin :: a1 :: _ =>
    let newOwner := ToLower rt a1
    match GetStateByPartialCompositeKey stub "origin~name" [origin] with
    | (Except.error err, stub1) => (Response.error err, stub1)
    | (Except.ok originateddiamondResults, stub1) =>
      transferLoop rt origin newOwner originateddiamondResults 0 stub1
  | _ => (Response.error "Incorrect number of arguments. Expecting 2", stub)

/-- The loop of `getHistoryFordiamond`: appends one JSON object per history entry to
the buffer, with a comma before every entry but the first. -/
def historyLoop (rt : Runtime) : List KeyModification → Bool → String → String
  | [], _, buffer => buffer
  | response :: rest, bArrayMemberAlreadyWritten, buffer =>
    let buffer1 := if bArrayMemberAlreadyWritten then buffer ++ "," else buffer
    let buffer2 := buffer1 ++ "\x7b\"TxId\":" ++ "\"" ++ response.TxId ++ "\""
      ++ ", \"Value\":" ++ (if response.IsDelete then "null" else response.Value)
      ++ ", \"Timestamp\":" ++ "\"" ++ rt.timeString response.Seconds response.Nanos ++ "\""
      ++ ", \"IsDelete\":" ++ "\"" ++ (if response.IsDelete then "true" else "false") ++ "\""
      ++ "\x7d"
    historyLoop rt rest true buffer2

/-- `getHistoryFordiamond` - get history of values for a diamond. -/
def getHistoryFordiamond (rt : Runtime) (stub : Stub) (args : List String) : Response × Stub :=
  match args with
  | diamondName :: _ =>
    let results := GetHistoryForKey stub diamondName
    (Response.success (some (historyLoop rt results.1 false "[" ++ "]")), results.2)
  | [] => (Response.error "Incorrect number of arguments. Expecting 1", stub)

/-- `Invoke` - the entry point for invocations. -/
def Invoke (rt : Runtime) (stub : Stub) (function : String) (args : List String) :
    Response × Stub :=
  if function = "createDiamond" then createDiamond rt stub args
  else if function = "transferDiamond" then transferDiamond rt stub args
  else if function = "transferdiamondsBasedOnOrigin" then transferdiamondsBasedOnOrigin rt stub args
  else if function = "delete" then delete rt stub args
  else if function = "queryDiamond" then queryDiamond stub args
  else if function = "getHistoryFordiamond" then getHistoryFordiamond rt stub args
  else (Response.error "Received unknown function invocation", stub)

/-! ## Committed states -/

/-- World state after one invocation against a fault-free ledger: the writes of the
invocation are committed when it ends in success and discarded otherwise. -/
def commit (rt : Runtime) (hist : List (String × List KeyModification)) (kv : KV)
    (function : String) (args : List String) : KV :=
  match Invoke rt (Stub.fresh kv hist) function args with
  | (Response.success _, stub) => stub.state
  | _ => kv

/-- World states reachable from the empty store by invocations of the chaincode on a
ledger that raises no store error: each step commits one invocation run on
`Stub.fresh`. The states reached when the ledger may fail are `ReachableFaulty`. -/
inductive Reachable (rt : Runtime) : KV → Prop where
  | empty : Reachable rt []
  | step (kv : KV) (hist : List (String × List KeyModification)) (function : String)
      (args : List String) : Reachable rt kv → Reachable rt (commit rt hist kv function args)

/-- World state after one invocation against a ledger that raises the given store
errors: the writes of the invocation are committed when it ends in success and
discarded otherwise. -/
def commitFaulty (rt : Runtime) (faults : Faults) (hist : List (String × List KeyModification))
    (kv : KV) (function : String) (args : List String) : KV :=
  match Invoke rt ⟨kv, hist, faults, []⟩ function args with
  | (Response.success _, stub) => stub.state
  | _ => kv

/-- World states reachable from the empty store by invocations of the chaincode, on a
ledger that may raise store errors. -/
inductive ReachableFaulty (rt : Runtime) : KV → Prop where
  | empty : ReachableFaulty rt []
  | step (kv : KV) (faults : Faults) (hist : List (String × List KeyModification))
      (function : String) (args : List String) :
      ReachableFaulty rt kv → ReachableFaulty rt (commitFaulty rt faults hist kv function args)

/-! ## Auxiliary definitions for the proofs -/

/-- A field value as `Marshal` writes it: a string or an integer. -/
inductive FieldValue where
  | str (s : List Char)
  | int (n : Int)

/-- The JSON value a field value parses to. -/
def FieldValue.toJSON : FieldValue → JSON
  | FieldValue.str s => JSON.str s
  | FieldValue.int n => JSON.num (intDigits n)

/-- The JSON text of a field value. -/
def renderValue : FieldValue → List Char
  | FieldValue.str s => quoteRune :: (escapeString s ++ [quoteRune])
  | FieldValue.int n => intDigits n

/-- The JSON text of object members, closing brace included. -/
def renderMembers : List (List Char × FieldValue) → List Char
  | [] => [Char.ofNat 125]
  | [m] => quoteRune :: (escapeString m.1 ++ quoteRune :: ':' :: (renderValue m.2 ++ [Char.ofNat 125]))
  | m :: m1 :: ms =>
    quoteRune :: (escapeString m.1 ++ quoteRune :: ':' ::
      (renderValue m.2 ++ ',' :: renderMembers (m1 :: ms)))

/-- A runtime whose lower-case mapping covers the ASCII letters, for concrete evaluations. -/
def asciiRuntime : Runtime :=
  ⟨fun c => if 65 ≤ c.toNat ∧ c.toNat ≤ 90 then Char.ofNat (c.toNat + 32) else c,
   fun _ _ => "", fun _ => "invalid JSON text"⟩

/-- The value stored under an index key: the single byte zero. -/
def sentinel : String := String.mk [Char.ofNat 0]

/-- The composite key of the index entry for an origin and a name. -/
def indexKey (origin name : String) : String :=
  String.mk [minUnicodeRuneValue] ++ "origin~name" ++ String.mk [minUnicodeRuneValue]
    ++ origin ++ String.mk [minUnicodeRuneValue] ++ name ++ String.mk [minUnicodeRuneValue]

/-- The string holds neither U+0000 nor U+10FFFF, the two runes a composite-key
attribute must not contain. -/
def noReserved (s : String) : Prop :=
  ∀ c ∈ s.data, c ≠ minUnicodeRuneValue ∧ c ≠ maxUnicodeRuneValue

instance (s : String) : Decidable (noReserved s) := by
  unfold noReserved; infer_instance

/-- A record as `createDiamond` and `transferDiamond` write it. -/
structure Good (rt : Runtime) (d : diamond) : Prop where
  objectType : d.ObjectType = "diamond"
  name_ne : d.Name ≠ ""
  name_ok : noReserved d.Name
  origin_ok : noReserved d.Origin
  origin_lower : ∃ s, d.Origin = ToLower rt s
  owner_lower : ∃ s, d.Owner = ToLower rt s
  carats_lo : -(2 ^ 63) ≤ d.Carats
  carats_hi : d.Carats < 2 ^ 63

/-- Consistency of a world state: every binding is a record under its own name or an
index entry, every record has its index entry, every index entry has its record, and
no key is bound twice. -/
structure Inv (rt : Runtime) (kv : KV) : Prop where
  entries : ∀ k v, kvGet kv k = some v →
    (∃ d, Good rt d ∧ d.Name = k ∧ v = Marshal d) ∨
    (v = sentinel ∧ ∃ o n, k = indexKey o n ∧ noReserved o ∧ noReserved n)
  indexed : ∀ d, Good rt d → kvGet kv d.Name = some (Marshal d) →
    kvGet kv (indexKey d.Origin d.Name) = some sentinel
  owned : ∀ o n, noReserved o → noReserved n → (kvGet kv (indexKey o n)).isSome = true →
    ∃ d, Good rt d ∧ d.Name = n ∧ d.Origin = o ∧ kvGet kv n = some (Marshal d)
  nodup : (kv.map Prod.fst).Nodup

/-- A live record: `name` is bound to a value that decodes to the record `d`. -/
def LiveRecord (rt : Runtime) (kv : KV) (name : String) (d : diamond) : Prop :=
  ∃ v, kvGet kv name = some v ∧ Unmarshal rt v = Except.ok d

/-- An index entry keyed by an origin and a name: the composite key of the pair is bound. -/
def IndexEntry (kv : KV) (origin name : String) : Prop :=
  ∃ key, CreateCompositeKey "origin~name" [origin, name] = Except.ok key
    ∧ (kvGet kv key).isSome = true

/-- The `InvalidArgument` responses of `createDiamond`: an empty or non-numeric input. -/
def isInvalidArgument (r : Response) : Prop :=
  r = Response.error "1st argument must be a non-empty string" ∨
  r = Response.error "2nd argument must be a non-empty string" ∨
  r = Response.error "3rd argument must be a non-empty string" ∨
  r = Response.error "4th argument must be a non-empty string" ∨
  r = Response.error "3rd argument must be a numeric string"

/-- The world state after `createDiamond("d1", "Blue", "1", "AL")` on the empty store. -/
def storeD1 : KV := commit asciiRuntime [] [] "createDiamond" ["d1", "Blue", "1", "AL"]

/-- A stub over the empty store whose ledger fails the put of the index key of
(`blue`, `d1`). -/
def stubIndexPutFails : Stub :=
  ⟨[], [], ⟨[], [(indexKey "blue" "d1", "ledger unavailable")], []⟩, []⟩

/-- The world state committed by `createDiamond("d1", "blue", "1", "al")` on the empty
store when the ledger fails the put of the index key of (`blue`, `d1`). -/
def storeUnindexed : KV :=
  commitFaulty asciiRuntime stubIndexPutFails.faults [] [] "createDiamond" ["d1", "blue", "1", "al"]

/-- The text of the single rune U+1D400, MATHEMATICAL BOLD CAPITAL A: an upper-case
letter (category Lu) without a lower-case form, which `unicode.ToLower` returns as it
is. -/
def boldCapitalA : String := String.mk [Char.ofNat 0x1D400]

/-- The world state after `createDiamond("d1", U+1D400, "1", "al")` on the empty store. -/
def storeBoldA : KV := commit asciiRuntime [] [] "createDiamond" ["d1", boldCapitalA, "1", "al"]

/-- The access reads, writes or deletes the given key. -/
def Access.touches (a : Access) (key : String) : Prop :=
  a = Access.get key ∨ (∃ v, a = Access.put key v) ∨ a = Access.del key

/-- The six operation names `Invoke` recognises. -/
def recognisedFunctions : List String :=
  ["createDiamond", "transferDiamond", "transferdiamondsBasedOnOrigin", "delete",
    "queryDiamond", "getHistoryFordiamond"]

/-- The `NotFound` message of `queryDiamond` and `delete`. -/
def notFoundMessage (name : String) : String :=
  "\x7b\"Error\":\"Diamond does not exist: " ++ name ++ "\"\x7d"

/-- The object the history payload holds for one entry: the transaction identifier,
the value (`null` for a deletion, the raw value bytes otherwise), the timestamp and
the deletion flag. -/
def historyObject (rt : Runtime) (e : KeyModification) : String :=
  "\x7b\"TxId\":" ++ "\"" ++ e.TxId ++ "\""
    ++ ", \"Value\":" ++ (if e.IsDelete then "null" else e.Value)
    ++ ", \"Timestamp\":" ++ "\"" ++ rt.timeString e.Seconds e.Nanos ++ "\""
    ++ ", \"IsDelete\":" ++ "\"" ++ (if e.IsDelete then "true" else "false") ++ "\""
    ++ "\x7d"

/-- The given texts in order, separated by single commas. -/
def joinCommas : List String → String
  | [] => ""
  | [a] => a
  | a :: b :: rest => a ++ "," ++ joinCommas (b :: rest)

/-- The history payload as the specification describes it: an opening bracket, one
object per entry in the order of the history, separated by single commas, and a
closing bracket. -/
def historyArray (rt : Runtime) (h : List KeyModification) : String :=
  "[" ++ joinCommas (h.map (historyObject rt)) ++ "]"

/-- The start key of the index scan for an origin: the partial composite key. -/
def partialKey (origin : String) : String :=
  String.mk [minUnicodeRuneValue] ++ "origin~name" ++ String.mk [minUnicodeRuneValue]
    ++ origin ++ String.mk [minUnicodeRuneValue]

/-- The entries the index scan of `transferdiamondsBasedOnOrigin` returns for an origin. -/
def indexScan (kv : KV) (origin : String) : KV :=
  rangeScan kv (partialKey origin) (partialKey origin ++ String.mk [maxUnicodeRuneValue])

/-- The name `transferdiamondsBasedOnOrigin` recovers from a scanned key: the second
attribute of the split key, if there is one. -/
def entryName (e : String × String) : Option String :=
  match SplitCompositeKey e.1 with
  | some (_, _ :: name :: _) => some name
  | _ => Option.none

/-- The value decodes to a record of the given origin. -/
def isRecordOfOrigin (rt : Runtime) (origin : String) (e : String × String) : Bool :=
  match Unmarshal rt e.2 with
  | Except.ok d => decide (d.Origin = origin)
  | Except.error _ => false

/-- Number of live records of the given origin. -/
def liveRecordsOfOrigin (rt : Runtime) (kv : KV) (origin : String) : Nat :=
  (kv.filter (isRecordOfOrigin rt origin)).length

/-- The success payload of `transferdiamondsBasedOnOrigin`. -/
def transferPayload (count : Nat) (origin newOwner : String) : String :=
  "Transferred " ++ String.mk (natDigits count) ++ " " ++ origin ++ " diamonds to " ++ newOwner

/-- Lower-casing a rune twice is lower-casing it once, as holds for `unicode.ToLower`. -/
def LowerIdempotent (rt : Runtime) : Prop :=
  ∀ c, rt.toLowerRune (rt.toLowerRune c) = rt.toLowerRune c

/-- The world state after creating `d1` and `d2` of origin `blue` and `d3` of origin
`red`. -/
def storeBlueRed : KV :=
  commit asciiRuntime [] (commit asciiRuntime [] storeD1 "createDiamond"
    ["d2", "blue", "2", "al"]) "createDiamond" ["d3", "red", "7", "cy"]

/-- The key holds the encoding of a record whose owner is the given one. -/
def OwnedBy (kv : KV) (name owner : String) : Prop :=
  ∃ d, kvGet kv name = some (Marshal d) ∧ d.Owner = owner

/-- A world state that is not reachable: `d1`, `d2`, `d3` of origin `blue` were created
and the record of `d2` was then removed without its index entry. -/
def storeMissingD2 : KV :=
  kvDel (commit asciiRuntime [] (commit asciiRuntime [] storeD1 "createDiamond"
    ["d2", "blue", "2", "al"]) "createDiamond" ["d3", "blue", "3", "al"]) "d2"

/-- A stub whose world state is not reachable: the record `d1` of origin `blue`, its
index entry, and a second index key of three attributes (`blue`, `d1`, `x`), which
decodes to the name `d1` as well; the ledger fails the put of `d1`. -/
def stubSharedName : Stub :=
  ⟨[("d1", Marshal ⟨"diamond", "d1", "blue", 1, "al"⟩), (indexKey "blue" "d1", sentinel),
      (indexKey "blue" "d1" ++ "x" ++ String.mk [minUnicodeRuneValue], sentinel)],
    [], ⟨[], [("d1", "ledger unavailable")], []⟩, []⟩

/-- The two records agree in everything but the owner. -/
def SameIdentity (d d1 : diamond) : Prop :=
  d1.ObjectType = d.ObjectType ∧ d1.Name = d.Name ∧ d1.Origin = d.Origin ∧ d1.Carats = d.Carats

/-! ## `encoding/json` on byte strings

`json.Marshal` writes every byte of a Go string that is not part of a valid encoding as
the escape of U+FFFD, and `json.Unmarshal` returns UTF-8 text, in which invalid bytes of
the input are U+FFFD. On valid UTF-8 this is the codec `Marshal` / `Unmarshal` above. -/

/-- Body of the JSON string literal `json.Marshal` writes for a Go string: a byte that
is not part of a valid encoding becomes the six-character escape of U+FFFD, every rune
is escaped as by `escapeRune`. -/
def escapeGoString : Nat → List Nat → List Char
  | 0, _ => []
  | _ + 1, [] => []
  | fuel + 1, b :: bs =>
    (if 0x80 ≤ b ∧ (decodeRune (b :: bs)).2 = 1 then
        [backslashRune, 'u', 'f', 'f', 'f', 'd']
      else escapeRune (decodeRune (b :: bs)).1)
      ++ escapeGoString fuel ((b :: bs).drop (decodeRune (b :: bs)).2)

/-- JSON string literal of a Go string. -/
def quoteGoString (s : List Nat) : List Char :=
  quoteRune :: (escapeGoString s.length s ++ [quoteRune])

/-- The Go struct `diamond` with its `string` fields as byte sequences. -/
structure diamondBytes where
  ObjectType : List Nat
  Name : List Nat
  Origin : List Nat
  Carats : Int
  Owner : List Nat
deriving DecidableEq, Repr

/-- Go `json.Marshal` of a `diamond` whose strings are arbitrary bytes: the bytes of
the JSON text. -/
def MarshalBytes (d : diamondBytes) : List Nat :=
  utf8Bytes ("\x7b\"docType\":".data ++ quoteGoString d.ObjectType
    ++ ",\"name\":".data ++ quoteGoString d.Name
    ++ ",\"origin\":".data ++ quoteGoString d.Origin
    ++ ",\"carats\":".data ++ intDigits d.Carats
    ++ ",\"owner\":".data ++ quoteGoString d.Owner
    ++ "\x7d".data)

/-- The struct with byte-sequence strings that holds the given text. -/
def diamond.toBytes (d : diamond) : diamondBytes :=
  ⟨utf8Bytes d.ObjectType.data, utf8Bytes d.Name.data, utf8Bytes d.Origin.data, d.Carats,
    utf8Bytes d.Owner.data⟩

/-- Go `json.Unmarshal` of JSON bytes into a zero `diamond`. -/
def UnmarshalBytes (rt : Runtime) (data : List Nat) : Except String diamondBytes :=
  match Unmarshal rt (String.mk (goText data.length data)) with
  | Except.ok d => Except.ok d.toBytes
  | Except.error e => Except.error e

/-! ## World state lemmas -/

theorem kvGet_kvDel (kv : KV) (key k : String) :
    kvGet (kvDel kv key) k = if k = key then Option.none else kvGet kv k := by
  induction kv with
  | nil => simp [kvDel, kvGet]
  | cons e rest ih =>
    obtain ⟨a, b⟩ := e
    unfold kvDel at ih ⊢
    by_cases ha : a = key
    · subst ha
      by_cases hk : k = a
      · subst hk; simpa [List.filter, kvGet] using ih
      · have : ¬ a = k := fun h => hk h.symm
        simpa [List.filter, kvGet, hk, this] using ih
    · by_cases hk : k = key
      · subst hk
        simpa [List.filter, kvGet, ha] using ih
      · by_cases hak : a = k
        · simp [List.filter, kvGet, ha, hak, hk]
        · simpa [List.filter, kvGet, ha, hak, hk] using ih

theorem kvGet_kvPut (kv : KV) (key v k : String) :
    kvGet (kvPut kv key v) k = if k = key then some v else kvGet kv k := by
  by_cases hk : k = key
  · subst hk; simp [kvPut, kvGet]
  · have : ¬ key = k := fun h => hk h.symm
    simp [kvPut, kvGet, this, hk, kvGet_kvDel]

/-! ## Decimal rendering and parsing -/

theorem natDigitsAux_acc (fuel n : Nat) (acc : List Char) :
    natDigitsAux fuel n acc = natDigitsAux fuel n [] ++ acc := by
  induction fuel generalizing n acc with
  | zero => simp [natDigitsAux]
  | succ f ih =>
    unfold natDigitsAux
    split_ifs
    · simp
    · rw [ih (n / 10) (digitChar n :: acc), ih (n / 10) [digitChar n]]; simp

theorem natDigitsAux_fuel (n : Nat) : ∀ fuel, n < fuel → natDigitsAux fuel n [] = natDigits n := by
  induction n using Nat.strong_induction_on with
  | _ n ih =>
    intro fuel hf
    obtain ⟨f, rfl⟩ : ∃ f, fuel = f + 1 := ⟨fuel - 1, by omega⟩
    unfold natDigits natDigitsAux
    split_ifs with h
    · rfl
    · have h1 : n / 10 < n := Nat.div_lt_self (by omega) (by omega)
      rw [natDigitsAux_acc f, natDigitsAux_acc n, ih (n / 10) h1 f (by omega),
        ih (n / 10) h1 n h1]

theorem natDigits_small (n : Nat) (h : n < 10) : natDigits n = [digitChar n] := by
  unfold natDigits natDigitsAux; simp [h]

theorem natDigits_step (n : Nat) (h : ¬ n < 10) :
    natDigits n = natDigits (n / 10) ++ [digitChar n] := by
  have h1 : n / 10 < n := Nat.div_lt_self (by omega) (by omega)
  conv_lhs => unfold natDigits natDigitsAux
  simp only [h, if_false]
  rw [natDigitsAux_acc, natDigitsAux_fuel (n / 10) n h1]

theorem digitVal_digitChar (n : Nat) : digitVal (digitChar n) = some (n % 10) := by
  have key : ∀ k, k < 10 → digitVal (Char.ofNat (48 + k)) = some k := by decide
  have := key (n % 10) (Nat.mod_lt _ (by norm_num))
  simpa [digitChar] using this

theorem parseDigits_append (xs ys : List Char) (acc : Nat) :
    parseDigits (xs ++ ys) acc = (parseDigits xs acc).bind (parseDigits ys) := by
  induction xs generalizing acc with
  | nil => simp [parseDigits]
  | cons c cs ih =>
    simp only [List.cons_append, parseDigits]
    cases digitVal c with
    | none => simp
    | some d => simpa using ih _

theorem parseDigits_natDigits (n : Nat) : parseDigits (natDigits n) 0 = some n := by
  induction n using Nat.strong_induction_on with
  | _ n ih =>
    by_cases h : n < 10
    · rw [natDigits_small n h]
      simp [parseDigits, digitVal_digitChar, Nat.mod_eq_of_lt h]
    · have h1 : n / 10 < n := Nat.div_lt_self (by omega) (by omega)
      rw [natDigits_step n h, parseDigits_append, ih _ h1]
      simp [parseDigits, digitVal_digitChar]
      omega

theorem natDigits_all_digits (n : Nat) : ∀ c ∈ natDigits n, (digitVal c).isSome = true := by
  induction n using Nat.strong_induction_on with
  | _ n ih =>
    by_cases h : n < 10
    · rw [natDigits_small n h]; simp [digitVal_digitChar]
    · have h1 : n / 10 < n := Nat.div_lt_self (by omega) (by omega)
      rw [natDigits_step n h]
      intro c hc
      rcases List.mem_append.1 hc with hc | hc
      · exact ih _ h1 c hc
      · simp at hc; subst hc; simp [digitVal_digitChar]

theorem natDigits_head (n : Nat) :
    ∃ c cs, natDigits n = c :: cs ∧ (digitVal c).isSome = true ∧ (c = '0' → n = 0 ∧ cs = []) := by
  induction n using Nat.strong_induction_on with
  | _ n ih =>
    by_cases h : n < 10
    · rw [natDigits_small n h]
      refine ⟨_, _, rfl, by simp [digitVal_digitChar], ?_⟩
      intro h0
      have key : ∀ k, k < 10 → digitChar k = '0' → k = 0 := by decide
      exact ⟨key n h h0, rfl⟩
    · have h1 : n / 10 < n := Nat.div_lt_self (by omega) (by omega)
      obtain ⟨c, cs, hcs, hd, hz⟩ := ih _ h1
      rw [natDigits_step n h, hcs]
      refine ⟨c, cs ++ [digitChar n], rfl, hd, ?_⟩
      intro h0
      have := (hz h0).1
      omega

theorem takeDigits_append (xs : List Char) (c0 : Char) (t : List Char)
    (hx : ∀ c ∈ xs, (digitVal c).isSome = true) (h0 : (digitVal c0).isSome = false) :
    takeDigits (xs ++ c0 :: t) = (xs, c0 :: t) := by
  induction xs with
  | nil => simp [takeDigits, h0]
  | cons c cs ih =>
    have hc := hx c (List.mem_cons_self _ _)
    have ih1 := ih (fun d hd => hx d (List.mem_cons_of_mem _ hd))
    simp [takeDigits, hc, ih1]

theorem scanIntPart_natDigits (n : Nat) (c0 : Char) (t : List Char)
    (h0 : (digitVal c0).isSome = false) :
    scanIntPart (natDigits n ++ c0 :: t) = some (natDigits n, c0 :: t) := by
  obtain ⟨c, cs, hcs, hd, hz⟩ := natDigits_head n
  have hall := natDigits_all_digits n
  rw [hcs] at hall ⊢
  simp only [List.cons_append, scanIntPart]
  by_cases hc : c = '0'
  · obtain ⟨-, rfl⟩ := hz hc
    simp [hc]
  · have := takeDigits_append cs c0 t (fun d hd => hall d (List.mem_cons_of_mem _ hd)) h0
    simp [hc, hd, this]

theorem scanNumber_intDigits (n : Int) (c0 : Char) (t : List Char)
    (h0 : (digitVal c0).isSome = false) (h1 : c0 ≠ '.') (h2 : c0 ≠ 'e') (h3 : c0 ≠ 'E') :
    scanNumber (intDigits n ++ c0 :: t) = some (intDigits n, c0 :: t) := by
  have hfrac : scanFraction (c0 :: t) = some ([], c0 :: t) := by simp [scanFraction, h1]
  have hexp : scanExponent (c0 :: t) = some ([], c0 :: t) := by simp [scanExponent, h2, h3]
  have hint := scanIntPart_natDigits n.natAbs c0 t h0
  unfold intDigits
  split_ifs with hn
  · simp [scanNumber, hint, hfrac, hexp]
  · obtain ⟨c, cs, hcs, hd, -⟩ := natDigits_head n.natAbs
    have hm : c ≠ '-' := by
      intro h; rw [h] at hd; revert hd; decide
    rw [hcs] at hint ⊢
    simp only [List.cons_append] at hint ⊢
    simp [scanNumber, hm, hint, hfrac, hexp]

theorem parseInt64_intDigits (n : Int) (hlo : -(2 ^ 63) ≤ n) (hhi : n < 2 ^ 63) :
    parseInt64 (intDigits n) = some n := by
  have hp := parseDigits_natDigits n.natAbs
  obtain ⟨c, cs, hcs, hd, -⟩ := natDigits_head n.natAbs
  unfold intDigits
  split_ifs with hn
  · rw [hcs] at hp
    have hb : n.natAbs ≤ 2 ^ 63 := by omega
    have hv : -((n.natAbs : Nat) : Int) = n := by omega
    simp [parseInt64, hcs, hp]
    exact ⟨by norm_num at hb; exact hb, by rw [abs_of_neg hn]; ring⟩
  · have hm : c ≠ '-' := by
      intro h; rw [h] at hd; revert hd; decide
    have hpl : c ≠ '+' := by
      intro h; rw [h] at hd; revert hd; decide
    rw [hcs] at hp ⊢
    have hb : n.natAbs < 2 ^ 63 := by omega
    have hv : ((n.natAbs : Nat) : Int) = n := by omega
    simp [parseInt64, hm, hpl, hp, hv]
    norm_num at hb; exact hb

/-! ## String literals -/

theorem char_eq_of_toNat (c : Char) (n : Nat) (h : c.toNat = n) : c = Char.ofNat n := by
  rw [← h, Char.ofNat_toNat]

theorem hexVal_hexChar (k : Nat) (h : k < 16) : hexVal (hexChar k) = some k := by
  have key : ∀ k, k < 16 → hexVal (hexChar k) = some k := by decide
  exact key k h

theorem unquoteBody_u00 (f a b : Nat) (t : List Char) (ha : a < 16) (hb : b < 16) :
    unquoteBody (f + 1) (backslashRune :: 'u' :: '0' :: '0' :: hexChar a :: hexChar b :: t)
      = consRune (Char.ofNat (a * 16 + b)) (unquoteBody f t) := by
  have h0 : hexVal '0' = some 0 := by decide
  have hq : backslashRune ≠ quoteRune := by decide
  have hs : ¬ (0xD800 ≤ a * 16 + b ∧ a * 16 + b < 0xE000) := by omega
  simp only [unquoteBody, hq, if_false, if_true, hex4, h0, hexVal_hexChar a ha,
    hexVal_hexChar b hb]
  simp [hs]

theorem unquoteBody_escapeRune (c : Char) (f : Nat) (t : List Char) :
    unquoteBody (f + 1) (escapeRune c ++ t) = consRune c (unquoteBody f t) := by
  unfold escapeRune
  split_ifs with h1 h2 h3 h4 h5 h6
  · rcases h1 with h | h
    · rw [char_eq_of_toNat c _ h]; rfl
    · rw [char_eq_of_toNat c _ h]; rfl
  · rw [char_eq_of_toNat c _ h2]; rfl
  · rw [char_eq_of_toNat c _ h3]; rfl
  · rw [char_eq_of_toNat c _ h4]; rfl
  · have hlt : c.toNat < 256 := by omega
    have := unquoteBody_u00 f (c.toNat / 16) (c.toNat % 16) t (by omega) (by omega)
    rw [Nat.div_add_mod' c.toNat 16, Char.ofNat_toNat] at this
    simpa using this
  · rcases h6 with h | h
    · rw [char_eq_of_toNat c _ h]; rfl
    · rw [char_eq_of_toNat c _ h]; rfl
  · have hq : c ≠ quoteRune := by
      intro h; apply h1; left; rw [h]; rfl
    have hb : c ≠ backslashRune := by
      intro h; apply h1; right; rw [h]; rfl
    have hc : ¬ c.toNat < 32 := by omega
    simp [unquoteBody, hq, hb, hc]

theorem escapeString_length (s : List Char) : s.length ≤ (escapeString s).length := by
  induction s with
  | nil => simp [escapeString]
  | cons c cs ih =>
    have : 1 ≤ (escapeRune c).length := by
      unfold escapeRune; split_ifs <;> simp
    simp [escapeString]; omega

theorem unquoteBody_escapeString (s t : List Char) :
    ∀ f, s.length < f → unquoteBody f (escapeString s ++ quoteRune :: t) = some (s, t) := by
  induction s with
  | nil =>
    intro f hf
    obtain ⟨g, rfl⟩ : ∃ g, f = g + 1 := ⟨f - 1, by simp at hf; omega⟩
    simp [escapeString, unquoteBody]
  | cons c cs ih =>
    intro f hf
    obtain ⟨g, rfl⟩ : ∃ g, f = g + 1 := ⟨f - 1, by omega⟩
    have hg : cs.length < g := by simpa using hf
    simp only [escapeString, List.append_assoc]
    rw [unquoteBody_escapeRune, ih g hg]
    rfl

/-! ## Objects -/

theorem skipSpace_cons (c : Char) (cs : List Char) (h : isSpace c = false) :
    skipSpace (c :: cs) = c :: cs := by
  simp [skipSpace, h]

theorem intDigits_head (n : Int) :
    ∃ c cs, intDigits n = c :: cs ∧ (c = '-' ∨ (digitVal c).isSome = true) := by
  obtain ⟨c, cs, hcs, hd, -⟩ := natDigits_head n.natAbs
  unfold intDigits
  split_ifs
  · exact ⟨_, _, rfl, Or.inl rfl⟩
  · exact ⟨c, cs, hcs, Or.inr hd⟩

theorem ne_of_sign_or_digit (c x : Char) (hc : c = '-' ∨ (digitVal c).isSome = true)
    (hx : x ≠ '-') (hxd : (digitVal x).isSome = false) : c ≠ x := by
  intro h
  subst h
  rcases hc with h | h
  · exact hx h
  · rw [h] at hxd; exact Bool.noConfusion hxd

theorem unquoteBody_of_eq (cs s t : List Char) (h : cs = escapeString s ++ quoteRune :: t) :
    unquoteBody (cs.length + 1) cs = some (s, t) := by
  subst h
  apply unquoteBody_escapeString
  have := escapeString_length s
  simp; omega

theorem parseValue_render (v : FieldValue) (c0 : Char) (t : List Char) (f : Nat)
    (h0 : c0 = ',' ∨ c0 = Char.ofNat 125) :
    parseValue (f + 1) (renderValue v ++ c0 :: t) = some (v.toJSON, c0 :: t) := by
  cases v with
  | str s =>
    have hq : quoteRune ≠ Char.ofNat 123 := by decide
    have hq2 : quoteRune ≠ '[' := by decide
    have hform : renderValue (FieldValue.str s) ++ c0 :: t
        = quoteRune :: (escapeString s ++ quoteRune :: c0 :: t) := by simp [renderValue]
    rw [hform]
    simp only [parseValue, hq, hq2, if_false, if_true]
    rw [unquoteBody_of_eq _ s (c0 :: t) rfl]
    rfl
  | int n =>
    have hd0 : (digitVal c0).isSome = false := by rcases h0 with h | h <;> (subst h; decide)
    have h1 : c0 ≠ '.' := by rcases h0 with h | h <;> (subst h; decide)
    have h2 : c0 ≠ 'e' := by rcases h0 with h | h <;> (subst h; decide)
    have h3 : c0 ≠ 'E' := by rcases h0 with h | h <;> (subst h; decide)
    have hs := scanNumber_intDigits n c0 t hd0 h1 h2 h3
    obtain ⟨c, cs, hcs, hc⟩ := intDigits_head n
    simp only [renderValue, FieldValue.toJSON]
    rw [hcs] at hs ⊢
    have e1 := ne_of_sign_or_digit c (Char.ofNat 123) hc (by decide) (by decide)
    have e2 := ne_of_sign_or_digit c '[' hc (by decide) (by decide)
    have e3 := ne_of_sign_or_digit c quoteRune hc (by decide) (by decide)
    have e4 := ne_of_sign_or_digit c 't' hc (by decide) (by decide)
    have e5 := ne_of_sign_or_digit c 'f' hc (by decide) (by decide)
    have e6 := ne_of_sign_or_digit c 'n' hc (by decide) (by decide)
    simp only [List.cons_append] at hs ⊢
    simp only [parseValue, e1, e2, e3, e4, e5, e6, if_false, hs]
    rfl

theorem renderValue_head (v : FieldValue) (t : List Char) :
    skipSpace (renderValue v ++ t) = renderValue v ++ t := by
  cases v with
  | str s => exact skipSpace_cons _ _ (by decide)
  | int n =>
    obtain ⟨c, cs, hcs, hc⟩ := intDigits_head n
    simp only [renderValue, hcs, List.cons_append]
    apply skipSpace_cons
    rcases hc with h | h
    · subst h; decide
    · revert h; simp only [digitVal, isSpace]; split_ifs <;> (simp; try omega)

theorem parseMembers_cons (f : Nat) (cs key r1 : List Char) (v : JSON) (d : Char)
    (r3 : List Char) (hk : unquoteBody (cs.length + 1) cs = some (key, ':' :: r1))
    (hs1 : skipSpace r1 = r1) (hv : parseValue f r1 = some (v, d :: r3))
    (hd : isSpace d = false) :
    parseMembers (f + 1) (quoteRune :: cs) =
      if d = ',' then
        (parseMembers f (skipSpace r3)).map (fun p => ((key, v) :: p.1, p.2))
      else if d = Char.ofNat 125 then some ([(key, v)], r3)
      else Option.none := by
  simp only [parseMembers, if_true, hk, skipSpace_cons ':' _ (by decide), hs1, hv,
    skipSpace_cons d _ hd]

theorem parseMembers_render (ms : List (List Char × FieldValue)) (t : List Char) :
    ms ≠ [] → ∀ f, ms.length < f →
      parseMembers (f + 1) (renderMembers ms ++ t)
        = some (ms.map (fun m => (m.1, m.2.toJSON)), t) := by
  induction ms with
  | nil => intro h; exact absurd rfl h
  | cons m rest ih =>
    intro _ f hf
    obtain ⟨g, rfl⟩ : ∃ g, f = g + 1 := ⟨f - 1, by simp at hf; omega⟩
    cases rest with
    | nil =>
      have hform : renderMembers [m] ++ t = quoteRune :: (escapeString m.1 ++ quoteRune ::
          ':' :: (renderValue m.2 ++ Char.ofNat 125 :: t)) := by simp [renderMembers]
      rw [hform, parseMembers_cons (g + 1) _ m.1 _ m.2.toJSON (Char.ofNat 125) t
        (unquoteBody_of_eq _ m.1 _ rfl) (renderValue_head _ _)
        (parseValue_render m.2 _ t g (Or.inr rfl)) (by decide)]
      have hne : Char.ofNat 125 ≠ ',' := by decide
      simp [hne]
    | cons m1 ms =>
      have ih1 := ih (List.cons_ne_nil _ _) g (by simpa using hf)
      have hform : renderMembers (m :: m1 :: ms) ++ t = quoteRune :: (escapeString m.1 ++
          quoteRune :: ':' :: (renderValue m.2 ++ ',' :: (renderMembers (m1 :: ms) ++ t))) := by
        simp [renderMembers]
      have hsk : skipSpace (renderMembers (m1 :: ms) ++ t) = renderMembers (m1 :: ms) ++ t := by
        cases ms <;> exact skipSpace_cons _ _ (by decide)
      rw [hform, parseMembers_cons (g + 1) _ m.1 _ m.2.toJSON ',' _
        (unquoteBody_of_eq _ m.1 _ rfl) (renderValue_head _ _)
        (parseValue_render m.2 _ _ g (Or.inl rfl)) (by decide)]
      simp [hsk, ih1]

theorem renderMembers_head (ms : List (List Char × FieldValue)) (h : ms ≠ []) :
    ∃ x, renderMembers ms = quoteRune :: x := by
  rcases ms with _ | ⟨m, _ | ⟨m1, ms⟩⟩
  · exact absurd rfl h
  · exact ⟨_, rfl⟩
  · exact ⟨_, rfl⟩

theorem parseJSON_object (ms : List (List Char × FieldValue)) (h : ms ≠ [])
    (hlen : ms.length + 1 < (renderMembers ms).length) :
    parseJSON (Char.ofNat 123 :: renderMembers ms)
      = some (JSON.obj (ms.map (fun m => (m.1, m.2.toJSON)))) := by
  obtain ⟨x, hx⟩ := renderMembers_head ms h
  obtain ⟨f, hf⟩ : ∃ f, (renderMembers ms).length = f + 1 := ⟨_, (Nat.succ_pred_eq_of_pos (by omega)).symm⟩
  have hp := parseMembers_render ms [] h (f + 1) (by omega)
  rw [List.append_nil, hx] at hp
  have hq : quoteRune ≠ Char.ofNat 125 := by decide
  simp only [parseJSON, skipSpace_cons (Char.ofNat 123) _ (by decide), List.length_cons, hf]
  simp only [parseValue, if_true, hx, skipSpace_cons quoteRune _ (by decide), hq, if_false, hp]
  rfl

theorem Marshal_data (d : diamond) :
    (Marshal d).data = Char.ofNat 123 :: renderMembers
      [("docType".data, FieldValue.str d.ObjectType.data),
       ("name".data, FieldValue.str d.Name.data),
       ("origin".data, FieldValue.str d.Origin.data),
       ("carats".data, FieldValue.int d.Carats),
       ("owner".data, FieldValue.str d.Owner.data)] := by
  have e1 : escapeString "docType".data = "docType".data := by decide
  have e2 : escapeString "name".data = "name".data := by decide
  have e3 : escapeString "origin".data = "origin".data := by decide
  have e4 : escapeString "carats".data = "carats".data := by decide
  have e5 : escapeString "owner".data = "owner".data := by decide
  simp only [renderMembers, renderValue, e1, e2, e3, e4, e5, Marshal, quoteString]
  simp only [List.append_assoc, List.cons_append, List.nil_append]
  rfl

theorem Unmarshal_Marshal (rt : Runtime) (d : diamond) (hlo : -(2 ^ 63) ≤ d.Carats)
    (hhi : d.Carats < 2 ^ 63) : Unmarshal rt (Marshal d) = Except.ok d := by
  have hp := parseJSON_object
    [("docType".data, FieldValue.str d.ObjectType.data),
     ("name".data, FieldValue.str d.Name.data),
     ("origin".data, FieldValue.str d.Origin.data),
     ("carats".data, FieldValue.int d.Carats),
     ("owner".data, FieldValue.str d.Owner.data)] (List.cons_ne_nil _ _)
    (by simp [renderMembers]; omega)
  rw [← Marshal_data] at hp
  have s1 : ∀ (x : diamond) (s : List Char), setField x "docType".data (JSON.str s)
      = some { x with ObjectType := String.mk s } := fun _ _ => rfl
  have s2 : ∀ (x : diamond) (s : List Char), setField x "name".data (JSON.str s)
      = some { x with Name := String.mk s } := fun _ _ => rfl
  have s3 : ∀ (x : diamond) (s : List Char), setField x "origin".data (JSON.str s)
      = some { x with Origin := String.mk s } := fun _ _ => rfl
  have s4 : ∀ (x : diamond) (l : List Char), setField x "carats".data (JSON.num l)
      = (parseInt64 l).map (fun n => { x with Carats := n }) := fun _ _ => rfl
  have s5 : ∀ (x : diamond) (s : List Char), setField x "owner".data (JSON.str s)
      = some { x with Owner := String.mk s } := fun _ _ => rfl
  simp only [Unmarshal, hp, List.map, FieldValue.toJSON, decodeMembers, s1, s2, s3, s4, s5,
    parseInt64_intDigits d.Carats hlo hhi, Option.map]

theorem Unmarshal_sentinel (rt : Runtime) :
    Unmarshal rt (String.mk [Char.ofNat 0]) = Except.error (rt.jsonErrorText (String.mk [Char.ofNat 0])) := by
  rfl

/-! ## UTF-8 -/

theorem decodeRune_encodeRune (c : Char) (rest : List Nat) :
    decodeRune (encodeRune c ++ rest) = (c, (encodeRune c).length) := by
  have hv : c.toNat < 0xD800 ∨ (0xDFFF < c.toNat ∧ c.toNat < 0x110000) := c.valid
  unfold encodeRune
  split_ifs with h1 h2 h3
  · simp only [List.cons_append, List.nil_append, decodeRune, h1, if_true, List.length_singleton,
      Char.ofNat_toNat]
  · have a1 : ¬ (0xC0 + c.toNat / 64 < 0x80) := by omega
    have a2 : 0xC2 ≤ 0xC0 + c.toNat / 64 ∧ 0xC0 + c.toNat / 64 ≤ 0xDF := by omega
    have a3 : isCont (0x80 + c.toNat % 64) := by unfold isCont; omega
    have a4 : (0xC0 + c.toNat / 64 - 0xC0) * 64 + (0x80 + c.toNat % 64 - 0x80) = c.toNat := by
      omega
    simp only [List.cons_append, List.nil_append, decodeRune, a1, a2, a3, if_true, if_false,
      rune2, a4, Char.ofNat_toNat, and_self, List.length_cons, List.length_nil]
  · have a1 : ¬ (0xE0 + c.toNat / 4096 < 0x80) := by omega
    have a2 : ¬ (0xC2 ≤ 0xE0 + c.toNat / 4096 ∧ 0xE0 + c.toNat / 4096 ≤ 0xDF) := by omega
    have a3 : 0xE0 ≤ 0xE0 + c.toNat / 4096 ∧ 0xE0 + c.toNat / 4096 ≤ 0xEF := by omega
    have a4 : (if 0xE0 + c.toNat / 4096 = 0xE0 then 0xA0 else 0x80) ≤ 0x80 + c.toNat / 64 % 64
        ∧ 0x80 + c.toNat / 64 % 64 ≤ (if 0xE0 + c.toNat / 4096 = 0xED then 0x9F else 0xBF)
        ∧ isCont (0x80 + c.toNat % 64) := by
      unfold isCont
      refine ⟨?_, ?_, ?_, ?_⟩
      · split_ifs <;> omega
      · split_ifs <;> omega
      · omega
      · omega
    have a5 : (0xE0 + c.toNat / 4096 - 0xE0) * 4096 + (0x80 + c.toNat / 64 % 64 - 0x80) * 64
        + (0x80 + c.toNat % 64 - 0x80) = c.toNat := by omega
    simp only [List.cons_append, List.nil_append, decodeRune, a1, a2, a3, a4, if_true,
      if_false, rune3, a5, Char.ofNat_toNat, and_self, List.length_cons, List.length_nil]
  · have a1 : ¬ (0xF0 + c.toNat / 262144 < 0x80) := by omega
    have a2 : ¬ (0xC2 ≤ 0xF0 + c.toNat / 262144 ∧ 0xF0 + c.toNat / 262144 ≤ 0xDF) := by omega
    have a3 : ¬ (0xE0 ≤ 0xF0 + c.toNat / 262144 ∧ 0xF0 + c.toNat / 262144 ≤ 0xEF) := by omega
    have a3b : 0xF0 ≤ 0xF0 + c.toNat / 262144 ∧ 0xF0 + c.toNat / 262144 ≤ 0xF4 := by omega
    have a4 : (if 0xF0 + c.toNat / 262144 = 0xF0 then 0x90 else 0x80)
          ≤ 0x80 + c.toNat / 4096 % 64
        ∧ 0x80 + c.toNat / 4096 % 64
          ≤ (if 0xF0 + c.toNat / 262144 = 0xF4 then 0x8F else 0xBF)
        ∧ isCont (0x80 + c.toNat / 64 % 64) ∧ isCont (0x80 + c.toNat % 64) := by
      unfold isCont
      refine ⟨?_, ?_, ⟨?_, ?_⟩, ?_, ?_⟩
      · split_ifs <;> omega
      · split_ifs <;> omega
      · omega
      · omega
      · omega
      · omega
    have a5 : (0xF0 + c.toNat / 262144 - 0xF0) * 262144
        + (0x80 + c.toNat / 4096 % 64 - 0x80) * 4096
        + (0x80 + c.toNat / 64 % 64 - 0x80) * 64 + (0x80 + c.toNat % 64 - 0x80) = c.toNat := by
      omega
    simp only [List.cons_append, List.nil_append, decodeRune, a1, a2, a3, a3b, a4, if_true,
      if_false, rune4, a5, Char.ofNat_toNat, and_self, List.length_cons, List.length_nil]

theorem encodeRune_cons (c : Char) :
    ∃ b bs, encodeRune c = b :: bs ∧ ¬ (0x80 ≤ b ∧ (encodeRune c).length = 1) := by
  unfold encodeRune
  split_ifs with h1 h2 h3
  · exact ⟨_, _, rfl, fun h => by omega⟩
  · exact ⟨_, _, rfl, fun h => by simp at h⟩
  · exact ⟨_, _, rfl, fun h => by simp at h⟩
  · exact ⟨_, _, rfl, fun h => by simp at h⟩

theorem goText_step (g : Nat) (c : Char) (rest : List Nat) :
    goText (g + 1) (encodeRune c ++ rest) = c :: goText g rest := by
  obtain ⟨b, bs, hb, -⟩ := encodeRune_cons c
  have hd := decodeRune_encodeRune c rest
  rw [hb] at hd ⊢
  simp only [List.cons_append] at hd ⊢
  simp only [goText, hd]
  rw [← List.cons_append, List.drop_left]

theorem utf8Bytes_length (s : List Char) : s.length ≤ (utf8Bytes s).length := by
  induction s with
  | nil => simp [utf8Bytes]
  | cons c cs ih =>
    obtain ⟨b, bs, hb, -⟩ := encodeRune_cons c
    simp only [utf8Bytes, hb, List.cons_append, List.length_cons, List.length_append]
    omega

theorem goText_utf8Bytes (s : List Char) : ∀ f, s.length ≤ f → goText f (utf8Bytes s) = s := by
  induction s with
  | nil => intro f _; cases f <;> rfl
  | cons c cs ih =>
    intro f hf
    obtain ⟨g, rfl⟩ : ∃ g, f = g + 1 := ⟨f - 1, by simp at hf; omega⟩
    simp only [utf8Bytes]
    rw [goText_step, ih g (by simpa using hf)]

theorem validString_step (g : Nat) (c : Char) (rest : List Nat) :
    validString (g + 1) (encodeRune c ++ rest) = validString g rest := by
  obtain ⟨b, bs, hb, hw⟩ := encodeRune_cons c
  have hd := decodeRune_encodeRune c rest
  rw [hb] at hd hw ⊢
  simp only [List.cons_append] at hd ⊢
  simp only [validString, hd, hw, if_false]
  rw [← List.cons_append, List.drop_left]

theorem validString_utf8Bytes (s : List Char) :
    ∀ f, s.length ≤ f → validString f (utf8Bytes s) = true := by
  induction s with
  | nil => intro f _; cases f <;> rfl
  | cons c cs ih =>
    intro f hf
    obtain ⟨g, rfl⟩ : ∃ g, f = g + 1 := ⟨f - 1, by simp at hf; omega⟩
    simp only [utf8Bytes]
    rw [validString_step, ih g (by simpa using hf)]

theorem validateCompositeKeyAttribute_eq (s : String) :
    validateCompositeKeyAttribute s = validateFrom s.data 0 := by
  simp only [validateCompositeKeyAttribute, validateCompositeKeyAttributeBytes,
    validString_utf8Bytes s.data _ (utf8Bytes_length s.data),
    goText_utf8Bytes s.data _ (utf8Bytes_length s.data), if_true]

/-! ## Composite keys -/

theorem validateFrom_ok (cs : List Char) (pos : Nat)
    (h : ∀ c ∈ cs, c ≠ minUnicodeRuneValue ∧ c ≠ maxUnicodeRuneValue) :
    validateFrom cs pos = Except.ok () := by
  induction cs generalizing pos with
  | nil => rfl
  | cons c cs ih =>
    have hc := h c (List.mem_cons_self _ _)
    simp only [validateFrom, hc.1, hc.2, if_false]
    exact ih _ (fun d hd => h d (List.mem_cons_of_mem _ hd))

theorem validateFrom_error (cs : List Char) (pos : Nat) (e : String)
    (h : validateFrom cs pos = Except.error e) :
    (¬ ∀ c ∈ cs, c ≠ minUnicodeRuneValue ∧ c ≠ maxUnicodeRuneValue) ∧ e.data.head? = some 'I' := by
  induction cs generalizing pos with
  | nil => simp [validateFrom] at h
  | cons c cs ih =>
    simp only [validateFrom] at h
    split_ifs at h with h1 h2
    · injection h with h; subst h
      exact ⟨fun hall => (hall c (List.mem_cons_self _ _)).1 h1, by simp [String.data_append]⟩
    · injection h with h; subst h
      exact ⟨fun hall => (hall c (List.mem_cons_self _ _)).2 h2, by simp [String.data_append]⟩
    · obtain ⟨hn, he⟩ := ih _ h
      exact ⟨fun hall => hn (fun d hd => hall d (List.mem_cons_of_mem _ hd)), he⟩

theorem validateFrom_ok_inv (cs : List Char) (pos : Nat)
    (h : validateFrom cs pos = Except.ok ()) :
    ∀ c ∈ cs, c ≠ minUnicodeRuneValue ∧ c ≠ maxUnicodeRuneValue := by
  induction cs generalizing pos with
  | nil => intro c hc; cases hc
  | cons c cs ih =>
    simp only [validateFrom] at h
    split_ifs at h with h1 h2
    intro d hd
    rcases List.mem_cons.1 hd with rfl | hd
    · exact ⟨h1, h2⟩
    · exact ih _ h d hd

theorem validate_ok_iff (s : String) :
    validateCompositeKeyAttribute s = Except.ok () ↔ noReserved s := by
  rw [validateCompositeKeyAttribute_eq]
  exact ⟨validateFrom_ok_inv _ _, validateFrom_ok _ _⟩

theorem validate_cases (s : String) :
    (noReserved s ∧ validateCompositeKeyAttribute s = Except.ok ()) ∨
    (¬ noReserved s ∧ ∃ e, validateCompositeKeyAttribute s = Except.error e
      ∧ e.data.head? = some 'I') := by
  cases hv : validateCompositeKeyAttribute s with
  | ok u => exact Or.inl ⟨(validate_ok_iff s).1 hv, rfl⟩
  | error e =>
    obtain ⟨h1, h2⟩ := validateFrom_error _ _ _ ((validateCompositeKeyAttribute_eq s).symm.trans hv)
    exact Or.inr ⟨h1, e, rfl, h2⟩

theorem CreateCompositeKey_index (origin name : String) (ho : noReserved origin)
    (hn : noReserved name) :
    CreateCompositeKey "origin~name" [origin, name] = Except.ok (indexKey origin name) := by
  have h0 : validateCompositeKeyAttribute "origin~name" = Except.ok () :=
    (validate_ok_iff _).2 (by decide)
  simp only [CreateCompositeKey, h0, appendAttributes, (validate_ok_iff origin).2 ho,
    (validate_ok_iff name).2 hn]
  rfl

theorem CreateCompositeKey_index_inv (origin name key : String)
    (h : CreateCompositeKey "origin~name" [origin, name] = Except.ok key) :
    noReserved origin ∧ noReserved name ∧ key = indexKey origin name := by
  have h0 : validateCompositeKeyAttribute "origin~name" = Except.ok () :=
    (validate_ok_iff _).2 (by decide)
  rcases validate_cases origin with ⟨ho, -⟩ | ⟨-, e, he, -⟩
  · rcases validate_cases name with ⟨hn, -⟩ | ⟨-, e, he, -⟩
    · rw [CreateCompositeKey_index origin name ho hn] at h
      injection h with h
      exact ⟨ho, hn, h.symm⟩
    · simp [CreateCompositeKey, h0, appendAttributes, (validate_ok_iff origin).2 ho, he] at h
  · simp [CreateCompositeKey, h0, appendAttributes, he] at h

theorem CreateCompositeKey_index_error (origin name e : String)
    (h : CreateCompositeKey "origin~name" [origin, name] = Except.error e) :
    (¬ noReserved origin ∨ ¬ noReserved name) ∧ e.data.head? = some 'I' := by
  have h0 : validateCompositeKeyAttribute "origin~name" = Except.ok () :=
    (validate_ok_iff _).2 (by decide)
  rcases validate_cases origin with ⟨ho, hok⟩ | ⟨hno, e1, he, hI⟩
  · rcases validate_cases name with ⟨hn, -⟩ | ⟨hnn, e1, he, hI⟩
    · rw [CreateCompositeKey_index origin name ho hn] at h; cases h
    · simp only [CreateCompositeKey, h0, appendAttributes, hok, he] at h
      injection h with h; subst h
      exact ⟨Or.inr hnn, hI⟩
  · simp only [CreateCompositeKey, h0, appendAttributes, he] at h
    injection h with h; subst h
    exact ⟨Or.inl hno, hI⟩

theorem indexKey_data (origin name : String) :
    (indexKey origin name).data = minUnicodeRuneValue :: ("origin~name".data ++
      minUnicodeRuneValue :: (origin.data ++ minUnicodeRuneValue :: (name.data ++
      [minUnicodeRuneValue]))) := by
  simp [indexKey, String.data_append]

theorem indexKey_ne_of_noReserved (origin name key : String) (h : noReserved key) :
    indexKey origin name ≠ key := by
  intro he
  have hd := indexKey_data origin name
  rw [he] at hd
  exact (h minUnicodeRuneValue (by rw [hd]; exact List.mem_cons_self _ _)).1 rfl

theorem append_sep_inj (a b c d : List Char) (x : Char) (ha : x ∉ a) (hc : x ∉ c)
    (h : a ++ x :: b = c ++ x :: d) : a = c ∧ b = d := by
  induction a generalizing c with
  | nil =>
    cases c with
    | nil => simpa using h
    | cons y ys =>
      simp at h
      exact absurd h.1 (fun hxy => hc (by simp [hxy]))
  | cons z zs ih =>
    cases c with
    | nil =>
      simp at h
      exact absurd h.1 (fun hxy => ha (by simp [hxy]))
    | cons y ys =>
      simp only [List.cons_append, List.cons.injEq] at h
      obtain ⟨h1, h2⟩ := h
      have := ih ys (fun hm => ha (List.mem_cons_of_mem _ hm))
        (fun hm => hc (List.mem_cons_of_mem _ hm)) h2
      exact ⟨by rw [h1, this.1], this.2⟩

theorem indexKey_inj (o1 n1 o2 n2 : String) (h1 : noReserved o1) (h2 : noReserved o2)
    (h : indexKey o1 n1 = indexKey o2 n2) : o1 = o2 ∧ n1 = n2 := by
  have hd := congrArg String.data h
  rw [indexKey_data, indexKey_data] at hd
  simp only [List.cons.injEq, true_and, List.append_cancel_left_eq] at hd
  have k := append_sep_inj o1.data _ o2.data _ minUnicodeRuneValue
    (fun hm => (h1 _ hm).1 rfl) (fun hm => (h2 _ hm).1 rfl) hd
  have k2 : n1.data = n2.data := by
    have := k.2
    exact List.append_cancel_right this
  exact ⟨String.ext k.1, String.ext k2⟩

/-! ## The shim on a fault-free ledger -/

theorem GetState_reliable (stub : Stub) (key : String) (hf : kvGet stub.faults.get key = Option.none) :
    GetState stub key
      = (Except.ok (kvGet stub.state key), { stub with log := stub.log ++ [Access.get key] }) := by
  simp [GetState, hf]

theorem PutState_reliable (stub : Stub) (key value : String) (hk : key ≠ "")
    (hf : kvGet stub.faults.put key = Option.none) :
    PutState stub key value
      = (Option.none, { stub with state := kvPut stub.state key value,
                                  log := stub.log ++ [Access.put key value] }) := by
  simp [PutState, hf, hk]

theorem DelState_reliable (stub : Stub) (key : String) (hf : kvGet stub.faults.del key = Option.none) :
    DelState stub key
      = (Option.none, { stub with state := kvDel stub.state key,
                                  log := stub.log ++ [Access.del key] }) := by
  simp [DelState, hf]

theorem parseInt64_range (s : List Char) (n : Int) (h : parseInt64 s = some n) :
    -(2 ^ 63) ≤ n ∧ n < 2 ^ 63 := by
  unfold parseInt64 at h
  split at h
  · cases h
  · split_ifs at h
    · split at h
      · cases h
      · split at h
        · cases h
        · split_ifs at h with hb
          injection h with h; subst h
          norm_num at hb ⊢
          omega
    · split at h
      · cases h
      · split at h
        · cases h
        · split_ifs at h with hb
          injection h with h; subst h
          norm_num at hb ⊢
          omega
    · split at h
      · cases h
      · split_ifs at h with hb
        injection h with h; subst h
        norm_num at hb ⊢
        omega

theorem Atoi_range (s : String) (n : Int) (h : Atoi s = some n) :
    -(2 ^ 63) ≤ n ∧ n < 2 ^ 63 := parseInt64_range _ _ h

theorem Atoi_ne_empty (s : String) (n : Int) (h : Atoi s = some n) : s ≠ "" := by
  intro hs; subst hs; cases h

theorem indexKey_ne_empty (o n : String) : indexKey o n ≠ "" := by
  intro h
  have := congrArg String.data h
  rw [indexKey_data] at this
  cases this

/-! ## `createDiamond` -/

theorem createDiamond_success_inv (rt : Runtime) (stub : Stub) (args : List String)
    (p : Option String) (h : (createDiamond rt stub args).1 = Response.success p) :
    ∃ name origin ct owner n, args = [name, origin, ct, owner] ∧ name ≠ "" ∧ origin ≠ ""
      ∧ owner ≠ "" ∧ Atoi ct = some n ∧ kvGet stub.faults.get name = Option.none
      ∧ kvGet stub.state name = Option.none ∧ kvGet stub.faults.put name = Option.none
      ∧ noReserved name ∧ noReserved (ToLower rt origin) ∧ p = Option.none
      ∧ (createDiamond rt stub args).2
        = (PutState { stub with
              state := kvPut stub.state name
                (Marshal ⟨"diamond", name, ToLower rt origin, n, ToLower rt owner⟩),
              log := stub.log ++ [Access.get name, Access.put name
                (Marshal ⟨"diamond", name, ToLower rt origin, n, ToLower rt owner⟩)] }
            (indexKey (ToLower rt origin) name) sentinel).2 := by
  rcases args with _ | ⟨a0, _ | ⟨a1, _ | ⟨a2, _ | ⟨a3, _ | ⟨a4, r⟩⟩⟩⟩⟩
  case cons.cons.cons.cons.nil =>
    simp only [createDiamond] at h ⊢
    split_ifs at h ⊢ with h0 h1 h2 h3
    cases hA : Atoi a2 with
    | none => simp [hA] at h
    | some n =>
      simp only [hA] at h ⊢
      cases hg : kvGet stub.faults.get a0 with
      | some e => simp [GetState, hg] at h
      | none =>
        simp only [GetState, hg] at h ⊢
        cases hs : kvGet stub.state a0 with
        | some v => simp [hs] at h
        | none =>
          simp only [hs] at h ⊢
          cases hp : kvGet stub.faults.put a0 with
          | some e => simp [PutState, h0, hp] at h
          | none =>
            simp only [PutState, h0, hp, if_false] at h ⊢
            cases hc : CreateCompositeKey "origin~name" [ToLower rt a1, a0] with
            | error e => simp [hc] at h
            | ok key =>
              obtain ⟨ho, hn, hk⟩ := CreateCompositeKey_index_inv _ _ _ hc
              simp only [hc] at h ⊢
              injection h with h
              refine ⟨a0, a1, a2, a3, n, rfl, h0, h1, h3, hA, hg, hs, hp, hn, ho, h.symm, ?_⟩
              subst hk
              simp [indexKey_ne_empty, sentinel]
  all_goals simp [createDiamond] at h

theorem createDiamond_ok (rt : Runtime) (stub : Stub) (name origin ct owner : String) (n : Int)
    (hname : name ≠ "") (horigin : origin ≠ "") (howner : owner ≠ "")
    (hn : Atoi ct = some n) (hg : kvGet stub.faults.get name = Option.none)
    (hp : kvGet stub.faults.put name = Option.none)
    (habs : kvGet stub.state name = Option.none) (hv1 : noReserved name)
    (hv2 : noReserved (ToLower rt origin)) :
    createDiamond rt stub [name, origin, ct, owner]
      = (Response.success Option.none,
          (PutState { stub with
              state := kvPut stub.state name
                (Marshal ⟨"diamond", name, ToLower rt origin, n, ToLower rt owner⟩),
              log := stub.log ++ [Access.get name, Access.put name
                (Marshal ⟨"diamond", name, ToLower rt origin, n, ToLower rt owner⟩)] }
            (indexKey (ToLower rt origin) name) sentinel).2) := by
  have hct := Atoi_ne_empty ct n hn
  simp [createDiamond, hname, horigin, howner, hct, hn, GetState, hg, habs, PutState, hp,
    CreateCompositeKey_index _ _ hv2 hv1, indexKey_ne_empty, sentinel]

theorem isInvalidArgument_head (r : Response) (h : isInvalidArgument r) :
    ∃ m, r = Response.error m ∧ (m.data.head? = some '1' ∨ m.data.head? = some '2'
      ∨ m.data.head? = some '3' ∨ m.data.head? = some '4') := by
  rcases h with h | h | h | h | h <;> subst h
  · exact ⟨_, rfl, Or.inl rfl⟩
  · exact ⟨_, rfl, Or.inr (Or.inl rfl)⟩
  · exact ⟨_, rfl, Or.inr (Or.inr (Or.inl rfl))⟩
  · exact ⟨_, rfl, Or.inr (Or.inr (Or.inr rfl))⟩
  · exact ⟨_, rfl, Or.inr (Or.inr (Or.inl rfl))⟩

/-! ## Claims about `createDiamond` and `queryDiamond` -/

/-- C2 (counterexample): all four inputs are non-empty, the carats text parses and the
store is empty, yet `createDiamond` fails: the name contains U+0000, the composite-key
encoding rejects it, and `createDiamond` answers with that error. -/
theorem createDiamond_rejects_nul_name :
    ("d\x00x" ≠ "" ∧ "o" ≠ "" ∧ "1" ≠ "" ∧ "x" ≠ "" ∧ Atoi "1" = some 1
      ∧ kvGet (Stub.fresh [] []).state "d\x00x" = Option.none)
    ∧ ∃ err, CreateCompositeKey "origin~name" [ToLower asciiRuntime "o", "d\x00x"]
        = Except.error err
      ∧ (createDiamond asciiRuntime (Stub.fresh [] []) ["d\x00x", "o", "1", "x"]).1
        = Response.error err :=
  ⟨by decide, _, rfl, by decide⟩

/-- C2 (amended): for non-empty name, origin and owner that are valid UTF-8 (texts), a
carats text that `Atoi` parses as `n`, a name and a lower-cased origin free of U+0000
and U+10FFFF, and a fault-free store holding nothing under the name, `createDiamond`
succeeds (the composite-key encoding, with its `utf8.ValidString` test, accepts the
attributes) and a following
`queryDiamond(name)` succeeds with the encoding of the record with the name as given,
the lower-cased origin and owner, carats `n` and docType `diamond`; that payload
decodes to exactly this record. -/
theorem createDiamond_then_queryDiamond (rt : Runtime) (stub : Stub)
    (name origin caratsText owner : String) (n : Int) (hf : stub.faults = Faults.none)
    (hname : name ≠ "") (horigin : origin ≠ "") (howner : owner ≠ "")
    (hn : Atoi caratsText = some n) (habs : kvGet stub.state name = Option.none)
    (hv1 : noReserved name) (hv2 : noReserved (ToLower rt origin)) :
    (createDiamond rt stub [name, origin, caratsText, owner]).1 = Response.success Option.none
    ∧ (queryDiamond (createDiamond rt stub [name, origin, caratsText, owner]).2 [name]).1
      = Response.success
          (some (Marshal ⟨"diamond", name, ToLower rt origin, n, ToLower rt owner⟩))
    ∧ Unmarshal rt (Marshal ⟨"diamond", name, ToLower rt origin, n, ToLower rt owner⟩)
      = Except.ok ⟨"diamond", name, ToLower rt origin, n, ToLower rt owner⟩ := by
  have hg : kvGet stub.faults.get name = Option.none := by rw [hf]; rfl
  have hp : kvGet stub.faults.put name = Option.none := by rw [hf]; rfl
  have hpi : kvGet stub.faults.put (indexKey (ToLower rt origin) name) = Option.none := by
    rw [hf]; rfl
  have hne : name ≠ indexKey (ToLower rt origin) name :=
    fun h => indexKey_ne_of_noReserved _ _ _ hv1 h.symm
  rw [createDiamond_ok rt stub name origin caratsText owner n hname horigin howner hn hg hp
    habs hv1 hv2]
  refine ⟨rfl, ?_, Unmarshal_Marshal rt _ (Atoi_range _ _ hn).1 (Atoi_range _ _ hn).2⟩
  simp [queryDiamond, GetState, PutState, indexKey_ne_empty, hpi, hg, kvGet_kvPut, hne]

/-- C2 (witness): the amended statement at `createDiamond("d1", "Blue", "1", "AL")` on the
empty store. -/
theorem createDiamond_then_queryDiamond_witness :
    (createDiamond asciiRuntime (Stub.fresh [] []) ["d1", "Blue", "1", "AL"]).1
      = Response.success Option.none
    ∧ (queryDiamond (createDiamond asciiRuntime (Stub.fresh [] []) ["d1", "Blue", "1", "AL"]).2
        ["d1"]).1
      = Response.success (some (Marshal ⟨"diamond", "d1", ToLower asciiRuntime "Blue", 1,
          ToLower asciiRuntime "AL"⟩))
    ∧ Unmarshal asciiRuntime (Marshal ⟨"diamond", "d1", ToLower asciiRuntime "Blue", 1,
          ToLower asciiRuntime "AL"⟩)
      = Except.ok ⟨"diamond", "d1", ToLower asciiRuntime "Blue", 1, ToLower asciiRuntime "AL"⟩ :=
  createDiamond_then_queryDiamond asciiRuntime (Stub.fresh [] []) "d1" "Blue" "1" "AL" 1 rfl
    (by decide) (by decide) (by decide) (by decide) rfl (by decide) (by decide)

/-- C3 (counterexample): a record exists under `d1`, yet `createDiamond` with an empty
origin fails with the empty-argument error and not with `This diamond already exists`. -/
theorem createDiamond_existing_empty_origin :
    (kvGet storeD1 "d1").isSome = true
    ∧ (createDiamond asciiRuntime (Stub.fresh storeD1 []) ["d1", "", "1", "al"]).1
      = Response.error "2nd argument must be a non-empty string"
    ∧ (createDiamond asciiRuntime (Stub.fresh storeD1 []) ["d1", "", "1", "al"]).1
      ≠ Response.error ("This diamond already exists: " ++ "d1") := by
  decide

/-- C3 (amended): when a value is stored under a non-empty name and the ledger can read
it, `createDiamond` fails with `This diamond already exists: <name>` for every non-empty
origin and owner and every carats text that `Atoi` parses. -/
theorem createDiamond_already_exists (rt : Runtime) (stub : Stub)
    (name origin caratsText owner v : String) (n : Int)
    (hg : kvGet stub.faults.get name = Option.none)
    (hname : name ≠ "") (horigin : origin ≠ "") (howner : owner ≠ "")
    (hn : Atoi caratsText = some n) (h : kvGet stub.state name = some v) :
    (createDiamond rt stub [name, origin, caratsText, owner]).1
      = Response.error ("This diamond already exists: " ++ name) := by
  have hct := Atoi_ne_empty caratsText n hn
  simp [createDiamond, hname, horigin, howner, hct, hn, GetState, hg, h]

/-- C3 (witness): re-creating `d1` in the store that already holds it. -/
theorem createDiamond_already_exists_witness :
    (createDiamond asciiRuntime (Stub.fresh storeD1 []) ["d1", "red", "7", "bob"]).1
      = Response.error ("This diamond already exists: " ++ "d1") :=
  createDiamond_already_exists asciiRuntime (Stub.fresh storeD1 []) "d1" "red" "7" "bob"
    (Marshal ⟨"diamond", "d1", "blue", 1, "al"⟩) 7 rfl (by decide) (by decide) (by decide)
    rfl (by decide)

/-- C4: when a value is stored under `name`, `createDiamond` on any argument list that
starts with `name` returns an error and leaves the world state as it was; the only
store access it may have added is a read of `name`. This holds whatever faults the
ledger raises. -/
theorem createDiamond_existing_unchanged (rt : Runtime) (stub : Stub) (name : String)
    (rest : List String) (v : String) (h : kvGet stub.state name = some v) :
    (∃ msg, (createDiamond rt stub (name :: rest)).1 = Response.error msg) ∧
    (createDiamond rt stub (name :: rest)).2.state = stub.state ∧
    ∀ a ∈ (createDiamond rt stub (name :: rest)).2.log, a ∈ stub.log ∨ a = Access.get name := by
  rcases rest with _ | ⟨a1, _ | ⟨a2, _ | ⟨a3, _ | ⟨a4, r⟩⟩⟩⟩
  case cons.cons.cons.nil =>
    simp only [createDiamond]
    split_ifs
    all_goals try exact ⟨⟨_, rfl⟩, rfl, fun a ha => Or.inl ha⟩
    cases hA : Atoi a2 with
    | none => exact ⟨⟨_, rfl⟩, rfl, fun a ha => Or.inl ha⟩
    | some n =>
      simp only [GetState, h]
      cases hg : kvGet stub.faults.get name <;> simp
  all_goals exact ⟨⟨_, rfl⟩, rfl, fun a ha => Or.inl ha⟩

/-- C4 (witness): re-creating `d1`, with any other arguments, leaves `storeD1` as it was. -/
theorem createDiamond_existing_unchanged_witness :
    (∃ msg, (createDiamond asciiRuntime (Stub.fresh storeD1 []) ("d1" :: ["red", "7", "bob"])).1
      = Response.error msg) ∧
    (createDiamond asciiRuntime (Stub.fresh storeD1 []) ("d1" :: ["red", "7", "bob"])).2.state
      = (Stub.fresh storeD1 []).state ∧
    ∀ a ∈ (createDiamond asciiRuntime (Stub.fresh storeD1 []) ("d1" :: ["red", "7", "bob"])).2.log,
      a ∈ (Stub.fresh storeD1 []).log ∨ a = Access.get "d1" :=
  createDiamond_existing_unchanged asciiRuntime (Stub.fresh storeD1 []) "d1" ["red", "7", "bob"]
    (Marshal ⟨"diamond", "d1", "blue", 1, "al"⟩) (by decide)

/-- C5: on a ledger without put faults, `createDiamond` with exactly four arguments
answers with an `InvalidArgument` error if and only if one of the four is empty or the
third is rejected by `Atoi`; in that case it returns before any store access, so the
stub (world state and access log) is unchanged. -/
theorem createDiamond_invalidArgument_iff (rt : Runtime) (stub : Stub) (a0 a1 a2 a3 : String)
    (hf : stub.faults.put = []) :
    (isInvalidArgument (createDiamond rt stub [a0, a1, a2, a3]).1
      ↔ (a0 = "" ∨ a1 = "" ∨ a2 = "" ∨ a3 = "" ∨ Atoi a2 = Option.none))
    ∧ (isInvalidArgument (createDiamond rt stub [a0, a1, a2, a3]).1
      → (createDiamond rt stub [a0, a1, a2, a3]).2 = stub) := by
  by_cases h0 : a0 = ""
  · simp [createDiamond, h0, isInvalidArgument]
  by_cases h1 : a1 = ""
  · simp [createDiamond, h0, h1, isInvalidArgument]
  by_cases h2 : a2 = ""
  · simp [createDiamond, h0, h1, h2, isInvalidArgument]
  by_cases h3 : a3 = ""
  · simp [createDiamond, h0, h1, h2, h3, isInvalidArgument]
  cases hA : Atoi a2 with
  | none => simp [createDiamond, h0, h1, h2, h3, hA, isInvalidArgument]
  | some n =>
    have hnot : ¬ isInvalidArgument (createDiamond rt stub [a0, a1, a2, a3]).1 := by
      intro hinv
      obtain ⟨m, hm, hhead⟩ := isInvalidArgument_head _ hinv
      have hp : ∀ k, kvGet stub.faults.put k = Option.none := by intro k; rw [hf]; rfl
      simp only [createDiamond, h0, h1, h2, h3, hA, if_false, GetState] at hm
      cases hg : kvGet stub.faults.get a0 with
      | some e =>
        simp only [hg] at hm
        injection hm with hm; subst hm
        simp [String.data_append] at hhead
      | none =>
        simp only [hg] at hm
        cases hs : kvGet stub.state a0 with
        | some v =>
          simp only [hs] at hm
          injection hm with hm; subst hm
          simp [String.data_append] at hhead
        | none =>
          simp only [hs, PutState, h0, hp, if_false] at hm
          cases hc : CreateCompositeKey "origin~name" [ToLower rt a1, a0] with
          | error e =>
            simp only [hc] at hm
            injection hm with hm; subst hm
            have := (CreateCompositeKey_index_error _ _ _ hc).2
            rw [this] at hhead
            simp at hhead
          | ok key =>
            simp only [hc] at hm
            cases hm
    simp [hnot, h0, h1, h2, h3]

/-- C5 (witness): with the non-numeric carats text `x`, `createDiamond` answers with an
`InvalidArgument` error and the stub is unchanged. -/
theorem createDiamond_invalidArgument_witness :
    (isInvalidArgument (createDiamond asciiRuntime (Stub.fresh storeD1 []) ["d2", "red", "x", "bob"]).1
      ↔ ("d2" = "" ∨ "red" = "" ∨ "x" = "" ∨ "bob" = "" ∨ Atoi "x" = Option.none))
    ∧ (isInvalidArgument (createDiamond asciiRuntime (Stub.fresh storeD1 []) ["d2", "red", "x", "bob"]).1
      → (createDiamond asciiRuntime (Stub.fresh storeD1 []) ["d2", "red", "x", "bob"]).2
        = Stub.fresh storeD1 []) :=
  createDiamond_invalidArgument_iff asciiRuntime (Stub.fresh storeD1 []) "d2" "red" "x" "bob" rfl

/-- C7 (the code at the failing input): the record write succeeds and the ledger fails
the put of the index entry, yet `createDiamond` answers success; afterwards the record
is stored and the index entry is not. -/
theorem createDiamond_ignores_index_put_failure :
    (PutState (PutState stubIndexPutFails "d1"
        (Marshal ⟨"diamond", "d1", "blue", 1, "al"⟩)).2 (indexKey "blue" "d1") sentinel).1
      = some "ledger unavailable"
    ∧ (createDiamond asciiRuntime stubIndexPutFails ["d1", "blue", "1", "al"]).1
      = Response.success Option.none
    ∧ kvGet (createDiamond asciiRuntime stubIndexPutFails ["d1", "blue", "1", "al"]).2.state "d1"
      = some (Marshal ⟨"diamond", "d1", "blue", 1, "al"⟩)
    ∧ kvGet (createDiamond asciiRuntime stubIndexPutFails ["d1", "blue", "1", "al"]).2.state
        (indexKey "blue" "d1") = Option.none := by
  decide

/-! ## Claims about `transferDiamond` -/

/-- C9: when nothing is stored under `name` and the ledger can read it,
`transferDiamond(name, newOwner)` fails with `Diamond does not exist`; the world state
is unchanged and the only store access is the read of `name`. -/
theorem transferDiamond_absent (rt : Runtime) (stub : Stub) (name newOwner : String)
    (hg : kvGet stub.faults.get name = Option.none)
    (h : kvGet stub.state name = Option.none) :
    transferDiamond rt stub [name, newOwner]
      = (Response.error "Diamond does not exist",
          { stub with log := stub.log ++ [Access.get name] }) := by
  simp [transferDiamond, GetState, hg, h]

/-- C9 (witness): transferring the absent `d9` in `storeD1`. -/
theorem transferDiamond_absent_witness :
    transferDiamond asciiRuntime (Stub.fresh storeD1 []) ["d9", "bob"]
      = (Response.error "Diamond does not exist",
          { Stub.fresh storeD1 [] with log := (Stub.fresh storeD1 []).log ++ [Access.get "d9"] }) :=
  transferDiamond_absent asciiRuntime (Stub.fresh storeD1 []) "d9" "bob" rfl (by decide)

/-! ## The consistency invariant -/

theorem Marshal_inj (rt : Runtime) (d1 d2 : diamond) (h1 : Good rt d1) (h2 : Good rt d2)
    (h : Marshal d1 = Marshal d2) : d1 = d2 := by
  have e1 := Unmarshal_Marshal rt d1 h1.carats_lo h1.carats_hi
  have e2 := Unmarshal_Marshal rt d2 h2.carats_lo h2.carats_hi
  rw [h, e2] at e1
  injection e1 with e1
  exact e1.symm

theorem Marshal_ne_sentinel (d : diamond) : Marshal d ≠ sentinel := by
  intro h
  have := congrArg String.data h
  rw [Marshal_data] at this
  injection this with h1 _
  revert h1; decide

theorem Good.name_ne_indexKey {rt : Runtime} {d : diamond} (h : Good rt d) (o n : String) :
    d.Name ≠ indexKey o n :=
  fun he => indexKey_ne_of_noReserved o n d.Name h.name_ok he.symm

theorem keys_kvDel_nodup (kv : KV) (key : String) (h : (kv.map Prod.fst).Nodup) :
    ((kvDel kv key).map Prod.fst).Nodup :=
  h.sublist ((List.filter_sublist kv).map Prod.fst)

theorem keys_kvDel_not_mem (kv : KV) (key : String) :
    key ∉ (kvDel kv key).map Prod.fst := by
  simp [kvDel]

theorem keys_kvPut_nodup (kv : KV) (key v : String) (h : (kv.map Prod.fst).Nodup) :
    ((kvPut kv key v).map Prod.fst).Nodup := by
  simp only [kvPut, List.map_cons, List.nodup_cons]
  exact ⟨keys_kvDel_not_mem kv key, keys_kvDel_nodup kv key h⟩

theorem Inv_empty (rt : Runtime) : Inv rt [] :=
  ⟨fun _ _ h => (by cases h), fun _ _ h => (by cases h), fun _ _ _ _ h => (by cases h),
    List.nodup_nil⟩

theorem Inv_create (rt : Runtime) (kv : KV) (d : diamond) (hI : Inv rt kv) (hd : Good rt d)
    (habs : kvGet kv d.Name = Option.none) :
    Inv rt (kvPut (kvPut kv d.Name (Marshal d)) (indexKey d.Origin d.Name) sentinel) := by
  have hne : d.Name ≠ indexKey d.Origin d.Name := hd.name_ne_indexKey _ _
  refine ⟨?_, ?_, ?_, keys_kvPut_nodup _ _ _ (keys_kvPut_nodup _ _ _ hI.nodup)⟩
  · intro k v h
    rw [kvGet_kvPut, kvGet_kvPut] at h
    split_ifs at h with h1 h2
    · injection h with h
      exact Or.inr ⟨h.symm, d.Origin, d.Name, h1, hd.origin_ok, hd.name_ok⟩
    · injection h with h
      exact Or.inl ⟨d, hd, h2.symm, h.symm⟩
    · exact hI.entries k v h
  · intro d1 hd1 h
    rw [kvGet_kvPut, kvGet_kvPut] at h
    rw [kvGet_kvPut, kvGet_kvPut]
    split_ifs at h with h1 h2
    · exact absurd h1 (hd1.name_ne_indexKey _ _)
    · injection h with h
      have := Marshal_inj rt d d1 hd hd1 h
      subst this
      simp
    · have := hI.indexed d1 hd1 h
      have hk : indexKey d1.Origin d1.Name ≠ d.Name := fun he => hd.name_ne_indexKey _ _ he.symm
      simp [hk, this]
  · intro o n ho hn h
    rw [kvGet_kvPut, kvGet_kvPut] at h
    have hk : indexKey o n ≠ d.Name := fun he => hd.name_ne_indexKey _ _ he.symm
    by_cases h1 : indexKey o n = indexKey d.Origin d.Name
    · obtain ⟨e1, e2⟩ := indexKey_inj _ _ _ _ ho hd.origin_ok h1
      subst e1 e2
      refine ⟨d, hd, rfl, rfl, ?_⟩
      rw [kvGet_kvPut, kvGet_kvPut]
      simp [hne]
    · simp only [h1, hk, if_false] at h
      obtain ⟨d1, hd1, e1, e2, e3⟩ := hI.owned o n ho hn h
      refine ⟨d1, hd1, e1, e2, ?_⟩
      rw [kvGet_kvPut, kvGet_kvPut]
      have n1 : n ≠ indexKey d.Origin d.Name := by
        rw [← e1]; exact hd1.name_ne_indexKey _ _
      have n2 : n ≠ d.Name := by
        intro he; rw [he, habs] at e3; cases e3
      simp [n1, n2, e3]

theorem Inv_delete (rt : Runtime) (kv : KV) (d : diamond) (hI : Inv rt kv) (hd : Good rt d)
    (hrec : kvGet kv d.Name = some (Marshal d)) :
    Inv rt (kvDel (kvDel kv d.Name) (indexKey d.Origin d.Name)) := by
  refine ⟨?_, ?_, ?_, keys_kvDel_nodup _ _ (keys_kvDel_nodup _ _ hI.nodup)⟩
  · intro k v h
    rw [kvGet_kvDel, kvGet_kvDel] at h
    split_ifs at h with h1 h2
    exact hI.entries k v h
  · intro d1 hd1 h
    rw [kvGet_kvDel, kvGet_kvDel] at h
    rw [kvGet_kvDel, kvGet_kvDel]
    split_ifs at h with h1 h2
    have := hI.indexed d1 hd1 h
    have hk : indexKey d1.Origin d1.Name ≠ d.Name := fun he => hd.name_ne_indexKey _ _ he.symm
    have hk2 : indexKey d1.Origin d1.Name ≠ indexKey d.Origin d.Name := fun he =>
      h2 (indexKey_inj _ _ _ _ hd1.origin_ok hd.origin_ok he).2
    simp [hk, hk2, this]
  · intro o n ho hn h
    rw [kvGet_kvDel, kvGet_kvDel] at h
    split_ifs at h with h1 h2
    · cases h
    · cases h
    · obtain ⟨d1, hd1, e1, e2, e3⟩ := hI.owned o n ho hn h
      refine ⟨d1, hd1, e1, e2, ?_⟩
      rw [kvGet_kvDel, kvGet_kvDel]
      have n1 : n ≠ indexKey d.Origin d.Name := by
        rw [← e1]; exact hd1.name_ne_indexKey _ _
      have n2 : n ≠ d.Name := by
        intro he
        rw [he, hrec] at e3
        injection e3 with e3
        have := Marshal_inj rt d d1 hd hd1 e3
        subst this
        exact h1 (by rw [← e2, he])
      simp [n1, n2, e3]

theorem Inv_transfer (rt : Runtime) (kv : KV) (d : diamond) (owner : String) (hI : Inv rt kv)
    (hd : Good rt d) (hrec : kvGet kv d.Name = some (Marshal d)) :
    Inv rt (kvPut kv d.Name (Marshal { d with Owner := ToLower rt owner })) := by
  have hd2 : Good rt { d with Owner := ToLower rt owner } :=
    ⟨hd.objectType, hd.name_ne, hd.name_ok, hd.origin_ok, hd.origin_lower, ⟨owner, rfl⟩,
      hd.carats_lo, hd.carats_hi⟩
  refine ⟨?_, ?_, ?_, keys_kvPut_nodup _ _ _ hI.nodup⟩
  · intro k v h
    rw [kvGet_kvPut] at h
    split_ifs at h with h1
    · injection h with h
      exact Or.inl ⟨_, hd2, h1.symm, h.symm⟩
    · exact hI.entries k v h
  · intro d1 hd1 h
    rw [kvGet_kvPut] at h
    rw [kvGet_kvPut]
    have hk : indexKey d1.Origin d1.Name ≠ d.Name := fun he => hd.name_ne_indexKey _ _ he.symm
    simp only [hk, if_false]
    split_ifs at h with h1
    · injection h with h
      have := Marshal_inj rt _ d1 hd2 hd1 h
      subst this
      exact hI.indexed d hd hrec
    · exact hI.indexed d1 hd1 h
  · intro o n ho hn h
    rw [kvGet_kvPut] at h
    have hk : indexKey o n ≠ d.Name := fun he => hd.name_ne_indexKey _ _ he.symm
    simp only [hk, if_false] at h
    obtain ⟨d1, hd1, e1, e2, e3⟩ := hI.owned o n ho hn h
    by_cases hn2 : n = d.Name
    · rw [hn2, hrec] at e3
      injection e3 with e3
      have := Marshal_inj rt d d1 hd hd1 e3
      subst this
      refine ⟨_, hd2, e1, e2, ?_⟩
      rw [kvGet_kvPut]; simp [hn2]
    · refine ⟨d1, hd1, e1, e2, ?_⟩
      rw [kvGet_kvPut]; simp [hn2, e3]

/-- In a consistent state a stored value that decodes is the encoding of a well-formed
record under its own name, and it decodes to that record. -/
theorem Inv.record_of_decodes {rt : Runtime} {kv : KV} (hI : Inv rt kv) (name v : String)
    (d : diamond) (h : kvGet kv name = some v) (hu : Unmarshal rt v = Except.ok d) :
    Good rt d ∧ d.Name = name ∧ v = Marshal d := by
  rcases hI.entries name v h with ⟨d0, hd0, hn, hv⟩ | ⟨hv, -⟩
  · rw [hv, Unmarshal_Marshal rt d0 hd0.carats_lo hd0.carats_hi] at hu
    injection hu with hu
    subst hu
    exact ⟨hd0, hn, hv⟩
  · rw [hv] at hu
    cases hu

/-! ## `transferDiamond` and `delete` -/

theorem transferDiamond_success_inv (rt : Runtime) (stub : Stub) (args : List String)
    (p : Option String) (h : (transferDiamond rt stub args).1 = Response.success p) :
    ∃ name a1 rest v d, args = name :: a1 :: rest
      ∧ kvGet stub.faults.get name = Option.none ∧ kvGet stub.state name = some v
      ∧ Unmarshal rt v = Except.ok d ∧ name ≠ "" ∧ kvGet stub.faults.put name = Option.none
      ∧ p = Option.none
      ∧ (transferDiamond rt stub args).2
        = { stub with
            state := kvPut stub.state name (Marshal { d with Owner := ToLower rt a1 }),
            log := stub.log ++ [Access.get name,
              Access.put name (Marshal { d with Owner := ToLower rt a1 })] } := by
  rcases args with _ | ⟨name, _ | ⟨a1, rest⟩⟩
  · simp [transferDiamond] at h
  · simp [transferDiamond] at h
  · simp only [transferDiamond, GetState] at h ⊢
    cases hg : kvGet stub.faults.get name with
    | some e => simp [hg] at h
    | none =>
      simp only [hg] at h ⊢
      cases hs : kvGet stub.state name with
      | none => simp [hs] at h
      | some v =>
        simp only [hs] at h ⊢
        cases hu : Unmarshal rt v with
        | error e => simp [hu] at h
        | ok d =>
          simp only [hu, PutState] at h ⊢
          by_cases hn : name = ""
          · simp [hn] at h
          · simp only [hn, if_false] at h ⊢
            cases hp : kvGet stub.faults.put name with
            | some e => simp [hp] at h
            | none =>
              simp only [hp] at h ⊢
              injection h with h
              exact ⟨name, a1, rest, v, d, rfl, hg, hs, hu, hn, hp, h.symm, by simp⟩

theorem transferDiamond_ok (rt : Runtime) (stub : Stub) (name a1 v : String)
    (rest : List String) (d : diamond)
    (hg : kvGet stub.faults.get name = Option.none) (hs : kvGet stub.state name = some v)
    (hu : Unmarshal rt v = Except.ok d) (hn : name ≠ "")
    (hp : kvGet stub.faults.put name = Option.none) :
    transferDiamond rt stub (name :: a1 :: rest)
      = (Response.success Option.none,
          { stub with
            state := kvPut stub.state name (Marshal { d with Owner := ToLower rt a1 }),
            log := stub.log ++ [Access.get name,
              Access.put name (Marshal { d with Owner := ToLower rt a1 })] }) := by
  simp [transferDiamond, GetState, hg, hs, hu, PutState, hn, hp]

theorem transferDiamond_frame (rt : Runtime) (stub : Stub) (args : List String) :
    (transferDiamond rt stub args).2.faults = stub.faults
    ∧ (transferDiamond rt stub args).2.hist = stub.hist
    ∧ (transferDiamond rt stub args).1 ≠ Response.panic := by
  rcases args with _ | ⟨name, _ | ⟨a1, rest⟩⟩
  · simp [transferDiamond]
  · simp [transferDiamond]
  · simp only [transferDiamond, GetState]
    cases hg : kvGet stub.faults.get name with
    | some e => simp
    | none =>
      cases hs : kvGet stub.state name with
      | none => simp
      | some v =>
        cases hu : Unmarshal rt v with
        | error e => simp [hu]
        | ok d =>
          simp only [hu, PutState]
          split_ifs
          · simp
          · cases hp : kvGet stub.faults.put name <;> simp

theorem delete_success_inv (rt : Runtime) (stub : Stub) (args : List String)
    (p : Option String) (h : (delete rt stub args).1 = Response.success p) :
    ∃ name v d, args = [name]
      ∧ kvGet stub.faults.get name = Option.none ∧ kvGet stub.state name = some v
      ∧ Unmarshal rt v = Except.ok d ∧ kvGet stub.faults.del name = Option.none
      ∧ noReserved d.Origin ∧ noReserved d.Name
      ∧ kvGet stub.faults.del (indexKey d.Origin d.Name) = Option.none
      ∧ p = Option.none
      ∧ (delete rt stub args).2
        = { stub with
            state := kvDel (kvDel stub.state name) (indexKey d.Origin d.Name),
            log := stub.log ++ [Access.get name, Access.del name,
              Access.del (indexKey d.Origin d.Name)] } := by
  rcases args with _ | ⟨name, _ | ⟨a1, rest⟩⟩
  · simp [delete] at h
  · simp only [delete, GetState] at h ⊢
    cases hg : kvGet stub.faults.get name with
    | some e => simp [hg] at h
    | none =>
      simp only [hg] at h ⊢
      cases hs : kvGet stub.state name with
      | none => simp [hs] at h
      | some v =>
        simp only [hs] at h ⊢
        cases hu : Unmarshal rt v with
        | error e => simp [hu] at h
        | ok d =>
          simp only [hu, DelState] at h ⊢
          cases hd : kvGet stub.faults.del name with
          | some e => simp [hd] at h
          | none =>
            simp only [hd] at h ⊢
            cases hc : CreateCompositeKey "origin~name" [d.Origin, d.Name] with
            | error e => simp [hc] at h
            | ok key =>
              obtain ⟨ho, hn, hk⟩ := CreateCompositeKey_index_inv _ _ _ hc
              subst hk
              simp only [hc] at h ⊢
              cases hd2 : kvGet stub.faults.del (indexKey d.Origin d.Name) with
              | some e => simp [hd2] at h
              | none =>
                simp only [hd2] at h ⊢
                injection h with h
                exact ⟨name, v, d, rfl, hg, hs, hu, hd, ho, hn, hd2, h.symm, by simp⟩
  · simp [delete] at h

theorem delete_ok (rt : Runtime) (stub : Stub) (name v : String) (d : diamond)
    (hf : stub.faults = Faults.none) (hs : kvGet stub.state name = some v)
    (hu : Unmarshal rt v = Except.ok d) (ho : noReserved d.Origin) (hn : noReserved d.Name) :
    delete rt stub [name]
      = (Response.success Option.none,
          { stub with
            state := kvDel (kvDel stub.state name) (indexKey d.Origin d.Name),
            log := stub.log ++ [Access.get name, Access.del name,
              Access.del (indexKey d.Origin d.Name)] }) := by
  have h1 : ∀ k, kvGet stub.faults.get k = Option.none := by intro k; rw [hf]; rfl
  have h2 : ∀ k, kvGet stub.faults.del k = Option.none := by intro k; rw [hf]; rfl
  simp [delete, GetState, h1, h2, hs, hu, DelState, CreateCompositeKey_index _ _ ho hn]

/-! ## The invariant holds in every reachable state -/

theorem createDiamond_Inv (rt : Runtime) (stub : Stub) (args : List String) (p : Option String)
    (hI : Inv rt stub.state) (hf : stub.faults = Faults.none)
    (h : (createDiamond rt stub args).1 = Response.success p) :
    Inv rt (createDiamond rt stub args).2.state := by
  obtain ⟨name, origin, ct, owner, n, -, hname, -, -, hn, -, habs, -, hv1, hv2, -, hst⟩ :=
    createDiamond_success_inv rt stub args p h
  have hpi : kvGet stub.faults.put (indexKey (ToLower rt origin) name) = Option.none := by
    rw [hf]; rfl
  have hd : Good rt ⟨"diamond", name, ToLower rt origin, n, ToLower rt owner⟩ :=
    ⟨rfl, hname, hv1, hv2, ⟨origin, rfl⟩, ⟨owner, rfl⟩, (Atoi_range _ _ hn).1,
      (Atoi_range _ _ hn).2⟩
  rw [hst]
  simp only [PutState, indexKey_ne_empty, if_false, hpi]
  exact Inv_create rt stub.state _ hI hd habs

theorem transferDiamond_Inv (rt : Runtime) (stub : Stub) (args : List String)
    (p : Option String) (hI : Inv rt stub.state)
    (h : (transferDiamond rt stub args).1 = Response.success p) :
    Inv rt (transferDiamond rt stub args).2.state := by
  obtain ⟨name, a1, rest, v, d, -, -, hs, hu, -, -, -, hst⟩ :=
    transferDiamond_success_inv rt stub args p h
  obtain ⟨hd, hn, hv⟩ := hI.record_of_decodes name v d hs hu
  rw [hst]
  subst hn hv
  exact Inv_transfer rt stub.state d a1 hI hd hs

theorem delete_Inv (rt : Runtime) (stub : Stub) (args : List String) (p : Option String)
    (hI : Inv rt stub.state) (h : (delete rt stub args).1 = Response.success p) :
    Inv rt (delete rt stub args).2.state := by
  obtain ⟨name, v, d, -, -, hs, hu, -, -, -, -, -, hst⟩ := delete_success_inv rt stub args p h
  obtain ⟨hd, hn, hv⟩ := hI.record_of_decodes name v d hs hu
  rw [hst]
  subst hn hv
  exact Inv_delete rt stub.state d hI hd hs

theorem transferLoop_Inv (rt : Runtime) (origin newOwner : String) (entries : KV) :
    ∀ (i : Nat) (stub : Stub) (p : Option String), Inv rt stub.state →
      (transferLoop rt origin newOwner entries i stub).1 = Response.success p →
      Inv rt (transferLoop rt origin newOwner entries i stub).2.state := by
  induction entries with
  | nil => intro i stub p hI _; exact hI
  | cons e rest ih =>
    intro i stub p hI h
    simp only [transferLoop] at h ⊢
    cases hsp : SplitCompositeKey e.1 with
    | none => simp [hsp] at h
    | some r =>
      obtain ⟨ot, parts⟩ := r
      simp only [hsp] at h ⊢
      rcases parts with _ | ⟨o, _ | ⟨nm, more⟩⟩
      · simp at h
      · simp at h
      · simp only at h ⊢
        cases ht : transferDiamond rt stub [nm, newOwner] with
        | mk r stub1 =>
          have hI1 := transferDiamond_Inv rt stub [nm, newOwner]
          rw [ht] at hI1
          cases r with
          | success q =>
            simp only [ht] at h ⊢
            exact ih (i + 1) stub1 p (hI1 q hI rfl) h
          | error m => simp [ht] at h
          | panic => simp [ht] at h

theorem transferdiamondsBasedOnOrigin_Inv (rt : Runtime) (stub : Stub) (args : List String)
    (p : Option String) (hI : Inv rt stub.state)
    (h : (transferdiamondsBasedOnOrigin rt stub args).1 = Response.success p) :
    Inv rt (transferdiamondsBasedOnOrigin rt stub args).2.state := by
  rcases args with _ | ⟨origin, _ | ⟨a1, rest⟩⟩
  · simp [transferdiamondsBasedOnOrigin] at h
  · simp [transferdiamondsBasedOnOrigin] at h
  · simp only [transferdiamondsBasedOnOrigin, GetStateByPartialCompositeKey] at h ⊢
    cases hc : CreateCompositeKey "origin~name" [origin] with
    | error e => simp [hc] at h
    | ok key =>
      simp only [hc] at h ⊢
      exact transferLoop_Inv rt origin _ _ 0 _ p hI h

theorem queryDiamond_state (stub : Stub) (args : List String) :
    (queryDiamond stub args).2.state = stub.state := by
  rcases args with _ | ⟨name, _ | ⟨a1, rest⟩⟩
  · rfl
  · simp only [queryDiamond, GetState]
    cases hg : kvGet stub.faults.get name with
    | some e => rfl
    | none => cases hs : kvGet stub.state name <;> rfl
  · rfl

theorem getHistoryFordiamond_state (rt : Runtime) (stub : Stub) (args : List String) :
    (getHistoryFordiamond rt stub args).2.state = stub.state := by
  rcases args with _ | ⟨name, rest⟩ <;> rfl

theorem commit_Inv (rt : Runtime) (hist : List (String × List KeyModification)) (kv : KV)
    (function : String) (args : List String) (hI : Inv rt kv) :
    Inv rt (commit rt hist kv function args) := by
  unfold commit
  cases hr : Invoke rt (Stub.fresh kv hist) function args with
  | mk r stub1 =>
    cases r with
    | error m => exact hI
    | panic => exact hI
    | success p =>
      simp only
      have h1 : (Invoke rt (Stub.fresh kv hist) function args).1 = Response.success p := by
        rw [hr]
      have h2 : stub1 = (Invoke rt (Stub.fresh kv hist) function args).2 := by rw [hr]
      rw [h2]
      unfold Invoke at h1 ⊢
      split_ifs at h1 ⊢
      · exact createDiamond_Inv rt _ args p hI rfl h1
      · exact transferDiamond_Inv rt _ args p hI h1
      · exact transferdiamondsBasedOnOrigin_Inv rt _ args p hI h1
      · exact delete_Inv rt _ args p hI h1
      · rw [queryDiamond_state]; exact hI
      · rw [getHistoryFordiamond_state]; exact hI

theorem Reachable.inv {rt : Runtime} {kv : KV} (h : Reachable rt kv) : Inv rt kv := by
  induction h with
  | empty => exact Inv_empty rt
  | step kv hist function args _ ih => exact commit_Inv rt hist kv function args ih

/-! ## Claims about the index and the records in reachable states -/

/-- In every world state reachable from the empty store by invocations of the
chaincode on a ledger whose store primitives do not fail (committing an invocation's
writes when it answers success), live records and index entries are in bijection: a
live record under `name` carries that name, has the index entry keyed by its origin
and `name`, and no index entry pairs `name` with another origin; every index entry
keyed by an origin and a name has a live record under that name with that origin; and
every binding of the store is a live record or an index entry holding the sentinel. -/
theorem index_bijection (rt : Runtime) (kv : KV) (h : Reachable rt kv) :
    (∀ name d, LiveRecord rt kv name d →
      d.Name = name ∧ IndexEntry kv d.Origin name ∧ ∀ o, IndexEntry kv o name → o = d.Origin)
    ∧ (∀ o n, IndexEntry kv o n → ∃ d, LiveRecord rt kv n d ∧ d.Origin = o)
    ∧ (∀ k v, kvGet kv k = some v →
      (∃ d, LiveRecord rt kv k d) ∨
      (v = sentinel ∧ ∃ o n, CreateCompositeKey "origin~name" [o, n] = Except.ok k)) := by
  have hI := h.inv
  refine ⟨?_, ?_, ?_⟩
  · rintro name d ⟨v, hv, hu⟩
    obtain ⟨hd, hn, hm⟩ := hI.record_of_decodes name v d hv hu
    subst hn hm
    refine ⟨rfl, ⟨_, CreateCompositeKey_index _ _ hd.origin_ok hd.name_ok, ?_⟩, ?_⟩
    · rw [hI.indexed d hd hv]; rfl
    · rintro o ⟨key, hc, hs⟩
      obtain ⟨ho, hn, hk⟩ := CreateCompositeKey_index_inv _ _ _ hc
      subst hk
      obtain ⟨d1, hd1, -, e2, e3⟩ := hI.owned o d.Name ho hn hs
      rw [hv] at e3
      injection e3 with e3
      rw [← e2, Marshal_inj rt d d1 hd hd1 e3]
  · rintro o n ⟨key, hc, hs⟩
    obtain ⟨ho, hn, hk⟩ := CreateCompositeKey_index_inv _ _ _ hc
    subst hk
    obtain ⟨d1, hd1, -, e2, e3⟩ := hI.owned o n ho hn hs
    exact ⟨d1, ⟨_, e3, Unmarshal_Marshal rt d1 hd1.carats_lo hd1.carats_hi⟩, e2⟩
  · intro k v hv
    rcases hI.entries k v hv with ⟨d, hd, -, hm⟩ | ⟨hs, o, n, hk, ho, hn⟩
    · exact Or.inl ⟨d, v, hv, by rw [hm]; exact Unmarshal_Marshal rt d hd.carats_lo hd.carats_hi⟩
    · exact Or.inr ⟨hs, o, n, by rw [hk]; exact CreateCompositeKey_index o n ho hn⟩

/-- The bijection in the state reached by creating `d1`. -/
theorem index_bijection_witness :
    (∀ name d, LiveRecord asciiRuntime storeD1 name d →
      d.Name = name ∧ IndexEntry storeD1 d.Origin name
        ∧ ∀ o, IndexEntry storeD1 o name → o = d.Origin)
    ∧ (∀ o n, IndexEntry storeD1 o n → ∃ d, LiveRecord asciiRuntime storeD1 n d ∧ d.Origin = o)
    ∧ (∀ k v, kvGet storeD1 k = some v →
      (∃ d, LiveRecord asciiRuntime storeD1 k d) ∨
      (v = sentinel ∧ ∃ o n, CreateCompositeKey "origin~name" [o, n] = Except.ok k)) :=
  index_bijection asciiRuntime storeD1
    (Reachable.step [] [] "createDiamond" ["d1", "Blue", "1", "AL"] Reachable.empty)

/-- C6 (counterexample): `createDiamond` succeeds on the carats text `-5` and stores a
record whose carats field is `-5`, which is not positive. -/
theorem createDiamond_accepts_negative_carats :
    (createDiamond asciiRuntime (Stub.fresh [] []) ["d0", "blue", "-5", "al"]).1
      = Response.success Option.none
    ∧ kvGet (createDiamond asciiRuntime (Stub.fresh [] []) ["d0", "blue", "-5", "al"]).2.state "d0"
      = some (Marshal ⟨"diamond", "d0", "blue", -5, "al"⟩)
    ∧ ¬ (0 < (⟨"diamond", "d0", "blue", -5, "al"⟩ : diamond).Carats) := by
  decide

/-- C6 (amended): the carats field is the integer `Atoi` parsed, an integer of the
64-bit signed range that may be zero or negative: whenever `createDiamond` succeeds,
the argument list has four elements, `Atoi` parses the third as some `n` with
`-2^63 ≤ n < 2^63`, and the record stored under the name has carats `n`; hence every
live record of every reachable state has carats within `-2^63 ≤ carats < 2^63`. -/
theorem carats_is_parsed_integer (rt : Runtime) :
    (∀ (stub : Stub) (args : List String) (p : Option String),
      (createDiamond rt stub args).1 = Response.success p →
      ∃ name origin caratsText owner n, args = [name, origin, caratsText, owner]
        ∧ Atoi caratsText = some n ∧ -(2 ^ 63) ≤ n ∧ n < 2 ^ 63
        ∧ kvGet (createDiamond rt stub args).2.state name
          = some (Marshal ⟨"diamond", name, ToLower rt origin, n, ToLower rt owner⟩))
    ∧ (∀ (kv : KV) (name : String) (d : diamond), Reachable rt kv → LiveRecord rt kv name d →
      -(2 ^ 63) ≤ d.Carats ∧ d.Carats < 2 ^ 63) := by
  constructor
  · intro stub args p h
    obtain ⟨name, origin, ct, owner, n, ha, -, -, -, hn, -, -, -, hv1, -, -, hst⟩ :=
      createDiamond_success_inv rt stub args p h
    refine ⟨name, origin, ct, owner, n, ha, hn, (Atoi_range _ _ hn).1, (Atoi_range _ _ hn).2, ?_⟩
    have hne : name ≠ indexKey (ToLower rt origin) name :=
      fun he => indexKey_ne_of_noReserved _ _ _ hv1 he.symm
    rw [hst]
    simp only [PutState, indexKey_ne_empty, if_false]
    cases kvGet stub.faults.put (indexKey (ToLower rt origin) name) with
    | some e => simp [kvGet_kvPut]
    | none => simp [kvGet_kvPut, hne]
  · rintro kv name d hR ⟨v, hv, hu⟩
    obtain ⟨hd, -, -⟩ := hR.inv.record_of_decodes name v d hv hu
    exact ⟨hd.carats_lo, hd.carats_hi⟩

/-- C6 (witness): the amended statement at the ASCII runtime, applied to the creation of
`d1` and to the live record of `storeD1`. -/
theorem carats_is_parsed_integer_witness :
    (∃ name origin caratsText owner n,
        ["d1", "Blue", "1", "AL"] = [name, origin, caratsText, owner]
        ∧ Atoi caratsText = some n ∧ -(2 ^ 63) ≤ n ∧ n < 2 ^ 63
        ∧ kvGet (createDiamond asciiRuntime (Stub.fresh [] []) ["d1", "Blue", "1", "AL"]).2.state
            name
          = some (Marshal ⟨"diamond", name, ToLower asciiRuntime origin, n,
              ToLower asciiRuntime owner⟩))
    ∧ (-(2 ^ 63) ≤ (⟨"diamond", "d1", "blue", 1, "al"⟩ : diamond).Carats
      ∧ (⟨"diamond", "d1", "blue", 1, "al"⟩ : diamond).Carats < 2 ^ 63) :=
  ⟨(carats_is_parsed_integer asciiRuntime).1 (Stub.fresh [] []) ["d1", "Blue", "1", "AL"]
      Option.none (by decide),
    (carats_is_parsed_integer asciiRuntime).2 storeD1 "d1" ⟨"diamond", "d1", "blue", 1, "al"⟩
      (Reachable.step [] [] "createDiamond" ["d1", "Blue", "1", "AL"] Reachable.empty)
      ⟨Marshal ⟨"diamond", "d1", "blue", 1, "al"⟩, by decide, rfl⟩⟩

/-- C8: when the value stored under a non-empty `name` is the encoding of a record
with 64-bit carats (as `createDiamond` writes them) and the ledger can read and write
`name`, `transferDiamond(name, newOwner)` succeeds; afterwards `name` holds the
encoding of the same record with the owner replaced by the lower-cased `newOwner`
(docType, name, origin and carats as before, as decoding shows), every other key, index
entries included, is bound as before, and the only store accesses are the read and the
write of `name`. -/
theorem transferDiamond_changes_owner_only (rt : Runtime) (stub : Stub)
    (name newOwner : String) (d : diamond)
    (hg : kvGet stub.faults.get name = Option.none)
    (hp : kvGet stub.faults.put name = Option.none) (hname : name ≠ "")
    (hlo : -(2 ^ 63) ≤ d.Carats) (hhi : d.Carats < 2 ^ 63)
    (hrec : kvGet stub.state name = some (Marshal d)) :
    (transferDiamond rt stub [name, newOwner]).1 = Response.success Option.none
    ∧ kvGet (transferDiamond rt stub [name, newOwner]).2.state name
      = some (Marshal ⟨d.ObjectType, d.Name, d.Origin, d.Carats, ToLower rt newOwner⟩)
    ∧ Unmarshal rt (Marshal ⟨d.ObjectType, d.Name, d.Origin, d.Carats, ToLower rt newOwner⟩)
      = Except.ok ⟨d.ObjectType, d.Name, d.Origin, d.Carats, ToLower rt newOwner⟩
    ∧ (∀ k, k ≠ name →
      kvGet (transferDiamond rt stub [name, newOwner]).2.state k = kvGet stub.state k)
    ∧ (transferDiamond rt stub [name, newOwner]).2.log
      = stub.log ++ [Access.get name, Access.put name
          (Marshal ⟨d.ObjectType, d.Name, d.Origin, d.Carats, ToLower rt newOwner⟩)] := by
  rw [transferDiamond_ok rt stub name newOwner (Marshal d) [] d hg hrec
    (Unmarshal_Marshal rt d hlo hhi) hname hp]
  refine ⟨rfl, ?_, Unmarshal_Marshal rt _ hlo hhi, ?_, rfl⟩
  · simp [kvGet_kvPut]
  · intro k hk
    simp [kvGet_kvPut, hk]

/-- C8 (witness): transferring `d1` of `storeD1` to `BOB`. -/
theorem transferDiamond_changes_owner_only_witness :
    (transferDiamond asciiRuntime (Stub.fresh storeD1 []) ["d1", "BOB"]).1
      = Response.success Option.none
    ∧ kvGet (transferDiamond asciiRuntime (Stub.fresh storeD1 []) ["d1", "BOB"]).2.state "d1"
      = some (Marshal ⟨"diamond", "d1", "blue", 1, ToLower asciiRuntime "BOB"⟩)
    ∧ Unmarshal asciiRuntime (Marshal ⟨"diamond", "d1", "blue", 1, ToLower asciiRuntime "BOB"⟩)
      = Except.ok ⟨"diamond", "d1", "blue", 1, ToLower asciiRuntime "BOB"⟩
    ∧ (∀ k, k ≠ "d1" →
      kvGet (transferDiamond asciiRuntime (Stub.fresh storeD1 []) ["d1", "BOB"]).2.state k
        = kvGet (Stub.fresh storeD1 []).state k)
    ∧ (transferDiamond asciiRuntime (Stub.fresh storeD1 []) ["d1", "BOB"]).2.log
      = (Stub.fresh storeD1 []).log ++ [Access.get "d1", Access.put "d1"
          (Marshal ⟨"diamond", "d1", "blue", 1, ToLower asciiRuntime "BOB"⟩)] :=
  transferDiamond_changes_owner_only asciiRuntime (Stub.fresh storeD1 []) "d1" "BOB"
    ⟨"diamond", "d1", "blue", 1, "al"⟩ rfl rfl (by decide) (by decide) (by decide) (by decide)

/-! ## The index scan after a delete -/

theorem splitComponents_no_nul (cs cur : List Char) (h : ∀ c ∈ cs, c ≠ minUnicodeRuneValue) :
    splitComponents cs cur = [] := by
  induction cs generalizing cur with
  | nil => rfl
  | cons c cs ih =>
    simp only [splitComponents, h c (List.mem_cons_self _ _), if_false]
    exact ih _ (fun d hd => h d (List.mem_cons_of_mem _ hd))

theorem splitComponents_segment (a rest cur : List Char)
    (h : ∀ c ∈ a, c ≠ minUnicodeRuneValue) :
    splitComponents (a ++ minUnicodeRuneValue :: rest) cur
      = String.mk (cur.reverse ++ a) :: splitComponents rest [] := by
  induction a generalizing cur with
  | nil => simp [splitComponents]
  | cons c cs ih =>
    simp only [List.cons_append, splitComponents, h c (List.mem_cons_self _ _), if_false]
    show splitComponents (cs ++ minUnicodeRuneValue :: rest) (c :: cur) = _
    rw [ih _ (fun d hd => h d (List.mem_cons_of_mem _ hd))]
    simp

theorem SplitCompositeKey_indexKey (o n : String) (ho : noReserved o) (hn : noReserved n) :
    SplitCompositeKey (indexKey o n) = some ("origin~name", [o, n]) := by
  have h0 : ∀ c ∈ "origin~name".data, c ≠ minUnicodeRuneValue := by decide
  simp only [SplitCompositeKey, indexKey_data, List.tail_cons]
  rw [splitComponents_segment _ _ _ h0, splitComponents_segment _ _ _ (fun c hc => (ho c hc).1),
    splitComponents_segment _ _ _ (fun c hc => (hn c hc).1)]
  rfl

theorem SplitCompositeKey_noReserved (k : String) (hk : noReserved k) :
    SplitCompositeKey k = Option.none := by
  simp only [SplitCompositeKey]
  rw [splitComponents_no_nul _ _ (fun c hc => (hk c (List.mem_of_mem_tail hc)).1)]

theorem mem_rangeScan (kv : KV) (startKey endKey : String) (e : String × String)
    (h : e ∈ rangeScan kv startKey endKey) : e ∈ kv ∧ inRange startKey endKey e.1 = true := by
  unfold rangeScan at h
  have := (List.perm_insertionSort _ _).mem_iff.1 h
  simpa [List.mem_filter] using this

theorem kvGet_isSome_of_mem (kv : KV) (e : String × String) (h : e ∈ kv) :
    (kvGet kv e.1).isSome = true := by
  induction kv with
  | nil => cases h
  | cons x rest ih =>
    obtain ⟨a, b⟩ := x
    simp only [kvGet]
    split_ifs with hk
    · rfl
    · rcases List.mem_cons.1 h with he | he
      · subst he; exact absurd rfl hk
      · exact ih he

theorem transferDiamond_log (rt : Runtime) (stub : Stub) (nm w : String) :
    (∃ l, (transferDiamond rt stub [nm, w]).2.log = stub.log ++ l
      ∧ ∀ a ∈ l, a = Access.get nm ∨ ∃ v, a = Access.put nm v)
    ∧ ∀ k, k ≠ nm → kvGet (transferDiamond rt stub [nm, w]).2.state k = kvGet stub.state k := by
  simp only [transferDiamond, GetState]
  cases hg : kvGet stub.faults.get nm with
  | some e => exact ⟨⟨[Access.get nm], rfl, by simp⟩, fun k _ => rfl⟩
  | none =>
    cases hs : kvGet stub.state nm with
    | none => exact ⟨⟨[Access.get nm], rfl, by simp⟩, fun k _ => rfl⟩
    | some v =>
      cases hu : Unmarshal rt v with
      | error e =>
        simp only [hu]
        exact ⟨⟨[Access.get nm], by simp, by simp⟩, fun k _ => by simp⟩
      | ok d =>
        simp only [hu, PutState]
        split_ifs with hn
        · exact ⟨⟨[Access.get nm], rfl, by simp⟩, fun k _ => rfl⟩
        · cases hp : kvGet stub.faults.put nm with
          | some e =>
            exact ⟨⟨[Access.get nm, Access.put nm
              (Marshal { d with Owner := ToLower rt w })], by simp, by simp⟩, fun k _ => rfl⟩
          | none =>
            refine ⟨⟨[Access.get nm, Access.put nm
              (Marshal { d with Owner := ToLower rt w })], by simp, by simp⟩, fun k hk => ?_⟩
            simp [kvGet_kvPut, hk]

theorem transferLoop_avoids (rt : Runtime) (origin newOwner name : String) (entries : KV)
    (hall : ∀ e ∈ entries, ∀ ot o n more,
      SplitCompositeKey e.1 = some (ot, o :: n :: more) → n ≠ name) :
    ∀ (i : Nat) (stub : Stub),
      (∃ l, (transferLoop rt origin newOwner entries i stub).2.log = stub.log ++ l
        ∧ ∀ a ∈ l, ¬ a.touches name)
      ∧ kvGet (transferLoop rt origin newOwner entries i stub).2.state name
        = kvGet stub.state name := by
  induction entries with
  | nil => intro i stub; exact ⟨⟨[], by simp [transferLoop], by simp⟩, rfl⟩
  | cons e rest ih =>
    intro i stub
    have ih1 := ih (fun x hx => hall x (List.mem_cons_of_mem _ hx))
    simp only [transferLoop]
    cases hsp : SplitCompositeKey e.1 with
    | none => exact ⟨⟨[], by simp, by simp⟩, rfl⟩
    | some r =>
      obtain ⟨ot, parts⟩ := r
      rcases parts with _ | ⟨o, _ | ⟨nm, more⟩⟩
      · exact ⟨⟨[], by simp, by simp⟩, rfl⟩
      · exact ⟨⟨[], by simp, by simp⟩, rfl⟩
      · have hne : nm ≠ name := hall e (List.mem_cons_self _ _) ot o nm more hsp
        obtain ⟨⟨l1, hl1, hm1⟩, hst1⟩ := transferDiamond_log rt stub nm newOwner
        have hav : ∀ a ∈ l1, ¬ a.touches name := by
          intro a ha ht
          rcases hm1 a ha with h | ⟨v, h⟩ <;> subst h
          · rcases ht with h | ⟨u, h⟩ | h
            · injection h with h; exact hne h
            · cases h
            · cases h
          · rcases ht with h | ⟨u, h⟩ | h
            · cases h
            · injection h with h; exact hne h
            · cases h
        simp only
        cases ht : transferDiamond rt stub [nm, newOwner] with
        | mk r stub1 =>
          rw [ht] at hl1 hst1
          simp only at hl1 hst1
          cases r with
          | success q =>
            simp only
            obtain ⟨⟨l2, hl2, hm2⟩, hst2⟩ := ih1 (i + 1) stub1
            refine ⟨⟨l1 ++ l2, by rw [hl2, hl1, List.append_assoc], ?_⟩, ?_⟩
            · intro a ha
              rcases List.mem_append.1 ha with h | h
              · exact hav a h
              · exact hm2 a h
            · rw [hst2]; exact hst1 name (Ne.symm hne)
          | error m => exact ⟨⟨l1, hl1, hav⟩, hst1 name (Ne.symm hne)⟩
          | panic => exact ⟨⟨l1, hl1, hav⟩, hst1 name (Ne.symm hne)⟩

theorem Inv.scan_avoids {rt : Runtime} {kv : KV} (hI : Inv rt kv) (name : String)
    (habs : kvGet kv name = Option.none) (startKey endKey : String) :
    ∀ e ∈ rangeScan kv startKey endKey, ∀ ot o n more,
      SplitCompositeKey e.1 = some (ot, o :: n :: more) → n ≠ name := by
  intro e he ot o n more hsp
  have hm := (mem_rangeScan kv startKey endKey e he).1
  have hs := kvGet_isSome_of_mem kv e hm
  obtain ⟨v, hv⟩ := Option.isSome_iff_exists.1 hs
  rcases hI.entries e.1 v hv with ⟨d1, hd1, hn1, -⟩ | ⟨-, o1, n1, hk, ho1, hn1⟩
  · rw [SplitCompositeKey_noReserved e.1 (hn1 ▸ hd1.name_ok)] at hsp
    cases hsp
  · rw [hk, SplitCompositeKey_indexKey o1 n1 ho1 hn1] at hsp
    injection hsp with hsp
    injection hsp with _ hparts
    injection hparts with e1 hparts
    injection hparts with e2 _
    subst e1 e2
    obtain ⟨d2, -, -, -, hrec⟩ := hI.owned o1 n1 ho1 hn1 (by rw [← hk]; exact hs)
    intro hc
    rw [hc, habs] at hrec
    cases hrec

/-- C10: in a reachable state with a live record `d` under `name`, on a fault-free
ledger, `delete(name)` succeeds; afterwards `queryDiamond(name)` fails with
`Diamond does not exist`, the index entry keyed by the record's origin and `name` is
gone, every key other than `name` and that index key is bound as before, and a
following `transferdiamondsBasedOnOrigin`, for the record's origin or any other, makes
no store access to `name` and leaves `name` unbound. -/
theorem delete_removes_record_and_index (rt : Runtime) (stub : Stub) (name : String)
    (d : diamond) (hR : Reachable rt stub.state) (hf : stub.faults = Faults.none)
    (hrec : LiveRecord rt stub.state name d) :
    (delete rt stub [name]).1 = Response.success Option.none
    ∧ (∀ stub2 : Stub, stub2.state = (delete rt stub [name]).2.state →
        kvGet stub2.faults.get name = Option.none →
        (queryDiamond stub2 [name]).1
          = Response.error ("\x7b\"Error\":\"Diamond does not exist: " ++ name ++ "\"\x7d"))
    ∧ ¬ IndexEntry (delete rt stub [name]).2.state d.Origin name
    ∧ (∀ k, k ≠ name → k ≠ indexKey d.Origin name →
        kvGet (delete rt stub [name]).2.state k = kvGet stub.state k)
    ∧ (∀ (stub2 : Stub) (origin newOwner : String),
        stub2.state = (delete rt stub [name]).2.state →
        (∃ l, (transferdiamondsBasedOnOrigin rt stub2 [origin, newOwner]).2.log = stub2.log ++ l
          ∧ ∀ a ∈ l, ¬ a.touches name)
        ∧ kvGet (transferdiamondsBasedOnOrigin rt stub2 [origin, newOwner]).2.state name
          = Option.none) := by
  have hI := hR.inv
  obtain ⟨v, hv, hu⟩ := hrec
  obtain ⟨hd, hn, hm⟩ := hI.record_of_decodes name v d hv hu
  subst hn hm
  have hI1 := Inv_delete rt stub.state d hI hd hv
  rw [delete_ok rt stub d.Name _ d hf hv hu hd.origin_ok hd.name_ok]
  have hgone : kvGet (kvDel (kvDel stub.state d.Name) (indexKey d.Origin d.Name)) d.Name
      = Option.none := by
    simp [kvGet_kvDel]
  refine ⟨rfl, ?_, ?_, ?_, ?_⟩
  · intro stub2 hs2 hg2
    simp only at hs2
    simp [queryDiamond, GetState, hg2, hs2, hgone]
  · rintro ⟨key, hc, hs⟩
    obtain ⟨-, -, hk⟩ := CreateCompositeKey_index_inv _ _ _ hc
    subst hk
    simp [kvGet_kvDel] at hs
  · intro k h1 h2
    simp [kvGet_kvDel, h1, h2]
  · intro stub2 origin newOwner hs2
    simp only at hs2
    simp only [transferdiamondsBasedOnOrigin, GetStateByPartialCompositeKey]
    cases hc : CreateCompositeKey "origin~name" [origin] with
    | error e =>
      simp only
      exact ⟨⟨[], by simp, by simp⟩, by rw [hs2]; exact hgone⟩
    | ok key =>
      simp only
      have hall := (hs2 ▸ hI1).scan_avoids d.Name (by rw [hs2]; exact hgone) key
        (key ++ String.mk [maxUnicodeRuneValue])
      obtain ⟨⟨l, hl, hav⟩, hst⟩ := transferLoop_avoids rt origin (ToLower rt newOwner) d.Name
        (rangeScan stub2.state key (key ++ String.mk [maxUnicodeRuneValue])) hall 0
        { stub2 with log := stub2.log ++
            [Access.range key (key ++ String.mk [maxUnicodeRuneValue])] }
      refine ⟨⟨Access.range key (key ++ String.mk [maxUnicodeRuneValue]) :: l, ?_, ?_⟩, ?_⟩
      · rw [hl]; simp
      · intro a ha
        rcases List.mem_cons.1 ha with h | h
        · subst h
          rintro (h | ⟨u, h⟩ | h) <;> cases h
        · exact hav a h
      · rw [hst]; simp only; rw [hs2]; exact hgone

/-- C10 (witness): deleting `d1` from `storeD1`. -/
theorem delete_removes_record_and_index_witness :
    (delete asciiRuntime (Stub.fresh storeD1 []) ["d1"]).1 = Response.success Option.none
    ∧ (∀ stub2 : Stub, stub2.state = (delete asciiRuntime (Stub.fresh storeD1 []) ["d1"]).2.state →
        kvGet stub2.faults.get "d1" = Option.none →
        (queryDiamond stub2 ["d1"]).1
          = Response.error ("\x7b\"Error\":\"Diamond does not exist: " ++ "d1" ++ "\"\x7d"))
    ∧ ¬ IndexEntry (delete asciiRuntime (Stub.fresh storeD1 []) ["d1"]).2.state
        (⟨"diamond", "d1", "blue", 1, "al"⟩ : diamond).Origin "d1"
    ∧ (∀ k, k ≠ "d1" → k ≠ indexKey (⟨"diamond", "d1", "blue", 1, "al"⟩ : diamond).Origin "d1" →
        kvGet (delete asciiRuntime (Stub.fresh storeD1 []) ["d1"]).2.state k
          = kvGet (Stub.fresh storeD1 []).state k)
    ∧ (∀ (stub2 : Stub) (origin newOwner : String),
        stub2.state = (delete asciiRuntime (Stub.fresh storeD1 []) ["d1"]).2.state →
        (∃ l, (transferdiamondsBasedOnOrigin asciiRuntime stub2 [origin, newOwner]).2.log
            = stub2.log ++ l ∧ ∀ a ∈ l, ¬ a.touches "d1")
        ∧ kvGet (transferdiamondsBasedOnOrigin asciiRuntime stub2 [origin, newOwner]).2.state "d1"
          = Option.none) :=
  delete_removes_record_and_index asciiRuntime (Stub.fresh storeD1 []) "d1"
    ⟨"diamond", "d1", "blue", 1, "al"⟩
    (Reachable.step [] [] "createDiamond" ["d1", "Blue", "1", "AL"] Reachable.empty) rfl
    ⟨Marshal ⟨"diamond", "d1", "blue", 1, "al"⟩, by decide, rfl⟩

/-! ## Claims about argument counts, dispatch, reads and the history -/

/-- C15 (counterexample): `queryDiamond` with no argument fails with a message that
names what is expected but not the expected count: it is not the text ending in
`Expecting 1`, and it holds no digit at all. -/
theorem queryDiamond_count_message_has_no_count :
    (queryDiamond (Stub.fresh [] []) []).1
      = Response.error "Incorrect number of arguments. Expecting name of the diamond to query"
    ∧ (queryDiamond (Stub.fresh [] []) []).1
      ≠ Response.error "Incorrect number of arguments. Expecting 1"
    ∧ ∀ c ∈ "Incorrect number of arguments. Expecting name of the diamond to query".data,
        digitVal c = Option.none := by
  decide

/-- C15 (amended): an argument list that violates the operation's argument-count check
makes the operation fail with its `Incorrect number of arguments` error and leaves the
stub (world state and access log) unchanged; the message ends in the expected count for
five operations and in `name of the diamond to query` for `queryDiamond`. -/
theorem argument_count_errors (rt : Runtime) (stub : Stub) (args : List String) :
    (args.length ≠ 4 → createDiamond rt stub args
      = (Response.error "Incorrect number of arguments. Expecting 4", stub))
    ∧ (args.length < 2 → transferDiamond rt stub args
      = (Response.error "Incorrect number of arguments. Expecting 2", stub))
    ∧ (args.length < 2 → transferdiamondsBasedOnOrigin rt stub args
      = (Response.error "Incorrect number of arguments. Expecting 2", stub))
    ∧ (args.length ≠ 1 → delete rt stub args
      = (Response.error "Incorrect number of arguments. Expecting 1", stub))
    ∧ (args.length ≠ 1 → queryDiamond stub args
      = (Response.error
          "Incorrect number of arguments. Expecting name of the diamond to query", stub))
    ∧ (args.length < 1 → getHistoryFordiamond rt stub args
      = (Response.error "Incorrect number of arguments. Expecting 1", stub)) := by
  refine ⟨?_, ?_, ?_, ?_, ?_, ?_⟩
  · intro h
    rcases args with _ | ⟨a0, _ | ⟨a1, _ | ⟨a2, _ | ⟨a3, _ | ⟨a4, r⟩⟩⟩⟩⟩ <;>
      first
        | rfl
        | exact absurd rfl h
  · intro h
    rcases args with _ | ⟨a0, _ | ⟨a1, r⟩⟩
    · rfl
    · rfl
    · simp only [List.length_cons] at h; omega
  · intro h
    rcases args with _ | ⟨a0, _ | ⟨a1, r⟩⟩
    · rfl
    · rfl
    · simp only [List.length_cons] at h; omega
  · intro h
    rcases args with _ | ⟨a0, _ | ⟨a1, r⟩⟩
    · rfl
    · exact absurd rfl h
    · rfl
  · intro h
    rcases args with _ | ⟨a0, _ | ⟨a1, r⟩⟩
    · rfl
    · exact absurd rfl h
    · rfl
  · intro h
    rcases args with _ | ⟨a0, r⟩
    · rfl
    · simp only [List.length_cons] at h; omega

/-- C15 (witness): the six operations on argument lists of the wrong length, over
`storeD1`. -/
theorem argument_count_errors_witness :
    createDiamond asciiRuntime (Stub.fresh storeD1 []) ["d2", "red"]
      = (Response.error "Incorrect number of arguments. Expecting 4", Stub.fresh storeD1 [])
    ∧ transferDiamond asciiRuntime (Stub.fresh storeD1 []) ["d1"]
      = (Response.error "Incorrect number of arguments. Expecting 2", Stub.fresh storeD1 [])
    ∧ delete asciiRuntime (Stub.fresh storeD1 []) ["d1", "d2"]
      = (Response.error "Incorrect number of arguments. Expecting 1", Stub.fresh storeD1 []) :=
  ⟨(argument_count_errors asciiRuntime (Stub.fresh storeD1 []) ["d2", "red"]).1 (by decide),
    (argument_count_errors asciiRuntime (Stub.fresh storeD1 []) ["d1"]).2.1 (by decide),
    (argument_count_errors asciiRuntime (Stub.fresh storeD1 []) ["d1", "d2"]).2.2.2.1
      (by decide)⟩

/-- C16: for a function name that is none of the six recognised names `Invoke` answers
`Received unknown function invocation` and leaves the stub unchanged, whatever the
arguments and the state; for each recognised name it returns what the operation of that
name returns on the same stub and arguments. -/
theorem Invoke_dispatch (rt : Runtime) (stub : Stub) (args : List String) :
    (∀ function, function ∉ recognisedFunctions →
      Invoke rt stub function args
        = (Response.error "Received unknown function invocation", stub))
    ∧ Invoke rt stub "createDiamond" args = createDiamond rt stub args
    ∧ Invoke rt stub "transferDiamond" args = transferDiamond rt stub args
    ∧ Invoke rt stub "transferdiamondsBasedOnOrigin" args
      = transferdiamondsBasedOnOrigin rt stub args
    ∧ Invoke rt stub "delete" args = delete rt stub args
    ∧ Invoke rt stub "queryDiamond" args = queryDiamond stub args
    ∧ Invoke rt stub "getHistoryFordiamond" args = getHistoryFordiamond rt stub args := by
  refine ⟨?_, rfl, rfl, rfl, rfl, rfl, rfl⟩
  intro function h
  simp only [recognisedFunctions, List.mem_cons, List.mem_singleton, List.not_mem_nil,
    or_false, not_or] at h
  obtain ⟨h1, h2, h3, h4, h5, h6⟩ := h
  simp [Invoke, h1, h2, h3, h4, h5, h6]

/-- C16 (witness): an unrecognised name over `storeD1`. -/
theorem Invoke_dispatch_witness :
    Invoke asciiRuntime (Stub.fresh storeD1 []) "readDiamond" ["d1"]
      = (Response.error "Received unknown function invocation", Stub.fresh storeD1 []) :=
  (Invoke_dispatch asciiRuntime (Stub.fresh storeD1 []) ["d1"]).1 "readDiamond" (by decide)

/-- C13 (counterexample): in the reachable state `storeD1` the encoded index key of
(`blue`, `d1`) names no live record, yet `queryDiamond` on that key succeeds and returns
the sentinel value of the index entry. -/
theorem queryDiamond_returns_index_sentinel :
    (¬ ∃ d, LiveRecord asciiRuntime storeD1 (indexKey "blue" "d1") d)
    ∧ (queryDiamond (Stub.fresh storeD1 []) [indexKey "blue" "d1"]).1
      = Response.success (some sentinel) := by
  refine ⟨?_, by decide⟩
  rintro ⟨d, v, hv, hu⟩
  have h : kvGet storeD1 (indexKey "blue" "d1") = some sentinel := by decide
  rw [h] at hv
  injection hv with hv
  subst hv
  cases hu

/-- C13 (amended): on a ledger that can read `name`, `queryDiamond(name)` succeeds if
and only if some value is stored under the key `name`, and then returns exactly the
stored bytes; otherwise it fails with `Diamond does not exist`; the world state is
never changed. In a reachable state, for a name free of U+0000 and U+10FFFF, a value is
stored under `name` if and only if a live record exists for `name`, and the payload is
the record's encoding; for the encoded key of an index entry the payload is the
sentinel. -/
theorem queryDiamond_reads_key (rt : Runtime) :
    (∀ (stub : Stub) (name : String), kvGet stub.faults.get name = Option.none →
      (queryDiamond stub [name]).1
        = (match kvGet stub.state name with
          | some v => Response.success (some v)
          | Option.none => Response.error (notFoundMessage name))
      ∧ (queryDiamond stub [name]).2.state = stub.state)
    ∧ (∀ (kv : KV) (name : String), Reachable rt kv → noReserved name →
      ((kvGet kv name).isSome = true ↔ ∃ d, LiveRecord rt kv name d)
      ∧ ∀ d, LiveRecord rt kv name d → kvGet kv name = some (Marshal d))
    ∧ (∀ (kv : KV) (o n : String), Reachable rt kv → IndexEntry kv o n →
      kvGet kv (indexKey o n) = some sentinel) := by
  refine ⟨?_, ?_, ?_⟩
  · intro stub name hg
    simp only [queryDiamond, GetState, hg]
    cases hs : kvGet stub.state name <;> simp [notFoundMessage]
  · intro kv name hR hn
    have hI := hR.inv
    constructor
    · constructor
      · intro hs
        obtain ⟨v, hv⟩ := Option.isSome_iff_exists.1 hs
        rcases hI.entries name v hv with ⟨d, hd, -, hm⟩ | ⟨-, o, n, hk, -, -⟩
        · exact ⟨d, v, hv, by rw [hm]; exact Unmarshal_Marshal rt d hd.carats_lo hd.carats_hi⟩
        · exact absurd hk.symm (indexKey_ne_of_noReserved o n name hn)
      · rintro ⟨d, v, hv, -⟩
        rw [hv]; rfl
    · rintro d ⟨v, hv, hu⟩
      obtain ⟨-, -, hm⟩ := hI.record_of_decodes name v d hv hu
      rw [hv, hm]
  · rintro kv o n hR ⟨key, hc, hs⟩
    obtain ⟨-, -, hk⟩ := CreateCompositeKey_index_inv _ _ _ hc
    subst hk
    obtain ⟨v, hv⟩ := Option.isSome_iff_exists.1 hs
    rcases hR.inv.entries _ v hv with ⟨d, hd, hn, -⟩ | ⟨hsent, -⟩
    · exact absurd hn (hd.name_ne_indexKey o n)
    · rw [hv, hsent]

/-- C13 (witness): reading `d1`, the absent `d9` and the index key in `storeD1`. -/
theorem queryDiamond_reads_key_witness :
    ((queryDiamond (Stub.fresh storeD1 []) ["d9"]).1
        = (match kvGet (Stub.fresh storeD1 []).state "d9" with
          | some v => Response.success (some v)
          | Option.none => Response.error (notFoundMessage "d9"))
      ∧ (queryDiamond (Stub.fresh storeD1 []) ["d9"]).2.state = (Stub.fresh storeD1 []).state)
    ∧ (((kvGet storeD1 "d1").isSome = true ↔ ∃ d, LiveRecord asciiRuntime storeD1 "d1" d)
      ∧ ∀ d, LiveRecord asciiRuntime storeD1 "d1" d → kvGet storeD1 "d1" = some (Marshal d))
    ∧ kvGet storeD1 (indexKey "blue" "d1") = some sentinel :=
  ⟨(queryDiamond_reads_key asciiRuntime).1 (Stub.fresh storeD1 []) "d9" rfl,
    (queryDiamond_reads_key asciiRuntime).2.1 storeD1 "d1"
      (Reachable.step [] [] "createDiamond" ["d1", "Blue", "1", "AL"] Reachable.empty)
      (by decide),
    (queryDiamond_reads_key asciiRuntime).2.2 storeD1 "blue" "d1"
      (Reachable.step [] [] "createDiamond" ["d1", "Blue", "1", "AL"] Reachable.empty)
      ⟨indexKey "blue" "d1", rfl, by decide⟩⟩

theorem historyLoop_cons (rt : Runtime) (e : KeyModification) (rest : List KeyModification)
    (written : Bool) (buffer : String) :
    historyLoop rt (e :: rest) written buffer
      = historyLoop rt rest true
          ((if written then buffer ++ "," else buffer) ++ historyObject rt e) := by
  cases written <;> simp only [historyLoop, historyObject, String.append_assoc]

theorem historyLoop_join (rt : Runtime) (h : List KeyModification) :
    (∀ buffer, historyLoop rt h true buffer
      = if h = [] then buffer else buffer ++ "," ++ joinCommas (h.map (historyObject rt)))
    ∧ (∀ buffer, historyLoop rt h false buffer
      = buffer ++ joinCommas (h.map (historyObject rt))) := by
  induction h with
  | nil =>
    refine ⟨fun buffer => rfl, fun buffer => ?_⟩
    simp only [historyLoop, List.map_nil, joinCommas, String.append_empty]
  | cons e rest ih =>
    have key : ∀ b : String, historyLoop rt rest true (b ++ historyObject rt e)
        = b ++ joinCommas ((e :: rest).map (historyObject rt)) := by
      intro b
      rw [ih.1]
      cases rest with
      | nil => simp only [if_true, List.map_cons, List.map_nil, joinCommas]
      | cons e2 rest2 =>
        simp only [List.cons_ne_nil, if_false, List.map_cons, joinCommas, String.append_assoc]
    constructor
    · intro buffer
      rw [historyLoop_cons]
      simp only [if_true, List.cons_ne_nil, if_false]
      rw [key]
    · intro buffer
      rw [historyLoop_cons]
      simp only [Bool.false_eq_true, if_false]
      rw [key]

/-- C14: `getHistoryFordiamond` succeeds on every history the ledger returns for the
name, and its payload is the history array: `[`, then one object per entry in the
order of the history, separated by single commas, then `]`; each object holds the
entry's TxId, `null` as Value when the entry is a deletion and the entry's raw value
otherwise, the timestamp text and the IsDelete flag; for the empty history the payload
is `[]`. The world state is unchanged. -/
theorem getHistoryFordiamond_payload (rt : Runtime) (stub : Stub) (name : String)
    (rest : List String) :
    (getHistoryFordiamond rt stub (name :: rest)).1
      = Response.success (some (historyArray rt (GetHistoryForKey stub name).1))
    ∧ (getHistoryFordiamond rt stub (name :: rest)).2.state = stub.state
    ∧ historyArray rt [] = "[]"
    ∧ (∀ l : List KeyModification, historyArray rt l
      = "[" ++ joinCommas (l.map (historyObject rt)) ++ "]")
    ∧ (∀ e : KeyModification, historyObject rt e
      = "\x7b\"TxId\":" ++ "\"" ++ e.TxId ++ "\""
        ++ ", \"Value\":" ++ (if e.IsDelete then "null" else e.Value)
        ++ ", \"Timestamp\":" ++ "\"" ++ rt.timeString e.Seconds e.Nanos ++ "\""
        ++ ", \"IsDelete\":" ++ "\"" ++ (if e.IsDelete then "true" else "false") ++ "\""
        ++ "\x7d") := by
  refine ⟨?_, rfl, rfl, fun l => rfl, fun e => rfl⟩
  simp only [getHistoryFordiamond, historyArray]
  rw [(historyLoop_join rt _).2]

/-! ## The index scan in a consistent state -/

theorem lexLt_prefix (p : List Char) (m : Char) :
    ∀ k, lexLt k p = false → lexLt k (p ++ [m]) = true → ∃ r, k = p ++ r := by
  induction p with
  | nil => intro k _ _; exact ⟨k, rfl⟩
  | cons a as ih =>
    intro k h1 h2
    cases k with
    | nil => simp [lexLt] at h1
    | cons c cs =>
      simp only [List.cons_append, lexLt] at h1 h2
      split_ifs at h1 h2 with hlt heq
      · subst heq
        obtain ⟨r, hr⟩ := ih cs h1 h2
        exact ⟨r, by rw [hr]; rfl⟩

theorem lexLt_append_self (p r : List Char) : lexLt (p ++ r) p = false := by
  induction p with
  | nil => cases r <;> rfl
  | cons a as ih => simp [lexLt, ih]

theorem lexLt_append_left (p r s : List Char) : lexLt (p ++ r) (p ++ s) = lexLt r s := by
  induction p with
  | nil => rfl
  | cons a as ih => simp [lexLt, ih]

theorem char_toNat_le_max (c : Char) (h : c ≠ maxUnicodeRuneValue) :
    c.toNat < maxUnicodeRuneValue.toNat := by
  have hv : c.toNat < 0x110000 := by
    have := c.valid
    rcases this with h1 | ⟨_, h2⟩
    · exact lt_trans h1 (by decide)
    · exact h2
  have hm : maxUnicodeRuneValue.toNat = 0x10FFFF := by decide
  rw [hm]
  by_contra hge
  have heq : c.toNat = 0x10FFFF := by omega
  exact h (char_eq_of_toNat c _ heq)

theorem partialKey_data (o : String) :
    (partialKey o).data = minUnicodeRuneValue :: ("origin~name".data ++
      minUnicodeRuneValue :: (o.data ++ [minUnicodeRuneValue])) := by
  simp [partialKey, String.data_append]

theorem indexKey_data_scanKey (o n : String) :
    (indexKey o n).data = (partialKey o).data ++ (n.data ++ [minUnicodeRuneValue]) := by
  simp [indexKey_data, partialKey_data]

theorem CreateCompositeKey_scanKey (o : String) (ho : noReserved o) :
    CreateCompositeKey "origin~name" [o] = Except.ok (partialKey o) := by
  have h0 : validateCompositeKeyAttribute "origin~name" = Except.ok () :=
    (validate_ok_iff _).2 (by decide)
  simp only [CreateCompositeKey, h0, appendAttributes, (validate_ok_iff o).2 ho]
  rfl

theorem CreateCompositeKey_partial_error (o e : String)
    (h : CreateCompositeKey "origin~name" [o] = Except.error e) : ¬ noReserved o := by
  intro ho
  rw [CreateCompositeKey_scanKey o ho] at h
  cases h

theorem inRange_indexKey (o n : String) (hn : noReserved n) :
    inRange (partialKey o) (partialKey o ++ String.mk [maxUnicodeRuneValue]) (indexKey o n)
      = true := by
  simp only [inRange, keyLe, Bool.and_eq_true, Bool.not_eq_true', String.data_append]
  rw [indexKey_data_scanKey]
  refine ⟨lexLt_append_self _ _, ?_⟩
  rw [lexLt_append_left]
  cases hd : n.data with
  | nil => decide
  | cons c cs =>
    have hc := (hn c (by rw [hd]; exact List.mem_cons_self _ _)).2
    have := char_toNat_le_max c hc
    simp [lexLt, this]

theorem inRange_prefix (o k : String)
    (h : inRange (partialKey o) (partialKey o ++ String.mk [maxUnicodeRuneValue]) k = true) :
    ∃ r, k.data = (partialKey o).data ++ r := by
  simp only [inRange, keyLe, Bool.and_eq_true, Bool.not_eq_true', String.data_append] at h
  exact lexLt_prefix _ _ _ h.1 h.2

theorem Inv.inRange_key {rt : Runtime} {kv : KV} (hI : Inv rt kv) (o : String)
    (ho : noReserved o) (e : String × String) (he : e ∈ kv)
    (h : inRange (partialKey o) (partialKey o ++ String.mk [maxUnicodeRuneValue]) e.1 = true) :
    ∃ n, noReserved n ∧ e.1 = indexKey o n := by
  obtain ⟨r, hr⟩ := inRange_prefix o e.1 h
  obtain ⟨v, hv⟩ := Option.isSome_iff_exists.1 (kvGet_isSome_of_mem kv e he)
  rcases hI.entries e.1 v hv with ⟨d, hd, hn, -⟩ | ⟨-, o1, n1, hk, ho1, hn1⟩
  · exfalso
    have hmem : minUnicodeRuneValue ∈ e.1.data := by
      rw [hr, partialKey_data]; exact List.mem_append_left _ (List.mem_cons_self _ _)
    rw [← hn] at hmem
    exact (hd.name_ok _ hmem).1 rfl
  · refine ⟨n1, hn1, ?_⟩
    rw [hk] at hr
    rw [indexKey_data, partialKey_data] at hr
    simp only [List.cons_append, List.append_assoc, List.cons.injEq, true_and,
      List.append_cancel_left_eq] at hr
    have := append_sep_inj o1.data _ o.data _ minUnicodeRuneValue
      (fun hm => (ho1 _ hm).1 rfl) (fun hm => (ho _ hm).1 rfl) hr
    rw [hk, String.ext this.1]

theorem Inv.mem_indexScan {rt : Runtime} {kv : KV} (hI : Inv rt kv) (o : String)
    (ho : noReserved o) (e : String × String) :
    e ∈ indexScan kv o ↔ e ∈ kv ∧ ∃ n, noReserved n ∧ e.1 = indexKey o n := by
  unfold indexScan rangeScan
  rw [(List.perm_insertionSort _ _).mem_iff, List.mem_filter]
  constructor
  · rintro ⟨he, hr⟩
    exact ⟨he, hI.inRange_key o ho e he hr⟩
  · rintro ⟨he, n, hn, hk⟩
    exact ⟨he, by rw [hk]; exact inRange_indexKey o n hn⟩

theorem entryName_indexKey (o n v : String) (ho : noReserved o) (hn : noReserved n) :
    entryName (indexKey o n, v) = some n := by
  simp [entryName, SplitCompositeKey_indexKey o n ho hn]

theorem indexKey_inj_name (o n1 n2 : String) (ho : noReserved o)
    (h : indexKey o n1 = indexKey o n2) : n1 = n2 :=
  (indexKey_inj o n1 o n2 ho ho h).2

theorem transferLoop_success (rt : Runtime) (origin w o : String) (ho : noReserved o)
    (entries : KV) :
    ∀ (i : Nat) (stub : Stub), stub.faults = Faults.none → Inv rt stub.state →
      (∀ e ∈ entries, ∃ n, noReserved n ∧ e.1 = indexKey o n
        ∧ (kvGet stub.state e.1).isSome = true) →
      ∃ stub1, transferLoop rt origin w entries i stub
          = (Response.success (some (transferPayload (i + entries.length) origin w)), stub1)
        ∧ Inv rt stub1.state
        ∧ (∀ k, (∀ e ∈ entries, e.1 ≠ indexKey o k) → kvGet stub1.state k = kvGet stub.state k)
        ∧ (∀ e ∈ entries, ∀ n d0, e.1 = indexKey o n → Good rt d0 →
            kvGet stub.state n = some (Marshal d0) →
            kvGet stub1.state n = some (Marshal { d0 with Owner := ToLower rt w })) := by
  induction entries with
  | nil =>
    intro i stub _ hI _
    exact ⟨stub, rfl, hI, fun k _ => rfl, fun e he => by cases he⟩
  | cons e rest ih =>
    intro i stub hf hI hall
    obtain ⟨n, hn, hk, hs⟩ := hall e (List.mem_cons_self _ _)
    obtain ⟨d, hd, hdn, -, hrec⟩ := hI.owned o n ho hn (hk ▸ hs)
    subst hdn
    have hname : d.Name ≠ "" := hd.name_ne
    have hg : kvGet stub.faults.get d.Name = Option.none := by rw [hf]; rfl
    have hp : kvGet stub.faults.put d.Name = Option.none := by rw [hf]; rfl
    have ht := transferDiamond_ok rt stub d.Name w (Marshal d) [] d hg hrec
      (Unmarshal_Marshal rt d hd.carats_lo hd.carats_hi) hname hp
    have hI1 : Inv rt (kvPut stub.state d.Name (Marshal { d with Owner := ToLower rt w })) :=
      Inv_transfer rt stub.state d w hI hd hrec
    have hd1 : Good rt { d with Owner := ToLower rt w } :=
      ⟨hd.objectType, hd.name_ne, hd.name_ok, hd.origin_ok, hd.origin_lower, ⟨w, rfl⟩,
        hd.carats_lo, hd.carats_hi⟩
    have hne : ∀ o2 n2, indexKey o2 n2 ≠ d.Name := fun o2 n2 he =>
      indexKey_ne_of_noReserved o2 n2 d.Name hn he
    obtain ⟨stub1, hloop, hInv, hframe, hset⟩ := ih (i + 1)
      { stub with
        state := kvPut stub.state d.Name (Marshal { d with Owner := ToLower rt w }),
        log := stub.log ++ [Access.get d.Name,
          Access.put d.Name (Marshal { d with Owner := ToLower rt w })] }
      hf hI1 (by
        intro e2 he2
        obtain ⟨n2, hn2, hk2, hs2⟩ := hall e2 (List.mem_cons_of_mem _ he2)
        refine ⟨n2, hn2, hk2, ?_⟩
        simp only [kvGet_kvPut]
        rw [if_neg (by rw [hk2]; exact hne o n2)]
        exact hs2)
    refine ⟨stub1, ?_, hInv, ?_, ?_⟩
    · simp only [transferLoop, hk, SplitCompositeKey_indexKey o d.Name ho hn, ht, hloop,
        List.length_cons]
      rw [show i + 1 + rest.length = i + (rest.length + 1) by omega]
    · intro k hk2
      have hkn : k ≠ d.Name := by
        intro he
        exact hk2 e (List.mem_cons_self _ _) (by rw [hk, he])
      rw [hframe k (fun e2 he2 => hk2 e2 (List.mem_cons_of_mem _ he2))]
      simp [kvGet_kvPut, hkn]
    · intro e2 he2 n2 d0 hk2 hd0 hrec0
      by_cases hnn : n2 = d.Name
      · subst hnn
        rw [hrec] at hrec0
        injection hrec0 with hrec0
        have := Marshal_inj rt d d0 hd hd0 hrec0
        subst this
        by_cases hvis : ∃ e3 ∈ rest, e3.1 = indexKey o d.Name
        · obtain ⟨e3, he3, hk3⟩ := hvis
          exact hset e3 he3 d.Name { d with Owner := ToLower rt w } hk3 hd1
            (by simp [kvGet_kvPut])
        · rw [hframe d.Name (fun e3 he3 hk3 => hvis ⟨e3, he3, hk3⟩)]
          simp [kvGet_kvPut]
      · have he2r : e2 ∈ rest := by
          rcases List.mem_cons.1 he2 with h | h
          · exfalso
            rw [h, hk] at hk2
            exact hnn (indexKey_inj_name o d.Name n2 ho hk2).symm
          · exact h
        exact hset e2 he2r n2 d0 hk2 hd0 (by simp [kvGet_kvPut, hnn, hrec0])

theorem mem_of_kvGet (kv : KV) (k v : String) (h : kvGet kv k = some v) : (k, v) ∈ kv := by
  induction kv with
  | nil => cases h
  | cons x rest ih =>
    obtain ⟨a, b⟩ := x
    simp only [kvGet] at h
    split_ifs at h with hk
    · injection h with h
      subst hk h
      exact List.mem_cons_self _ _
    · exact List.mem_cons_of_mem _ (ih h)

theorem kvGet_of_mem_nodup (kv : KV) (k v : String) (hnd : (kv.map Prod.fst).Nodup)
    (h : (k, v) ∈ kv) : kvGet kv k = some v := by
  induction kv with
  | nil => cases h
  | cons x rest ih =>
    obtain ⟨a, b⟩ := x
    simp only [List.map_cons, List.nodup_cons] at hnd
    simp only [kvGet]
    rcases List.mem_cons.1 h with he | he
    · injection he with h1 h2
      subst h1 h2
      simp
    · have hak : a ≠ k := by
        intro hak
        subst hak
        exact hnd.1 (List.mem_map.2 ⟨(a, v), he, rfl⟩)
      simp only [hak, if_false]
      exact ih hnd.2 he

theorem isRecordOfOrigin_iff (rt : Runtime) (o : String) (e : String × String) :
    isRecordOfOrigin rt o e = true ↔ ∃ d, Unmarshal rt e.2 = Except.ok d ∧ d.Origin = o := by
  unfold isRecordOfOrigin
  cases h : Unmarshal rt e.2 with
  | error m => simp
  | ok d => simp

theorem Inv.scan_length {rt : Runtime} {kv : KV} (hI : Inv rt kv) (o : String)
    (ho : noReserved o) : (indexScan kv o).length = liveRecordsOfOrigin rt kv o := by
  have hsub1 : ((kv.filter (fun e => inRange (partialKey o)
      (partialKey o ++ String.mk [maxUnicodeRuneValue]) e.1)).map Prod.fst).Nodup :=
    hI.nodup.sublist ((List.filter_sublist kv).map Prod.fst)
  have hsub2 : ((kv.filter (isRecordOfOrigin rt o)).map Prod.fst).Nodup :=
    hI.nodup.sublist ((List.filter_sublist kv).map Prod.fst)
  have hnd2 : (((kv.filter (isRecordOfOrigin rt o)).map Prod.fst).map (indexKey o)).Nodup :=
    hsub2.map_on (fun a _ b _ hab => indexKey_inj_name o a b ho hab)
  have hperm : ((kv.filter (fun e => inRange (partialKey o)
      (partialKey o ++ String.mk [maxUnicodeRuneValue]) e.1)).map Prod.fst).Perm
      (((kv.filter (isRecordOfOrigin rt o)).map Prod.fst).map (indexKey o)) := by
    rw [List.perm_ext_iff_of_nodup hsub1 hnd2]
    intro k
    constructor
    · intro hk
      obtain ⟨e, he, rfl⟩ := List.mem_map.1 hk
      obtain ⟨hm, hr⟩ := List.mem_filter.1 he
      obtain ⟨n, hn, hkey⟩ := hI.inRange_key o ho e hm hr
      obtain ⟨d, hd, hdn, hdo, hrec⟩ := hI.owned o n ho hn
        (by rw [← hkey]; exact kvGet_isSome_of_mem kv e hm)
      refine List.mem_map.2 ⟨n, List.mem_map.2 ⟨(n, Marshal d), List.mem_filter.2
        ⟨mem_of_kvGet kv n _ hrec, ?_⟩, rfl⟩, hkey.symm⟩
      exact (isRecordOfOrigin_iff rt o _).2
        ⟨d, Unmarshal_Marshal rt d hd.carats_lo hd.carats_hi, hdo⟩
    · intro hk
      obtain ⟨n, hn, rfl⟩ := List.mem_map.1 hk
      obtain ⟨e, he, rfl⟩ := List.mem_map.1 hn
      obtain ⟨hm, hr⟩ := List.mem_filter.1 he
      obtain ⟨d, hu, hdo⟩ := (isRecordOfOrigin_iff rt o _).1 hr
      have hget := kvGet_of_mem_nodup kv e.1 e.2 hI.nodup hm
      obtain ⟨hd, hdn, hv⟩ := hI.record_of_decodes e.1 e.2 d hget hu
      have hidx := hI.indexed d hd (by rw [hdn, hget, hv])
      rw [hdo, hdn] at hidx
      exact List.mem_map.2 ⟨(indexKey o e.1, sentinel), List.mem_filter.2
        ⟨mem_of_kvGet kv _ _ hidx, inRange_indexKey _ _ (hdn ▸ hd.name_ok)⟩, rfl⟩
  unfold indexScan rangeScan liveRecordsOfOrigin
  rw [(List.perm_insertionSort _ _).length_eq]
  have := hperm.length_eq
  simpa using this

theorem ToLower_idem (rt : Runtime) (h : LowerIdempotent rt) (s : String) :
    ToLower rt (ToLower rt s) = ToLower rt s := by
  simp only [ToLower, List.map_map]
  congr 1
  apply List.map_congr_left
  intro c _
  exact h c

theorem CreateCompositeKey_partial_cases (o : String) :
    (noReserved o ∧ CreateCompositeKey "origin~name" [o] = Except.ok (partialKey o)) ∨
    (¬ noReserved o ∧ ∃ e, CreateCompositeKey "origin~name" [o] = Except.error e
      ∧ e.data.head? = some 'I') := by
  have h0 : validateCompositeKeyAttribute "origin~name" = Except.ok () :=
    (validate_ok_iff _).2 (by decide)
  rcases validate_cases o with ⟨ho, -⟩ | ⟨hno, e, he, hI⟩
  · exact Or.inl ⟨ho, CreateCompositeKey_scanKey o ho⟩
  · refine Or.inr ⟨hno, e, ?_, hI⟩
    simp only [CreateCompositeKey, h0, appendAttributes, he]

theorem transferdiamondsBasedOnOrigin_ok (rt : Runtime) (stub : Stub) (origin a1 : String)
    (rest : List String) (hI : Inv rt stub.state) (hf : stub.faults = Faults.none)
    (ho : noReserved origin) :
    ∃ stub1, transferdiamondsBasedOnOrigin rt stub (origin :: a1 :: rest)
        = (Response.success (some (transferPayload (liveRecordsOfOrigin rt stub.state origin)
            origin (ToLower rt a1))), stub1)
      ∧ Inv rt stub1.state
      ∧ (∀ k, (∀ e ∈ indexScan stub.state origin, e.1 ≠ indexKey origin k) →
          kvGet stub1.state k = kvGet stub.state k)
      ∧ (∀ e ∈ indexScan stub.state origin, ∀ n d0, e.1 = indexKey origin n → Good rt d0 →
          kvGet stub.state n = some (Marshal d0) →
          kvGet stub1.state n
            = some (Marshal { d0 with Owner := ToLower rt (ToLower rt a1) })) := by
  have hall : ∀ e ∈ indexScan stub.state origin, ∃ n, noReserved n ∧ e.1 = indexKey origin n
      ∧ (kvGet stub.state e.1).isSome = true := by
    intro e he
    obtain ⟨hm, n, hn, hk⟩ := (hI.mem_indexScan origin ho e).1 he
    exact ⟨n, hn, hk, kvGet_isSome_of_mem _ e hm⟩
  obtain ⟨stub1, hloop, hInv, hframe, hset⟩ := transferLoop_success rt origin (ToLower rt a1)
    origin ho (indexScan stub.state origin) 0
    { stub with log := stub.log ++ [Access.range (partialKey origin)
        (partialKey origin ++ String.mk [maxUnicodeRuneValue])] } hf hI hall
  refine ⟨stub1, ?_, hInv, hframe, hset⟩
  simp only [transferdiamondsBasedOnOrigin, GetStateByPartialCompositeKey,
    CreateCompositeKey_scanKey origin ho]
  rw [Nat.zero_add, hI.scan_length origin ho] at hloop
  exact hloop

/-! ## Claims about `transferdiamondsBasedOnOrigin` in reachable states -/

/-- C11 (counterexample): in the reachable state `storeD1` the bulk transfer for an
origin containing U+0000 does not succeed: the composite-key encoding rejects the
origin and the operation answers with that error. -/
theorem transferdiamondsBasedOnOrigin_rejects_nul_origin :
    Reachable asciiRuntime storeD1
    ∧ ∃ err, CreateCompositeKey "origin~name" ["bl\x00ue"] = Except.error err
      ∧ (transferdiamondsBasedOnOrigin asciiRuntime (Stub.fresh storeD1 []) ["bl\x00ue", "bob"]).1
        = Response.error err :=
  ⟨Reachable.step [] [] "createDiamond" ["d1", "Blue", "1", "AL"] Reachable.empty,
    _, rfl, by decide⟩

/-- C11 (amended): in every state reached on a ledger that raised no store error
(`Reachable`), on a fault-free ledger, for every origin that is valid UTF-8 (a text) and
free of U+0000 and U+10FFFF and every new owner, `transferdiamondsBasedOnOrigin`
succeeds and its payload reports the number of live records of that origin (0 when
there are none); afterwards every record that had this origin is the same record with
owner `lowercase(newOwner)`, every live record of this origin has that owner, every
record of another origin is stored byte for byte as before, and every index key is
bound as before. -/
theorem transferdiamondsBasedOnOrigin_effect (rt : Runtime) (stub : Stub)
    (origin newOwner : String) (hidem : LowerIdempotent rt) (hR : Reachable rt stub.state)
    (hf : stub.faults = Faults.none) (ho : noReserved origin) :
    (transferdiamondsBasedOnOrigin rt stub [origin, newOwner]).1
      = Response.success (some (transferPayload (liveRecordsOfOrigin rt stub.state origin)
          origin (ToLower rt newOwner)))
    ∧ (∀ name d, LiveRecord rt stub.state name d → d.Origin = origin →
        LiveRecord rt (transferdiamondsBasedOnOrigin rt stub [origin, newOwner]).2.state name
          { d with Owner := ToLower rt newOwner })
    ∧ (∀ name d,
        LiveRecord rt (transferdiamondsBasedOnOrigin rt stub [origin, newOwner]).2.state name d →
        d.Origin = origin → d.Owner = ToLower rt newOwner)
    ∧ (∀ name d, LiveRecord rt stub.state name d → d.Origin ≠ origin →
        kvGet (transferdiamondsBasedOnOrigin rt stub [origin, newOwner]).2.state name
          = kvGet stub.state name)
    ∧ (∀ o n, kvGet (transferdiamondsBasedOnOrigin rt stub [origin, newOwner]).2.state
          (indexKey o n) = kvGet stub.state (indexKey o n)) := by
  have hI := hR.inv
  obtain ⟨stub1, hop, hInv, hframe, hset⟩ :=
    transferdiamondsBasedOnOrigin_ok rt stub origin newOwner [] hI hf ho
  rw [hop]
  simp only [ToLower_idem rt hidem] at hset
  have hold : ∀ name d, LiveRecord rt stub.state name d → d.Origin = origin →
      kvGet stub1.state name = some (Marshal { d with Owner := ToLower rt newOwner })
      ∧ Good rt d := by
    rintro name d ⟨v, hv, hu⟩ hdo
    obtain ⟨hd, hdn, hm⟩ := hI.record_of_decodes name v d hv hu
    subst hdn hm hdo
    have hidx := hI.indexed d hd hv
    have hmem := (hI.mem_indexScan d.Origin ho (indexKey d.Origin d.Name, sentinel)).2
      ⟨mem_of_kvGet _ _ _ hidx, d.Name, hd.name_ok, rfl⟩
    exact ⟨hset _ hmem d.Name d rfl hd hv, hd⟩
  have hidxframe : ∀ o n, kvGet stub1.state (indexKey o n) = kvGet stub.state (indexKey o n) := by
    intro o n
    apply hframe
    intro e he hk
    obtain ⟨-, n1, hn1, hk1⟩ := (hI.mem_indexScan origin ho e).1 he
    rw [hk1] at hk
    exact indexKey_ne_of_noReserved o n n1 hn1 (indexKey_inj_name origin n1 _ ho hk).symm
  refine ⟨rfl, ?_, ?_, ?_, hidxframe⟩
  · intro name d hrec hdo
    obtain ⟨hget, hd⟩ := hold name d hrec hdo
    exact ⟨_, hget, Unmarshal_Marshal rt _ hd.carats_lo hd.carats_hi⟩
  · rintro name d ⟨v, hv, hu⟩ hdo
    obtain ⟨hd, hdn, hm⟩ := hInv.record_of_decodes name v d hv hu
    subst hdn hm hdo
    have hidx := hInv.indexed d hd hv
    rw [hidxframe] at hidx
    obtain ⟨d0, hd0, hdn0, hdo0, hrec0⟩ := hI.owned d.Origin d.Name ho hd.name_ok
      (by rw [hidx]; rfl)
    obtain ⟨hget, -⟩ := hold d.Name d0 ⟨_, hrec0,
      Unmarshal_Marshal rt d0 hd0.carats_lo hd0.carats_hi⟩ hdo0
    rw [hv] at hget
    injection hget with hget
    have hd1 : Good rt { d0 with Owner := ToLower rt newOwner } :=
      ⟨hd0.objectType, hd0.name_ne, hd0.name_ok, hd0.origin_ok, hd0.origin_lower,
        ⟨newOwner, rfl⟩, hd0.carats_lo, hd0.carats_hi⟩
    rw [Marshal_inj rt d _ hd hd1 hget]
  · rintro name d ⟨v, hv, hu⟩ hdo
    obtain ⟨hd, hdn, hm⟩ := hI.record_of_decodes name v d hv hu
    subst hdn hm
    apply hframe
    intro e he hk
    obtain ⟨hmem, -⟩ := (hI.mem_indexScan origin ho e).1 he
    obtain ⟨d1, hd1, hdn1, hdo1, hrec1⟩ := hI.owned origin d.Name ho hd.name_ok
      (by rw [← hk]; exact kvGet_isSome_of_mem _ e hmem)
    rw [hv] at hrec1
    injection hrec1 with hrec1
    rw [Marshal_inj rt d d1 hd hd1 hrec1] at hdo
    exact hdo hdo1

theorem map_eq_self_fixed (f : Char → Char) (l : List Char) (h : l.map f = l) :
    ∀ a ∈ l, f a = a := by
  induction l with
  | nil => intro a ha; cases ha
  | cons c cs ih =>
    simp only [List.map_cons, List.cons.injEq] at h
    intro a ha
    rcases List.mem_cons.1 ha with rfl | ha
    · exact h.1
    · exact ih h.2 a ha

theorem asciiRuntime_idempotent : LowerIdempotent asciiRuntime := by
  intro c
  simp only [asciiRuntime]
  by_cases h : 65 ≤ c.toNat ∧ c.toNat ≤ 90
  · have key : ∀ n, n < 91 → 65 ≤ n →
        ¬ (65 ≤ (Char.ofNat (n + 32)).toNat ∧ (Char.ofNat (n + 32)).toNat ≤ 90) := by
      decide
    have := key c.toNat (by omega) h.1
    simp [h, this]
  · simp [h]

theorem storeBlueRed_reachable : Reachable asciiRuntime storeBlueRed :=
  Reachable.step _ [] "createDiamond" ["d3", "red", "7", "cy"]
    (Reachable.step _ [] "createDiamond" ["d2", "blue", "2", "al"]
      (Reachable.step [] [] "createDiamond" ["d1", "Blue", "1", "AL"] Reachable.empty))

/-- C11 (witness): transferring the `blue` diamonds of `storeBlueRed` to `BOB`. -/
theorem transferdiamondsBasedOnOrigin_effect_witness :
    (transferdiamondsBasedOnOrigin asciiRuntime (Stub.fresh storeBlueRed []) ["blue", "BOB"]).1
      = Response.success (some (transferPayload
          (liveRecordsOfOrigin asciiRuntime (Stub.fresh storeBlueRed []).state "blue")
          "blue" (ToLower asciiRuntime "BOB")))
    ∧ (∀ name d, LiveRecord asciiRuntime (Stub.fresh storeBlueRed []).state name d →
        d.Origin = "blue" →
        LiveRecord asciiRuntime (transferdiamondsBasedOnOrigin asciiRuntime
          (Stub.fresh storeBlueRed []) ["blue", "BOB"]).2.state name
          { d with Owner := ToLower asciiRuntime "BOB" })
    ∧ (∀ name d, LiveRecord asciiRuntime (transferdiamondsBasedOnOrigin asciiRuntime
          (Stub.fresh storeBlueRed []) ["blue", "BOB"]).2.state name d →
        d.Origin = "blue" → d.Owner = ToLower asciiRuntime "BOB")
    ∧ (∀ name d, LiveRecord asciiRuntime (Stub.fresh storeBlueRed []).state name d →
        d.Origin ≠ "blue" →
        kvGet (transferdiamondsBasedOnOrigin asciiRuntime
          (Stub.fresh storeBlueRed []) ["blue", "BOB"]).2.state name
          = kvGet (Stub.fresh storeBlueRed []).state name)
    ∧ (∀ o n, kvGet (transferdiamondsBasedOnOrigin asciiRuntime
          (Stub.fresh storeBlueRed []) ["blue", "BOB"]).2.state (indexKey o n)
          = kvGet (Stub.fresh storeBlueRed []).state (indexKey o n)) :=
  transferdiamondsBasedOnOrigin_effect asciiRuntime (Stub.fresh storeBlueRed []) "blue" "BOB"
    asciiRuntime_idempotent storeBlueRed_reachable rfl (by decide)

/-- C19: in a reachable state every key the index scan of
`transferdiamondsBasedOnOrigin` returns splits into the index name and exactly two
attributes, the scanned origin and a name, and that name has a live record of that
origin, which decodes; on a fault-free ledger the operation therefore never panics and
never reports a failed transfer: it succeeds whenever the composite-key encoding
accepts the origin. -/
theorem index_scan_keys_name_live_records (rt : Runtime) (stub : Stub) (origin newOwner : String)
    (hR : Reachable rt stub.state) (hf : stub.faults = Faults.none) :
    (∀ entries stub1,
      GetStateByPartialCompositeKey stub "origin~name" [origin] = (Except.ok entries, stub1) →
      ∀ e ∈ entries, ∃ n d, SplitCompositeKey e.1 = some ("origin~name", [origin, n])
        ∧ LiveRecord rt stub.state n d ∧ d.Name = n ∧ d.Origin = origin)
    ∧ (transferdiamondsBasedOnOrigin rt stub [origin, newOwner]).1 ≠ Response.panic
    ∧ (∀ m, (transferdiamondsBasedOnOrigin rt stub [origin, newOwner]).1
        ≠ Response.error ("Transfer failed: " ++ m))
    ∧ (noReserved origin →
        ∃ p, (transferdiamondsBasedOnOrigin rt stub [origin, newOwner]).1 = Response.success p) := by
  have hI := hR.inv
  rcases CreateCompositeKey_partial_cases origin with ⟨ho, hc⟩ | ⟨hno, err, hc, hhead⟩
  · obtain ⟨stub1, hop, -⟩ := transferdiamondsBasedOnOrigin_ok rt stub origin newOwner [] hI hf ho
    refine ⟨?_, by rw [hop]; simp, fun m => by rw [hop]; simp, fun _ => ⟨_, by rw [hop]⟩⟩
    intro entries stub2 hscan e he
    simp only [GetStateByPartialCompositeKey, hc] at hscan
    injection hscan with h1 _
    injection h1 with h1
    subst h1
    obtain ⟨hm, n, hn, hk⟩ := (hI.mem_indexScan origin ho e).1 he
    obtain ⟨d, hd, hdn, hdo, hrec⟩ := hI.owned origin n ho hn
      (by rw [← hk]; exact kvGet_isSome_of_mem _ e hm)
    exact ⟨n, d, by rw [hk]; exact SplitCompositeKey_indexKey origin n ho hn,
      ⟨_, hrec, Unmarshal_Marshal rt d hd.carats_lo hd.carats_hi⟩, hdn, hdo⟩
  · have hop : (transferdiamondsBasedOnOrigin rt stub [origin, newOwner]).1
        = Response.error err := by
      simp only [transferdiamondsBasedOnOrigin, GetStateByPartialCompositeKey, hc]
    refine ⟨?_, by rw [hop]; simp, ?_, fun ho => absurd ho hno⟩
    · intro entries stub2 hscan
      simp only [GetStateByPartialCompositeKey, hc] at hscan
      injection hscan with h1 _
      cases h1
    · intro m
      rw [hop]
      intro h
      injection h with h
      rw [h] at hhead
      simp [String.data_append] at hhead

/-- C19 (witness): the index scan for `blue` over `storeBlueRed`. -/
theorem index_scan_keys_name_live_records_witness :
    (∀ entries stub1,
      GetStateByPartialCompositeKey (Stub.fresh storeBlueRed []) "origin~name" ["blue"]
        = (Except.ok entries, stub1) →
      ∀ e ∈ entries, ∃ n d, SplitCompositeKey e.1 = some ("origin~name", ["blue", n])
        ∧ LiveRecord asciiRuntime (Stub.fresh storeBlueRed []).state n d ∧ d.Name = n
        ∧ d.Origin = "blue")
    ∧ (transferdiamondsBasedOnOrigin asciiRuntime (Stub.fresh storeBlueRed []) ["blue", "BOB"]).1
        ≠ Response.panic
    ∧ (∀ m, (transferdiamondsBasedOnOrigin asciiRuntime (Stub.fresh storeBlueRed [])
        ["blue", "BOB"]).1 ≠ Response.error ("Transfer failed: " ++ m))
    ∧ (noReserved "blue" →
        ∃ p, (transferdiamondsBasedOnOrigin asciiRuntime (Stub.fresh storeBlueRed [])
          ["blue", "BOB"]).1 = Response.success p) :=
  index_scan_keys_name_live_records asciiRuntime (Stub.fresh storeBlueRed []) "blue" "BOB"
    storeBlueRed_reachable rfl

/-- C20 (counterexample): two origins that contain an upper-case letter and for which
the bulk transfer does not succeed with count 0. In the reachable state `storeD1` the
origin `B` followed by U+0000 makes the operation fail: the composite-key encoding
rejects it. In the reachable state `storeBoldA`, created with the origin U+1D400 (an
upper-case letter that lower-casing leaves as it is), the bulk transfer for that very
origin finds the record and rewrites it: it reports one transfer and `d1` is owned by
`bob`. -/
theorem transferdiamondsBasedOnOrigin_uppercase_not_count_zero :
    (Reachable asciiRuntime storeD1
      ∧ (∃ c ∈ "B\x00".data, asciiRuntime.toLowerRune c ≠ c)
      ∧ ∃ err, CreateCompositeKey "origin~name" ["B\x00"] = Except.error err
        ∧ (transferdiamondsBasedOnOrigin asciiRuntime (Stub.fresh storeD1 []) ["B\x00", "bob"]).1
          = Response.error err)
    ∧ (Reachable asciiRuntime storeBoldA
      ∧ noReserved boldCapitalA
      ∧ ToLower asciiRuntime boldCapitalA = boldCapitalA
      ∧ (transferdiamondsBasedOnOrigin asciiRuntime (Stub.fresh storeBoldA [])
          [boldCapitalA, "bob"]).1
        = Response.success (some (transferPayload 1 boldCapitalA "bob"))
      ∧ kvGet storeBoldA "d1" = some (Marshal ⟨"diamond", "d1", boldCapitalA, 1, "al"⟩)
      ∧ kvGet (transferdiamondsBasedOnOrigin asciiRuntime (Stub.fresh storeBoldA [])
          [boldCapitalA, "bob"]).2.state "d1"
        = some (Marshal ⟨"diamond", "d1", boldCapitalA, 1, "bob"⟩)) :=
  ⟨⟨Reachable.step [] [] "createDiamond" ["d1", "Blue", "1", "AL"] Reachable.empty,
      ⟨'B', by decide, by decide⟩, _, rfl, by decide⟩,
    Reachable.step [] [] "createDiamond" ["d1", boldCapitalA, "1", "al"] Reachable.empty,
    by decide, by decide, by decide, by decide, by decide⟩

/-- C20 (amended): in every reachable state, for every origin argument that is valid
UTF-8 (a text), contains a rune that lower-casing changes (an upper-case letter with a
lower-case form) and is free of U+0000 and U+10FFFF,
`transferdiamondsBasedOnOrigin` succeeds with count 0 and leaves the world state as it
was, its only store access being the index scan; no live record has that origin, even
when records were created with that very origin string. -/
theorem transferdiamondsBasedOnOrigin_uppercase_origin (rt : Runtime) (stub : Stub)
    (origin newOwner : String) (hidem : LowerIdempotent rt) (hR : Reachable rt stub.state)
    (ho : noReserved origin) (hupper : ∃ c ∈ origin.data, rt.toLowerRune c ≠ c) :
    transferdiamondsBasedOnOrigin rt stub [origin, newOwner]
      = (Response.success (some (transferPayload 0 origin (ToLower rt newOwner))),
          { stub with log := stub.log ++ [Access.range (partialKey origin)
            (partialKey origin ++ String.mk [maxUnicodeRuneValue])] })
    ∧ ∀ name d, LiveRecord rt stub.state name d → d.Origin ≠ origin := by
  have hI := hR.inv
  have hnot : ∀ d, Good rt d → d.Origin ≠ origin := by
    intro d hd hdo
    obtain ⟨s, hs⟩ := hd.origin_lower
    have hfix : ToLower rt origin = origin := by
      rw [← hdo, hs]; exact ToLower_idem rt hidem s
    obtain ⟨c, hc, hne⟩ := hupper
    have hdata := congrArg String.data hfix
    simp only [ToLower] at hdata
    exact hne (map_eq_self_fixed _ _ hdata c hc)
  have hscan : indexScan stub.state origin = [] := by
    apply List.eq_nil_iff_forall_not_mem.2
    intro e he
    obtain ⟨hm, n, hn, hk⟩ := (hI.mem_indexScan origin ho e).1 he
    obtain ⟨d, hd, -, hdo, -⟩ := hI.owned origin n ho hn
      (by rw [← hk]; exact kvGet_isSome_of_mem _ e hm)
    exact hnot d hd hdo
  constructor
  · simp only [transferdiamondsBasedOnOrigin, GetStateByPartialCompositeKey,
      CreateCompositeKey_scanKey origin ho]
    have : rangeScan stub.state (partialKey origin)
        (partialKey origin ++ String.mk [maxUnicodeRuneValue]) = [] := hscan
    rw [this]
    rfl
  · rintro name d ⟨v, hv, hu⟩
    exact hnot d (hI.record_of_decodes name v d hv hu).1

/-- C20 (witness): after `createDiamond("d1", "Blue", "1", "AL")` the bulk transfer for
the origin `Blue` transfers nothing and `d1` stays as it was. -/
theorem transferdiamondsBasedOnOrigin_uppercase_origin_witness :
    transferdiamondsBasedOnOrigin asciiRuntime (Stub.fresh storeD1 []) ["Blue", "bob"]
      = (Response.success (some (transferPayload 0 "Blue" (ToLower asciiRuntime "bob"))),
          { Stub.fresh storeD1 [] with log := (Stub.fresh storeD1 []).log ++
            [Access.range (partialKey "Blue")
              (partialKey "Blue" ++ String.mk [maxUnicodeRuneValue])] })
    ∧ ∀ name d, LiveRecord asciiRuntime (Stub.fresh storeD1 []).state name d →
        d.Origin ≠ "Blue" :=
  transferdiamondsBasedOnOrigin_uppercase_origin asciiRuntime (Stub.fresh storeD1 []) "Blue"
    "bob" asciiRuntime_idempotent
    (Reachable.step [] [] "createDiamond" ["d1", "Blue", "1", "AL"] Reachable.empty)
    (by decide) ⟨'B', by decide, by decide⟩

/-! ## The bulk transfer in arbitrary states -/

theorem transferDiamond_error_state (rt : Runtime) (stub : Stub) (args : List String)
    (m : String) (h : (transferDiamond rt stub args).1 = Response.error m) :
    (transferDiamond rt stub args).2.state = stub.state := by
  rcases args with _ | ⟨name, _ | ⟨a1, rest⟩⟩
  · rfl
  · rfl
  · simp only [transferDiamond, GetState] at h ⊢
    cases hg : kvGet stub.faults.get name with
    | some e => rfl
    | none =>
      simp only [hg] at h ⊢
      cases hs : kvGet stub.state name with
      | none => rfl
      | some v =>
        simp only [hs] at h ⊢
        cases hu : Unmarshal rt v with
        | error e => simp only [hu]
        | ok d =>
          simp only [hu, PutState] at h ⊢
          split_ifs at h ⊢ with hn
          · rfl
          · cases hp : kvGet stub.faults.put name with
            | some e => rfl
            | none => simp [hp] at h

theorem transferDiamond_success_owned (rt : Runtime) (stub : Stub) (nm w : String)
    (p : Option String) (h : (transferDiamond rt stub [nm, w]).1 = Response.success p) :
    OwnedBy (transferDiamond rt stub [nm, w]).2.state nm (ToLower rt w)
    ∧ ∀ n owner, OwnedBy stub.state n owner → n ≠ nm →
        OwnedBy (transferDiamond rt stub [nm, w]).2.state n owner := by
  obtain ⟨name, a1, rest, v, d, hargs, -, -, -, -, -, -, hst⟩ :=
    transferDiamond_success_inv rt stub [nm, w] p h
  injection hargs with h1 h2
  injection h2 with h2 _
  subst h1 h2
  rw [hst]
  refine ⟨⟨{ d with Owner := ToLower rt w }, by simp [kvGet_kvPut], rfl⟩, ?_⟩
  rintro n owner ⟨d0, hd0, ho0⟩ hne
  exact ⟨d0, by simp [kvGet_kvPut, hne, hd0], ho0⟩

theorem transferLoop_append (rt : Runtime) (origin w : String) (pre rest : KV) :
    ∀ (i : Nat) (stub stub1 : Stub) (p : Option String),
      transferLoop rt origin w pre i stub = (Response.success p, stub1) →
      transferLoop rt origin w (pre ++ rest) i stub
        = transferLoop rt origin w rest (i + pre.length) stub1 := by
  induction pre with
  | nil =>
    intro i stub stub1 p h
    simp only [transferLoop] at h
    injection h with _ h2
    subst h2
    rfl
  | cons e more ih =>
    intro i stub stub1 p h
    simp only [List.cons_append, transferLoop] at h ⊢
    cases hsp : SplitCompositeKey e.1 with
    | none => simp [hsp] at h
    | some r =>
      obtain ⟨ot, parts⟩ := r
      simp only [hsp] at h ⊢
      rcases parts with _ | ⟨o, _ | ⟨nm, tl⟩⟩
      · simp at h
      · simp at h
      · simp only at h ⊢
        cases ht : transferDiamond rt stub [nm, w] with
        | mk r stub2 =>
          cases r with
          | success q =>
            simp only [ht] at h ⊢
            show transferLoop rt origin w (more ++ rest) (i + 1) stub2 = _
            rw [ih (i + 1) stub2 stub1 p h, List.length_cons]
            congr 1
            omega
          | error m => simp [ht] at h
          | panic => simp [ht] at h

theorem transferLoop_prefix (rt : Runtime) (origin w : String) (pre : KV) :
    ∀ (i : Nat) (stub stub1 : Stub) (p : Option String),
      transferLoop rt origin w pre i stub = (Response.success p, stub1) →
      (∀ e ∈ pre, ∀ n, entryName e = some n → OwnedBy stub1.state n (ToLower rt w))
      ∧ (∀ n, OwnedBy stub.state n (ToLower rt w) → OwnedBy stub1.state n (ToLower rt w))
      ∧ ∃ l, stub1.log = stub.log ++ l
        ∧ ∀ a ∈ l, ∃ e ∈ pre, ∃ n, entryName e = some n ∧ a.touches n := by
  induction pre with
  | nil =>
    intro i stub stub1 p h
    simp only [transferLoop] at h
    injection h with _ h2
    subst h2
    exact ⟨fun e he => (by cases he), fun n hn => hn, [], (by simp),
      fun a ha => (by cases ha)⟩
  | cons e more ih =>
    intro i stub stub1 p h
    simp only [transferLoop] at h
    cases hsp : SplitCompositeKey e.1 with
    | none => simp [hsp] at h
    | some r =>
      obtain ⟨ot, parts⟩ := r
      simp only [hsp] at h
      rcases parts with _ | ⟨o, _ | ⟨nm, tl⟩⟩
      · simp at h
      · simp at h
      · have hname : entryName e = some nm := by simp [entryName, hsp]
        simp only at h
        cases ht : transferDiamond rt stub [nm, w] with
        | mk r stub2 =>
          cases r with
          | error m => simp [ht] at h
          | panic => simp [ht] at h
          | success q =>
            simp only [ht] at h
            obtain ⟨hown, hkeep, l2, hl2, hm2⟩ := ih (i + 1) stub2 stub1 p h
            have hstep := transferDiamond_success_owned rt stub nm w q (by rw [ht])
            rw [ht] at hstep
            obtain ⟨⟨l1, hl1, hm1⟩, -⟩ := transferDiamond_log rt stub nm w
            rw [ht] at hl1
            have hkeep1 : ∀ n, OwnedBy stub.state n (ToLower rt w) →
                OwnedBy stub2.state n (ToLower rt w) := by
              intro n hn
              by_cases hnn : n = nm
              · subst hnn; exact hstep.1
              · exact hstep.2 n _ hn hnn
            refine ⟨?_, fun n hn => hkeep n (hkeep1 n hn), l1 ++ l2, ?_, ?_⟩
            · intro e2 he2 n hn
              rcases List.mem_cons.1 he2 with rfl | he2
              · rw [hname] at hn
                injection hn with hn
                subst hn
                exact hkeep _ hstep.1
              · exact hown e2 he2 n hn
            · rw [hl2, hl1, List.append_assoc]
            · intro a ha
              rcases List.mem_append.1 ha with ha | ha
              · refine ⟨e, List.mem_cons_self _ _, nm, hname, ?_⟩
                rcases hm1 a ha with h1 | ⟨v, h1⟩
                · exact Or.inl h1
                · exact Or.inr (Or.inl ⟨v, h1⟩)
              · obtain ⟨e2, he2, n, hn, ht2⟩ := hm2 a ha
                exact ⟨e2, List.mem_cons_of_mem _ he2, n, hn, ht2⟩

theorem Access.touches_unique (a : Access) (n1 n2 : String) (h1 : a.touches n1)
    (h2 : a.touches n2) : n1 = n2 := by
  rcases h1 with h1 | ⟨v1, h1⟩ | h1 <;> rcases h2 with h2 | ⟨v2, h2⟩ | h2 <;> subst h1 <;>
    first
      | (cases h2; rfl)
      | cases h2

/-- C12 (counterexample): in the world state of `stubSharedName` the index scan for
`blue` yields two entries that both decode to the name `d1`; the transfer for the first
entry fails (the put is refused) and the operation returns that error, yet the record
`d1`, which the second entry names, has been read. -/
theorem transferdiamondsBasedOnOrigin_reads_shared_name :
    (GetStateByPartialCompositeKey stubSharedName "origin~name" ["blue"]).1
      = Except.ok [(indexKey "blue" "d1", sentinel),
          (indexKey "blue" "d1" ++ "x" ++ String.mk [minUnicodeRuneValue], sentinel)]
    ∧ entryName (indexKey "blue" "d1", sentinel) = some "d1"
    ∧ entryName (indexKey "blue" "d1" ++ "x" ++ String.mk [minUnicodeRuneValue], sentinel)
      = some "d1"
    ∧ kvGet stubSharedName.state "d1" = some (Marshal ⟨"diamond", "d1", "blue", 1, "al"⟩)
    ∧ (transferdiamondsBasedOnOrigin asciiRuntime stubSharedName ["blue", "bob"]).1
      = Response.error ("Transfer failed: " ++ "ledger unavailable")
    ∧ Access.get "d1"
      ∈ (transferdiamondsBasedOnOrigin asciiRuntime stubSharedName ["blue", "bob"]).2.log :=
  ⟨rfl, by decide, by decide, by decide, by decide, by decide⟩

/-- C12 (amended): in any world state, when the index scan for the origin yields the
entries `pre ++ ek :: post` in key order, the loop over `pre` succeeds, and the transfer
of the name decoded from `ek` fails with message `m`, `transferdiamondsBasedOnOrigin`
returns the error `Transfer failed: m` (no success payload) together with the stub as
the failing transfer left it: the failing transfer wrote nothing, every key named by an
entry of `pre` holds a record with the new owner, every store access after the scan
reads or writes a name decoded from `pre` or `ek`, and hence no access touches a name
that only entries of `post` decode to. -/
theorem transferdiamondsBasedOnOrigin_fail_fast (rt : Runtime) (stub : Stub)
    (origin newOwner : String) (pre post : KV) (ek : String × String)
    (stub0 stubPre stubK : Stub) (ot o nk m : String) (more : List String)
    (p : Option String)
    (hscan : GetStateByPartialCompositeKey stub "origin~name" [origin]
      = (Except.ok (pre ++ ek :: post), stub0))
    (hpre : transferLoop rt origin (ToLower rt newOwner) pre 0 stub0
      = (Response.success p, stubPre))
    (hsplit : SplitCompositeKey ek.1 = some (ot, o :: nk :: more))
    (hfail : transferDiamond rt stubPre [nk, ToLower rt newOwner] = (Response.error m, stubK)) :
    transferdiamondsBasedOnOrigin rt stub [origin, newOwner]
      = (Response.error ("Transfer failed: " ++ m), stubK)
    ∧ stubK.state = stubPre.state
    ∧ (∀ e ∈ pre, ∀ n, entryName e = some n →
        OwnedBy stubK.state n (ToLower rt (ToLower rt newOwner)))
    ∧ ∃ l, stubK.log = stub0.log ++ l
      ∧ (∀ a ∈ l, ∃ e ∈ pre ++ [ek], ∃ n, entryName e = some n ∧ a.touches n)
      ∧ (∀ e ∈ post, ∀ n, entryName e = some n →
          (∀ e2 ∈ pre ++ [ek], entryName e2 ≠ some n) → ∀ a ∈ l, ¬ a.touches n) := by
  have hstate : stubK.state = stubPre.state := by
    have := transferDiamond_error_state rt stubPre [nk, ToLower rt newOwner] m (by rw [hfail])
    rwa [hfail] at this
  obtain ⟨hown, -, l1, hl1, hm1⟩ := transferLoop_prefix rt origin (ToLower rt newOwner) pre 0
    stub0 stubPre p hpre
  obtain ⟨⟨l2, hl2, hm2⟩, -⟩ := transferDiamond_log rt stubPre nk (ToLower rt newOwner)
  rw [hfail] at hl2
  have hname : entryName ek = some nk := by simp [entryName, hsplit]
  have hacc : ∀ a ∈ l1 ++ l2, ∃ e ∈ pre ++ [ek], ∃ n, entryName e = some n ∧ a.touches n := by
    intro a ha
    rcases List.mem_append.1 ha with ha | ha
    · obtain ⟨e, he, n, hn, ht⟩ := hm1 a ha
      exact ⟨e, List.mem_append_left _ he, n, hn, ht⟩
    · refine ⟨ek, List.mem_append_right _ (List.mem_singleton_self _), nk, hname, ?_⟩
      rcases hm2 a ha with h1 | ⟨v, h1⟩
      · exact Or.inl h1
      · exact Or.inr (Or.inl ⟨v, h1⟩)
  refine ⟨?_, hstate, ?_, l1 ++ l2, ?_, hacc, ?_⟩
  · simp only [transferdiamondsBasedOnOrigin, hscan]
    rw [transferLoop_append rt origin (ToLower rt newOwner) pre (ek :: post) 0 stub0 stubPre p
      hpre]
    simp only [transferLoop, hsplit, hfail]
  · intro e he n hn
    rw [hstate]
    exact hown e he n hn
  · simp only at hl2
    rw [hl2, hl1, List.append_assoc]
  · intro e _ n _ hfresh a ha ht
    obtain ⟨e2, he2, n2, hn2, ht2⟩ := hacc a ha
    exact hfresh e2 he2 (by rw [hn2, Access.touches_unique a n2 n ht2 ht])

/-- C12 (witness): in `storeMissingD2` the scan for `blue` yields the index entries of
`d1`, `d2`, `d3`; the transfer of `d1` succeeds, that of `d2` fails because its record
is missing, and `d3` is not reached. -/
theorem transferdiamondsBasedOnOrigin_fail_fast_witness :
    transferdiamondsBasedOnOrigin asciiRuntime (Stub.fresh storeMissingD2 []) ["blue", "BOB"]
      = (Response.error ("Transfer failed: " ++ "Diamond does not exist"),
          (transferDiamond asciiRuntime
            (transferLoop asciiRuntime "blue" (ToLower asciiRuntime "BOB")
              [(indexKey "blue" "d1", sentinel)] 0
              (GetStateByPartialCompositeKey (Stub.fresh storeMissingD2 []) "origin~name"
                ["blue"]).2).2
            ["d2", ToLower asciiRuntime "BOB"]).2)
    ∧ OwnedBy (transferdiamondsBasedOnOrigin asciiRuntime (Stub.fresh storeMissingD2 [])
        ["blue", "BOB"]).2.state "d1" "bob"
    ∧ kvGet (transferdiamondsBasedOnOrigin asciiRuntime (Stub.fresh storeMissingD2 [])
        ["blue", "BOB"]).2.state "d3" = kvGet storeMissingD2 "d3" := by
  have h := transferdiamondsBasedOnOrigin_fail_fast asciiRuntime (Stub.fresh storeMissingD2 [])
    "blue" "BOB" [(indexKey "blue" "d1", sentinel)] [(indexKey "blue" "d3", sentinel)]
    (indexKey "blue" "d2", sentinel)
    (GetStateByPartialCompositeKey (Stub.fresh storeMissingD2 []) "origin~name" ["blue"]).2
    (transferLoop asciiRuntime "blue" (ToLower asciiRuntime "BOB")
      [(indexKey "blue" "d1", sentinel)] 0
      (GetStateByPartialCompositeKey (Stub.fresh storeMissingD2 []) "origin~name" ["blue"]).2).2
    (transferDiamond asciiRuntime
      (transferLoop asciiRuntime "blue" (ToLower asciiRuntime "BOB")
        [(indexKey "blue" "d1", sentinel)] 0
        (GetStateByPartialCompositeKey (Stub.fresh storeMissingD2 []) "origin~name"
          ["blue"]).2).2
      ["d2", ToLower asciiRuntime "BOB"]).2
    "origin~name" "blue" "d2" "Diamond does not exist" []
    (some (transferPayload 1 "blue" "bob")) rfl rfl rfl rfl
  refine ⟨h.1, ?_, ?_⟩
  · rw [h.1]
    exact h.2.2.1 _ (List.mem_singleton_self _) "d1" rfl
  · rw [h.1]
    decide

/-! ## Records keep their identity -/

theorem LiveRecord.unique {rt : Runtime} {kv : KV} {name : String} {d d1 : diamond}
    (h : LiveRecord rt kv name d) (h1 : LiveRecord rt kv name d1) : d = d1 := by
  obtain ⟨v, hv, hu⟩ := h
  obtain ⟨v1, hv1, hu1⟩ := h1
  rw [hv] at hv1
  injection hv1 with hv1
  subst hv1
  rw [hu] at hu1
  injection hu1

theorem LiveRecord.of_get_eq {rt : Runtime} {kv kv1 : KV} {name : String} {d : diamond}
    (h : LiveRecord rt kv1 name d) (he : kvGet kv1 name = kvGet kv name) :
    LiveRecord rt kv name d := by
  obtain ⟨v, hv, hu⟩ := h
  exact ⟨v, by rw [← he, hv], hu⟩

theorem createDiamond_same (rt : Runtime) (stub : Stub) (args : List String)
    (p : Option String) (hf : stub.faults = Faults.none)
    (h : (createDiamond rt stub args).1 = Response.success p) (name : String) (d d1 : diamond)
    (hd : LiveRecord rt stub.state name d)
    (hd1 : LiveRecord rt (createDiamond rt stub args).2.state name d1) : d1 = d := by
  obtain ⟨nm, origin, ct, owner, n, -, -, -, -, -, -, habs, -, -, -, -, hst⟩ :=
    createDiamond_success_inv rt stub args p h
  have hpi : kvGet stub.faults.put (indexKey (ToLower rt origin) nm) = Option.none := by
    rw [hf]; rfl
  rw [hst] at hd1
  simp only [PutState, indexKey_ne_empty, if_false, hpi] at hd1
  obtain ⟨v1, hv1, hu1⟩ := hd1
  have hne : name ≠ nm := by
    intro he
    obtain ⟨v, hv, -⟩ := hd
    rw [he, habs] at hv
    cases hv
  rw [kvGet_kvPut, kvGet_kvPut] at hv1
  split_ifs at hv1 with h1
  · injection hv1 with hv1
    subst hv1
    cases hu1
  · exact (LiveRecord.unique hd ⟨v1, hv1, hu1⟩).symm

theorem delete_same (rt : Runtime) (stub : Stub) (args : List String) (p : Option String)
    (h : (delete rt stub args).1 = Response.success p) (name : String) (d d1 : diamond)
    (hd : LiveRecord rt stub.state name d)
    (hd1 : LiveRecord rt (delete rt stub args).2.state name d1) : d1 = d := by
  obtain ⟨nm, v, d0, -, -, -, -, -, -, -, -, -, hst⟩ := delete_success_inv rt stub args p h
  rw [hst] at hd1
  obtain ⟨v1, hv1, hu1⟩ := hd1
  simp only [kvGet_kvDel] at hv1
  split_ifs at hv1
  exact (LiveRecord.unique hd ⟨v1, hv1, hu1⟩).symm

theorem transferDiamond_same (rt : Runtime) (stub : Stub) (args : List String)
    (p : Option String) (hI : Inv rt stub.state)
    (h : (transferDiamond rt stub args).1 = Response.success p) (name : String)
    (d d1 : diamond) (hd : LiveRecord rt stub.state name d)
    (hd1 : LiveRecord rt (transferDiamond rt stub args).2.state name d1) :
    SameIdentity d d1 := by
  obtain ⟨nm, a1, rest, v, d0, -, -, hs, hu, -, -, -, hst⟩ :=
    transferDiamond_success_inv rt stub args p h
  obtain ⟨hd0, -, -⟩ := hI.record_of_decodes nm v d0 hs hu
  rw [hst] at hd1
  obtain ⟨v1, hv1, hu1⟩ := hd1
  simp only [kvGet_kvPut] at hv1
  split_ifs at hv1 with hn
  · injection hv1 with hv1
    subst hv1 hn
    rw [Unmarshal_Marshal rt { d0 with Owner := ToLower rt a1 } hd0.carats_lo hd0.carats_hi]
      at hu1
    injection hu1 with hu1
    have := LiveRecord.unique hd ⟨v, hs, hu⟩
    subst this hu1
    exact ⟨rfl, rfl, rfl, rfl⟩
  · have := LiveRecord.unique hd ⟨v1, hv1, hu1⟩
    subst this
    exact ⟨rfl, rfl, rfl, rfl⟩

theorem transferdiamondsBasedOnOrigin_same (rt : Runtime) (stub : Stub) (args : List String)
    (p : Option String) (hI : Inv rt stub.state) (hf : stub.faults = Faults.none)
    (h : (transferdiamondsBasedOnOrigin rt stub args).1 = Response.success p) (name : String)
    (d d1 : diamond) (hd : LiveRecord rt stub.state name d)
    (hd1 : LiveRecord rt (transferdiamondsBasedOnOrigin rt stub args).2.state name d1) :
    SameIdentity d d1 := by
  rcases args with _ | ⟨origin, _ | ⟨a1, rest⟩⟩
  · simp [transferdiamondsBasedOnOrigin] at h
  · simp [transferdiamondsBasedOnOrigin] at h
  · rcases CreateCompositeKey_partial_cases origin with ⟨ho, -⟩ | ⟨-, err, hc, -⟩
    · obtain ⟨stub1, hop, -, hframe, hset⟩ :=
        transferdiamondsBasedOnOrigin_ok rt stub origin a1 rest hI hf ho
      rw [hop] at hd1
      simp only at hd1
      obtain ⟨v, hv, hu⟩ := hd
      obtain ⟨hgood, hdn, hm⟩ := hI.record_of_decodes name v d hv hu
      subst hm
      by_cases hvis : ∃ e ∈ indexScan stub.state origin, e.1 = indexKey origin name
      · obtain ⟨e, he, hk⟩ := hvis
        have hnew := hset e he name d hk hgood hv
        have := LiveRecord.unique hd1
          ⟨_, hnew, Unmarshal_Marshal rt _ hgood.carats_lo hgood.carats_hi⟩
        subst this
        exact ⟨rfl, rfl, rfl, rfl⟩
      · have hsame := hframe name (fun e he hk => hvis ⟨e, he, hk⟩)
        have := LiveRecord.unique (LiveRecord.of_get_eq hd1 hsame) ⟨_, hv, hu⟩
        subst this
        exact ⟨rfl, rfl, rfl, rfl⟩
    · simp [transferdiamondsBasedOnOrigin, GetStateByPartialCompositeKey, hc] at h

theorem commit_same (rt : Runtime) (hist : List (String × List KeyModification)) (kv : KV)
    (function : String) (args : List String) (hI : Inv rt kv) (name : String) (d d1 : diamond)
    (hd : LiveRecord rt kv name d)
    (hd1 : LiveRecord rt (commit rt hist kv function args) name d1) : SameIdentity d d1 := by
  have hrefl : ∀ x : diamond, SameIdentity x x := fun x => ⟨rfl, rfl, rfl, rfl⟩
  unfold commit at hd1
  cases hr : Invoke rt (Stub.fresh kv hist) function args with
  | mk r stub1 =>
    rw [hr] at hd1
    cases r with
    | error m => rw [LiveRecord.unique hd hd1]; exact hrefl _
    | panic => rw [LiveRecord.unique hd hd1]; exact hrefl _
    | success p =>
      simp only at hd1
      have h1 : (Invoke rt (Stub.fresh kv hist) function args).1 = Response.success p := by
        rw [hr]
      have h2 : stub1 = (Invoke rt (Stub.fresh kv hist) function args).2 := by rw [hr]
      rw [h2] at hd1
      unfold Invoke at h1 hd1
      split_ifs at h1 hd1
      · rw [createDiamond_same rt _ args p rfl h1 name d d1 hd hd1]; exact hrefl _
      · exact transferDiamond_same rt _ args p hI h1 name d d1 hd hd1
      · exact transferdiamondsBasedOnOrigin_same rt _ args p hI rfl h1 name d d1 hd hd1
      · rw [delete_same rt _ args p h1 name d d1 hd hd1]; exact hrefl _
      · rw [queryDiamond_state] at hd1
        rw [LiveRecord.unique hd hd1]; exact hrefl _
      · rw [getHistoryFordiamond_state] at hd1
        rw [LiveRecord.unique hd hd1]; exact hrefl _

/-- C18: when lower-casing is idempotent, in every reachable state every live record's
origin and owner are fixed points of lower-casing (no rune of them is changed by it) and
the record's name field is the key it is stored under; and for any single invocation, a
record that is live under a name both before and after it has the same docType, name,
origin and carats after as before, so that the owner is the only field that changes. -/
theorem records_are_canonical (rt : Runtime) (hidem : LowerIdempotent rt) :
    (∀ (kv : KV) (name : String) (d : diamond), Reachable rt kv → LiveRecord rt kv name d →
      ToLower rt d.Origin = d.Origin ∧ ToLower rt d.Owner = d.Owner
      ∧ (∀ c ∈ d.Origin.data, rt.toLowerRune c = c)
      ∧ (∀ c ∈ d.Owner.data, rt.toLowerRune c = c)
      ∧ d.Name = name)
    ∧ (∀ (kv : KV) (hist : List (String × List KeyModification)) (function : String)
        (args : List String) (name : String) (d d1 : diamond), Reachable rt kv →
        LiveRecord rt kv name d → LiveRecord rt (commit rt hist kv function args) name d1 →
        d1.ObjectType = d.ObjectType ∧ d1.Name = d.Name ∧ d1.Origin = d.Origin
          ∧ d1.Carats = d.Carats) := by
  constructor
  · rintro kv name d hR ⟨v, hv, hu⟩
    obtain ⟨hd, hn, -⟩ := hR.inv.record_of_decodes name v d hv hu
    obtain ⟨s, hs⟩ := hd.origin_lower
    obtain ⟨w, hw⟩ := hd.owner_lower
    have h1 : ToLower rt d.Origin = d.Origin := by rw [hs]; exact ToLower_idem rt hidem s
    have h2 : ToLower rt d.Owner = d.Owner := by rw [hw]; exact ToLower_idem rt hidem w
    refine ⟨h1, h2, ?_, ?_, hn⟩
    · exact map_eq_self_fixed _ _ (congrArg String.data h1)
    · exact map_eq_self_fixed _ _ (congrArg String.data h2)
  · intro kv hist function args name d d1 hR hd hd1
    exact commit_same rt hist kv function args hR.inv name d d1 hd hd1

/-- C18 (witness): the live record of `storeD1`, and the step that transfers it to
`BOB`. -/
theorem records_are_canonical_witness :
    (ToLower asciiRuntime (⟨"diamond", "d1", "blue", 1, "al"⟩ : diamond).Origin = "blue"
      ∧ ToLower asciiRuntime (⟨"diamond", "d1", "blue", 1, "al"⟩ : diamond).Owner = "al"
      ∧ (∀ c ∈ (⟨"diamond", "d1", "blue", 1, "al"⟩ : diamond).Origin.data,
          asciiRuntime.toLowerRune c = c)
      ∧ (∀ c ∈ (⟨"diamond", "d1", "blue", 1, "al"⟩ : diamond).Owner.data,
          asciiRuntime.toLowerRune c = c)
      ∧ (⟨"diamond", "d1", "blue", 1, "al"⟩ : diamond).Name = "d1")
    ∧ ((⟨"diamond", "d1", "blue", 1, "bob"⟩ : diamond).ObjectType = "diamond"
      ∧ (⟨"diamond", "d1", "blue", 1, "bob"⟩ : diamond).Name = "d1"
      ∧ (⟨"diamond", "d1", "blue", 1, "bob"⟩ : diamond).Origin = "blue"
      ∧ (⟨"diamond", "d1", "blue", 1, "bob"⟩ : diamond).Carats = 1) :=
  ⟨(records_are_canonical asciiRuntime asciiRuntime_idempotent).1 storeD1 "d1"
      ⟨"diamond", "d1", "blue", 1, "al"⟩
      (Reachable.step [] [] "createDiamond" ["d1", "Blue", "1", "AL"] Reachable.empty)
      ⟨Marshal ⟨"diamond", "d1", "blue", 1, "al"⟩, by decide, rfl⟩,
    (records_are_canonical asciiRuntime asciiRuntime_idempotent).2 storeD1 [] "transferDiamond"
      ["d1", "BOB"] "d1" ⟨"diamond", "d1", "blue", 1, "al"⟩ ⟨"diamond", "d1", "blue", 1, "bob"⟩
      (Reachable.step [] [] "createDiamond" ["d1", "Blue", "1", "AL"] Reachable.empty)
      ⟨Marshal ⟨"diamond", "d1", "blue", 1, "al"⟩, by decide, rfl⟩
      ⟨Marshal ⟨"diamond", "d1", "blue", 1, "bob"⟩, by decide, rfl⟩⟩

/-! ## UTF-8 and the codec on byte strings -/

theorem escapeGoString_step (g : Nat) (c : Char) (rest : List Nat) :
    escapeGoString (g + 1) (encodeRune c ++ rest) = escapeRune c ++ escapeGoString g rest := by
  obtain ⟨b, bs, hb, hw⟩ := encodeRune_cons c
  have hd := decodeRune_encodeRune c rest
  rw [hb] at hd hw ⊢
  simp only [List.cons_append] at hd ⊢
  simp only [escapeGoString, hd, hw, if_false]
  rw [← List.cons_append, List.drop_left]

theorem escapeGoString_utf8Bytes (s : List Char) :
    ∀ f, s.length ≤ f → escapeGoString f (utf8Bytes s) = escapeString s := by
  induction s with
  | nil => intro f _; cases f <;> rfl
  | cons c cs ih =>
    intro f hf
    obtain ⟨g, rfl⟩ : ∃ g, f = g + 1 := ⟨f - 1, by simp at hf; omega⟩
    simp only [utf8Bytes, escapeString]
    rw [escapeGoString_step, ih g (by simpa using hf)]

theorem quoteGoString_utf8Bytes (s : String) :
    quoteGoString (utf8Bytes s.data) = quoteString s := by
  unfold quoteGoString quoteString
  rw [escapeGoString_utf8Bytes s.data _ (utf8Bytes_length s.data)]

theorem MarshalBytes_toBytes (d : diamond) :
    MarshalBytes d.toBytes = utf8Bytes (Marshal d).data := by
  simp only [MarshalBytes, diamond.toBytes, quoteGoString_utf8Bytes, Marshal]

theorem UnmarshalBytes_utf8Bytes (rt : Runtime) (s : String) :
    UnmarshalBytes rt (utf8Bytes s.data)
      = (match Unmarshal rt s with
        | Except.ok d => Except.ok d.toBytes
        | Except.error e => Except.error e) := by
  unfold UnmarshalBytes
  rw [goText_utf8Bytes s.data _ (utf8Bytes_length s.data)]

/-- C17 (counterexample): the record whose name is the single byte `0xFF`, which is not
valid UTF-8, does not survive the round trip: `json.Marshal` writes the name as the
escape of U+FFFD and decoding yields the three bytes of U+FFFD instead. -/
theorem roundtrip_alters_invalid_utf8 :
    UnmarshalBytes asciiRuntime
        (MarshalBytes ⟨utf8Bytes "diamond".data, [0xFF], utf8Bytes "blue".data, 1,
          utf8Bytes "al".data⟩)
      = Except.ok ⟨utf8Bytes "diamond".data, [0xEF, 0xBF, 0xBD], utf8Bytes "blue".data, 1,
          utf8Bytes "al".data⟩
    ∧ ([0xEF, 0xBF, 0xBD] : List Nat) ≠ [0xFF] :=
  ⟨rfl, by decide⟩

/-- C17 (amended): for every record whose docType, name, origin and owner are valid
UTF-8 (the bytes of a text) and whose carats is a 64-bit integer, decoding the JSON
encoding of the record yields the same record: `json.Unmarshal` of `json.Marshal`
returns docType, name, origin, carats and owner unchanged, on byte strings as well as on
the texts themselves. -/
theorem roundtrip_valid_utf8 (rt : Runtime) (d : diamond) (hlo : -(2 ^ 63) ≤ d.Carats)
    (hhi : d.Carats < 2 ^ 63) :
    UnmarshalBytes rt (MarshalBytes d.toBytes) = Except.ok d.toBytes
    ∧ Unmarshal rt (Marshal d) = Except.ok d := by
  refine ⟨?_, Unmarshal_Marshal rt d hlo hhi⟩
  rw [MarshalBytes_toBytes, UnmarshalBytes_utf8Bytes, Unmarshal_Marshal rt d hlo hhi]

/-- C17 (witness): a record with escaped and multi-byte runes in its strings and a
negative carats value. -/
theorem roundtrip_valid_utf8_witness :
    UnmarshalBytes asciiRuntime
        (MarshalBytes (diamond.toBytes ⟨"diamond", "a<\"é€\n", "blue", -5, "al"⟩))
      = Except.ok (diamond.toBytes ⟨"diamond", "a<\"é€\n", "blue", -5, "al"⟩)
    ∧ Unmarshal asciiRuntime (Marshal ⟨"diamond", "a<\"é€\n", "blue", -5, "al"⟩)
      = Except.ok ⟨"diamond", "a<\"é€\n", "blue", -5, "al"⟩ :=
  roundtrip_valid_utf8 asciiRuntime ⟨"diamond", "a<\"é€\n", "blue", -5, "al"⟩ (by decide)
    (by decide)

/-! ## Invalid UTF-8 in key attributes, and the index on a ledger that fails -/

theorem validateCompositeKeyAttributeBytes_rejects_invalid :
    validateCompositeKeyAttributeBytes [0xFF] = Except.error "Not a valid utf8 string: [ff]"
    ∧ validateCompositeKeyAttributeBytes [0x42, 0xFF]
      = Except.error "Not a valid utf8 string: [42ff]" :=
  ⟨rfl, rfl⟩

theorem Reachable.faulty {rt : Runtime} {kv : KV} (h : Reachable rt kv) :
    ReachableFaulty rt kv := by
  induction h with
  | empty => exact ReachableFaulty.empty
  | step kv hist function args _ ih =>
    exact ReachableFaulty.step kv Faults.none hist function args ih

/-- C1 (the code at the failing input): `createDiamond("d1", "blue", "1", "al")` on the
empty store, with a ledger that fails the put of the index key, answers success, so its
writes are committed; in the state reached the record `d1` of origin `blue` is live and
no index entry is keyed by the name `d1`, whatever the origin: live records and index
entries are not in bijection. -/
theorem index_put_failure_breaks_bijection :
    (createDiamond asciiRuntime stubIndexPutFails ["d1", "blue", "1", "al"]).1
      = Response.success Option.none
    ∧ ReachableFaulty asciiRuntime storeUnindexed
    ∧ LiveRecord asciiRuntime storeUnindexed "d1" ⟨"diamond", "d1", "blue", 1, "al"⟩
    ∧ ∀ o, ¬ IndexEntry storeUnindexed o "d1" := by
  have hst : storeUnindexed = [("d1", Marshal ⟨"diamond", "d1", "blue", 1, "al"⟩)] := by decide
  refine ⟨by decide, ReachableFaulty.step [] stubIndexPutFails.faults [] "createDiamond"
    ["d1", "blue", "1", "al"] ReachableFaulty.empty,
    ⟨Marshal ⟨"diamond", "d1", "blue", 1, "al"⟩, by rw [hst]; rfl, rfl⟩, ?_⟩
  rintro o ⟨key, hc, hs⟩
  obtain ⟨-, -, hk⟩ := CreateCompositeKey_index_inv _ _ _ hc
  subst hk
  rw [hst] at hs
  have hne : indexKey o "d1" ≠ "d1" := indexKey_ne_of_noReserved o "d1" "d1" (by decide)
  simp [kvGet, hne] at hs
  exact hne hs.symm
end FabricChaincode
